import Mathlib

/-!
Verification development for the codex-mem storage engine.

This file gives a shallow embedding, in Lean, of the pure core of the
codex-mem TypeScript sources (`schema.ts`, `memory-store.ts`, `retriever.ts`,
`prune.ts`, `summarizer.ts`, `file-lock.ts`, and the index module), and proves
or refutes the frozen claims about it.

Modelling conventions:
* JavaScript numbers are modelled as exact rationals (`ℚ`) for scores and
  importances, and as integers (`ℤ`) for millisecond timestamps.  `NaN` is not
  representable in this model; claims touching unparsable dates in contexts
  where the code would produce `NaN` arithmetic carry explicit parsability
  hypotheses.
* `Date.parse` is modelled by an arbitrary parameter
  `dateParse : String → Option ℤ` (`none` models `NaN`); all theorems hold for
  every such parameter.
* `Math.exp` is modelled by an arbitrary parameter `expQ : ℚ → ℚ`; no theorem
  relies on properties of the exponential.
* `JSON.parse` is modelled by an arbitrary parameter
  `jsonParse : String → Except String Json` over an embedded `Json` type;
  the `sha256` content fingerprint is modelled by the normalized content
  string itself (the hash is injective in the model).
* JavaScript objects and `Map`s are modelled as insertion-ordered association
  lists; `Array.prototype.sort` (stable since ES2019) is modelled by
  `List.mergeSort`, which is stable.
-/

open scoped List

namespace CodexMem

/-- Embedded JSON values: used for parsed log lines and the opaque
`metadata` payload of a memory item. Objects are insertion-ordered
association lists, as in JavaScript. -/
inductive Json where
  | null : Json
  | bool (b : Bool) : Json
  | num (q : ℚ) : Json
  | str (s : String) : Json
  | arr (elems : List Json) : Json
  | obj (fields : List (String × Json)) : Json

/-- The durable unit of memory (`MemoryItem` in `schema.ts`).
`summary` and `metadata` are nullable (`Option`); `importance` is a number;
timestamps are the raw ISO strings stored in the record. -/
structure MemoryItem where
  id : String
  createdAt : String
  updatedAt : String
  scope : String
  tags : List String
  content : String
  summary : Option String
  metadata : Option Json
  importance : ℚ
  deleted : Bool

/-- A patch (`MemoryPatch` in `schema.ts`): every field is independently
"absent" (outer `none`) or "supplied".  For the nullable fields `summary` and
`metadata` a supplied value may itself be `null` (inner `none`),
distinguishing an explicit null from an omitted field. -/
structure MemoryPatch where
  scope : Option String := none
  tags : Option (List String) := none
  content : Option String := none
  summary : Option (Option String) := none
  metadata : Option (Option Json) := none
  importance : Option ℚ := none
  deleted : Option Bool := none

/-! ### JavaScript string and array helpers -/

/-- JavaScript `String.prototype.trim`: drop leading and trailing whitespace.
Implemented structurally over the character list so that it evaluates by
kernel reduction. -/
def jsTrim (s : String) : String :=
  String.mk
    (((s.toList.dropWhile Char.isWhitespace).reverse.dropWhile
      Char.isWhitespace).reverse)

/-- JavaScript `String.prototype.toLowerCase` (restricted to the simple
per-character lowering of `Char.toLower`). -/
def jsToLower (s : String) : String :=
  String.mk (s.toList.map Char.toLower)

/-- JavaScript `Array.from(new Set(xs))`: removes duplicates keeping the
first occurrence of each element, in order. -/
def jsDedup (l : List String) : List String :=
  l.foldl (fun acc x => if x ∈ acc then acc else acc ++ [x]) []

/-- `scope.trim()` (`normalizeScope` in `schema.ts`). -/
def normalizeScope (scope : String) : String := jsTrim scope

/-- `tag.trim().toLowerCase()` (`normalizeTag` in `schema.ts`). -/
def normalizeTag (tag : String) : String := jsToLower (jsTrim tag)

/-- `normalizeTags` in `schema.ts`: normalize each tag, drop empties,
dedupe keeping first occurrences. -/
def normalizeTags (tags : List String) : List String :=
  jsDedup ((tags.map normalizeTag).filter (fun tag => tag.length ≠ 0))

/-- `clampImportance` in `schema.ts`.  `none` models a non-numeric value
(`undefined`/`null`); `NaN` is not representable in the rational model. -/
def clampImportance (value : Option ℚ) (fallback : ℚ) : ℚ :=
  match value with
  | none => fallback
  | some v => if v < 0 then 0 else if v > 1 then 1 else v

/-! ### Line splitting

`content.split(/\r?\n/)` splits at each `"\n"`, additionally consuming one
immediately preceding `"\r"`. -/

/-- Drop a single leading carriage return of a reversed line accumulator
(i.e. a single trailing `'\r'` of the line just ended by `'\n'`). -/
def stripTrailingCR (revLine : List Char) : List Char :=
  match revLine with
  | '\r' :: rest => rest
  | other => other

/-- Worker for `jsSplitLines`; `revCur` holds the current line reversed. -/
def splitLinesGo (revCur : List Char) : List Char → List String
  | [] => [String.mk revCur.reverse]
  | c :: rest =>
    if c = '\n' then
      String.mk (stripTrailingCR revCur).reverse :: splitLinesGo [] rest
    else
      splitLinesGo (c :: revCur) rest

/-- `content.split(/\r?\n/)` as used by `readAllItems` and
`repairMemoryFile`.  Always returns at least one (possibly empty) line. -/
def jsSplitLines (content : String) : List String :=
  splitLinesGo [] content.toList

/-! ### Schema validation (`validateMemoryItem` in `schema.ts`) -/

/-- Look up a field of a JSON object; `none` models `undefined`
(missing key, or the value is not an object). -/
def Json.getField? (j : Json) (key : String) : Option Json :=
  match j with
  | .obj fields => (fields.find? (fun p => p.1 == key)).map (·.2)
  | _ => none

/-- `isRecord` in `schema.ts`: a non-null, non-array object. -/
def Json.isRecord (j : Json) : Bool :=
  match j with
  | .obj _ => true
  | _ => false

/-- Whether the field is a string whose trimmed form is non-empty
(the check applied to the required string fields). -/
def isValidStringField (j : Json) (key : String) : Bool :=
  match j.getField? key with
  | some (.str s) => (jsTrim s).length ≠ 0
  | _ => false

/-- `validateMemoryItem` in `schema.ts`: returns the list of field-level
error messages; the value is valid when the list is empty. -/
def validateMemoryItem (j : Json) : List String :=
  match j with
  | .obj _ =>
    (["id", "createdAt", "updatedAt", "scope", "content"].filterMap
      (fun field =>
        if isValidStringField j field then none
        else some ("Invalid or missing " ++ field))) ++
    (match j.getField? "tags" with
     | some (.arr elems) =>
       if elems.all (fun e => match e with | .str _ => true | _ => false) then []
       else ["Invalid or missing tags"]
     | _ => ["Invalid or missing tags"]) ++
    (match j.getField? "deleted" with
     | some (.bool _) => []
     | _ => ["Invalid or missing deleted flag"]) ++
    (match j.getField? "importance" with
     | some (.num _) => []
     | _ => ["Invalid or missing importance"]) ++
    (match j.getField? "summary" with
     | some .null => []
     | some (.str _) => []
     | _ => ["Invalid summary"]) ++
    (match j.getField? "metadata" with
     | some .null => []
     | some m => if m.isRecord then [] else ["Invalid metadata"]
     | none => ["Invalid metadata"])
  | _ => ["Memory item is not an object"]

/-- Extract the string content of a JSON string value. -/
def Json.asString (j : Json) : Option String :=
  match j with | .str s => some s | _ => none

/-- Convert a validated JSON value into a `MemoryItem`.  In the TypeScript
source the parsed object is used directly (structural typing); here we
extract the fields, with inert defaults for shapes validation excludes. -/
def toMemoryItem (j : Json) : MemoryItem where
  id := ((j.getField? "id").bind Json.asString).getD ""
  createdAt := ((j.getField? "createdAt").bind Json.asString).getD ""
  updatedAt := ((j.getField? "updatedAt").bind Json.asString).getD ""
  scope := ((j.getField? "scope").bind Json.asString).getD ""
  tags :=
    match j.getField? "tags" with
    | some (.arr elems) => elems.filterMap Json.asString
    | _ => []
  content := ((j.getField? "content").bind Json.asString).getD ""
  summary :=
    match j.getField? "summary" with
    | some (.str s) => some s
    | _ => none
  metadata :=
    match j.getField? "metadata" with
    | some .null => none
    | some m => if m.isRecord then some m else none
    | none => none
  importance :=
    match j.getField? "importance" with
    | some (.num q) => q
    | _ => 0
  deleted :=
    match j.getField? "deleted" with
    | some (.bool b) => b
    | _ => false

/-! ### Reading the log (`parseLine`, `readAllItems` in `memory-store.ts`) -/

/-- Result of parsing a single line: the item if the line is valid, and the
diagnostic message if the line is non-blank but invalid (mirrors the
`{item, error}` result of `parseLine`). -/
structure ParsedLine where
  item : Option MemoryItem
  error : Option String

/-- `parseLine` in `memory-store.ts`: blank lines produce neither an item nor
an error; non-blank lines either JSON-parse and validate to an item, or
produce one line-numbered diagnostic. -/
def parseLine (jsonParse : String → Except String Json)
    (line : String) (lineNumber : Nat) : ParsedLine :=
  if (jsTrim line).length = 0 then ⟨none, none⟩
  else
    match jsonParse line with
    | .error msg => ⟨none, some ("Line " ++ toString lineNumber ++ ": " ++ msg)⟩
    | .ok j =>
      match validateMemoryItem j with
      | [] => ⟨some (toMemoryItem j), none⟩
      | errs =>
        ⟨none, some ("Line " ++ toString lineNumber ++ ": " ++
          String.intercalate "; " errs)⟩

/-- Aggregate statistics of a full read (`ReadStats` in `memory-store.ts`). -/
structure ReadStats where
  totalLines : Nat
  emptyLines : Nat
  validLines : Nat
  invalidLines : Nat
  bytes : Nat

/-- Result of a full read (`ReadResult` in `memory-store.ts`). -/
structure ReadResult where
  items : List MemoryItem
  errors : List String
  stats : ReadStats

/-- Accumulator of the `readAllItems` loop. -/
structure ReadAcc where
  items : List MemoryItem
  errors : List String
  empty : Nat
  valid : Nat
  invalid : Nat

/-- The accumulation loop of `readAllItems`, processing lines in order with
1-based line numbers: skips blank lines (counting them), collects parsed
items and diagnostics, and counts valid and invalid lines. -/
def readLinesGo (jsonParse : String → Except String Json)
    (lineNumber : Nat) : List String → ReadAcc
  | [] => ⟨[], [], 0, 0, 0⟩
  | line :: rest =>
    let acc := readLinesGo jsonParse (lineNumber + 1) rest
    if (jsTrim line).length = 0 then
      ⟨acc.items, acc.errors, acc.empty + 1, acc.valid, acc.invalid⟩
    else
      match parseLine jsonParse line lineNumber with
      | ⟨some item, _⟩ =>
        ⟨item :: acc.items, acc.errors, acc.empty, acc.valid + 1, acc.invalid⟩
      | ⟨none, some err⟩ =>
        ⟨acc.items, err :: acc.errors, acc.empty, acc.valid, acc.invalid + 1⟩
      | ⟨none, none⟩ =>
        ⟨acc.items, acc.errors, acc.empty, acc.valid, acc.invalid⟩

/-- `readAllItems` in `memory-store.ts`, as a pure function of the file
content: splits into lines, parses each, and aggregates statistics. -/
def readAllItems (jsonParse : String → Except String Json)
    (content : String) : ReadResult :=
  let lines := jsSplitLines content
  let acc := readLinesGo jsonParse 1 lines
  { items := acc.items
    errors := acc.errors
    stats :=
      { totalLines := lines.length
        emptyLines := acc.empty
        validLines := acc.valid
        invalidLines := acc.invalid
        bytes := content.utf8ByteSize } }

/-! ### Latest-wins resolution (`getTimestamp`, `selectLatestItems`) -/

/-- `getTimestamp` in `memory-store.ts`: `Date.parse(updatedAt)`, falling back
to `Date.parse(createdAt)` if unparsable, falling back to epoch zero.
`dateParse` models `Date.parse` (with `none` for `NaN`). -/
def getTimestamp (dateParse : String → Option ℤ) (item : MemoryItem) : ℤ :=
  match dateParse item.updatedAt with
  | some t => t
  | none =>
    match dateParse item.createdAt with
    | some t => t
    | none => 0

/-- `Map.get` on an insertion-ordered association list. -/
def mapLookup (m : List (String × MemoryItem)) (k : String) :
    Option MemoryItem :=
  (m.find? (fun p => p.1 == k)).map (·.2)

/-- `Map.set` on an insertion-ordered association list: replaces the value in
place if the key is present, otherwise appends the binding at the end. -/
def mapSet (m : List (String × MemoryItem)) (k : String) (v : MemoryItem) :
    List (String × MemoryItem) :=
  if m.any (fun p => p.1 == k) then
    m.map (fun p => if p.1 == k then (k, v) else p)
  else m ++ [(k, v)]

/-- One step of the `selectLatestItems` loop: keep the incoming item when the
id is new or its resolved timestamp is at least the stored one. -/
def latestStep (dateParse : String → Option ℤ)
    (m : List (String × MemoryItem)) (item : MemoryItem) :
    List (String × MemoryItem) :=
  match mapLookup m item.id with
  | none => mapSet m item.id item
  | some cur =>
    if getTimestamp dateParse cur ≤ getTimestamp dateParse item then
      mapSet m item.id item
    else m

/-- The `latestById` map built by `selectLatestItems`. -/
def latestFold (dateParse : String → Option ℤ) (items : List MemoryItem) :
    List (String × MemoryItem) :=
  items.foldl (latestStep dateParse) []

/-- `selectLatestItems` in `memory-store.ts`: fold the log into a map from id
to current item and return the values in insertion order. -/
def selectLatestItems (dateParse : String → Option ℤ)
    (items : List MemoryItem) : List MemoryItem :=
  (latestFold dateParse items).map (·.2)

/-- All records of the log carrying the given id, in log order. -/
def recordsFor (items : List MemoryItem) (i : String) : List MemoryItem :=
  items.filter (fun x => x.id == i)

/-- The claim's description of the current record for an id: among the
records sharing the id, those whose resolved timestamp is greatest, and of
these the one encountered last in the log. -/
def specWinner (dateParse : String → Option ℤ) (items : List MemoryItem)
    (i : String) : Option MemoryItem :=
  match ((recordsFor items i).map (getTimestamp dateParse)).max? with
  | none => none
  | some m =>
    ((recordsFor items i).filter
      (fun x => getTimestamp dateParse x == m)).getLast?

/-- The claim's description of the whole latest view: one winner per distinct
id, ids in order of first appearance. -/
def specLatest (dateParse : String → Option ℤ) (items : List MemoryItem) :
    List MemoryItem :=
  (jsDedup (items.map (·.id))).filterMap (specWinner dateParse items)

/-- The association list underlying `specLatest`. -/
def specAssoc (dateParse : String → Option ℤ) (items : List MemoryItem) :
    List (String × MemoryItem) :=
  (jsDedup (items.map (·.id))).filterMap
    (fun i => (specWinner dateParse items i).map (fun w => (i, w)))

/-! ### Updating items (`updateMemoryItem` in `memory-store.ts`)

The merge is the object spread `{...existing, ...patch, scope: ..., ...}`.
Note that the `scope` override is guarded by JavaScript truthiness
(`patch.scope ? normalizeScope(patch.scope) : existing.scope`): a supplied
empty string is falsy and therefore ignored, while the other overrides test
presence (`!== undefined` or the spread). -/

/-- The record merge performed by `updateMemoryItem` on the latest record for
the id: field-by-field translation of the spread-plus-overrides object
literal, including the truthiness guard on `scope`. -/
def applyPatch (existing : MemoryItem) (patch : MemoryPatch) (now : String) :
    MemoryItem where
  id := existing.id
  createdAt := existing.createdAt
  updatedAt := now
  scope :=
    match patch.scope with
    | some s => if s ≠ "" then normalizeScope s else existing.scope
    | none => existing.scope
  tags :=
    match patch.tags with
    | some t => normalizeTags t
    | none => existing.tags
  content := patch.content.getD existing.content
  summary := patch.summary.getD existing.summary
  metadata := patch.metadata.getD existing.metadata
  importance :=
    match patch.importance with
    | some v => clampImportance (some v) existing.importance
    | none => existing.importance
  deleted := patch.deleted.getD existing.deleted

/-- `updateMemoryItem` in `memory-store.ts`, as a pure function of the parsed
log: resolve the latest view, return `null` (and leave the log unchanged)
when the id is absent, otherwise append the merged record.  The pair is the
returned item together with the resulting log. -/
def updateMemoryItem (dateParse : String → Option ℤ) (log : List MemoryItem)
    (id : String) (patch : MemoryPatch) (now : String) :
    Option MemoryItem × List MemoryItem :=
  match (selectLatestItems dateParse log).find? (fun item => item.id == id) with
  | none => (none, log)
  | some existing =>
    (some (applyPatch existing patch now), log ++ [applyPatch existing patch now])

/-- Modelled from the spec: `delete(id)` is `update(id, {deleted: true})`
(the MCP delete tool handler is not among the sources; the spec defines it
as this exact call). -/
def deleteMemoryItem (dateParse : String → Option ℤ) (log : List MemoryItem)
    (id : String) (now : String) : Option MemoryItem × List MemoryItem :=
  updateMemoryItem dateParse log id { deleted := some true } now

/-- A concrete item used by counterexamples and witnesses. -/
def baseItem : MemoryItem where
  id := "a"
  createdAt := "t"
  updatedAt := "t"
  scope := "s"
  tags := []
  content := "c"
  summary := none
  metadata := none
  importance := 1/2
  deleted := false

/-! ### Repair (`repairMemoryFile` in `memory-store.ts`) -/

/-- Options of `repairMemoryFile` (defaults as in the source). -/
structure RepairOptions where
  compact : Bool := false
  quarantine : Bool := true

/-- A corrupt entry collected during repair. -/
structure CorruptEntry where
  lineNumber : Nat
  error : String
  raw : String

/-- Accumulator of the repair parsing loop. -/
structure RepairAcc where
  items : List MemoryItem
  errors : List String
  corrupt : List CorruptEntry
  empty : Nat
  valid : Nat
  invalid : Nat

/-- The parsing loop of `repairMemoryFile`: identical to the `readAllItems`
loop, additionally collecting the corrupt entries with their raw text. -/
def repairLinesGo (jsonParse : String → Except String Json)
    (lineNumber : Nat) : List String → RepairAcc
  | [] => ⟨[], [], [], 0, 0, 0⟩
  | line :: rest =>
    let acc := repairLinesGo jsonParse (lineNumber + 1) rest
    if (jsTrim line).length = 0 then
      ⟨acc.items, acc.errors, acc.corrupt, acc.empty + 1, acc.valid,
        acc.invalid⟩
    else
      match parseLine jsonParse line lineNumber with
      | ⟨some item, _⟩ =>
        ⟨item :: acc.items, acc.errors, acc.corrupt, acc.empty,
          acc.valid + 1, acc.invalid⟩
      | ⟨none, some err⟩ =>
        ⟨acc.items, err :: acc.errors, ⟨lineNumber, err, line⟩ :: acc.corrupt,
          acc.empty, acc.valid, acc.invalid + 1⟩
      | ⟨none, none⟩ =>
        ⟨acc.items, acc.errors, acc.corrupt, acc.empty, acc.valid,
          acc.invalid⟩

/-- Outcome of `repairMemoryFile` (`RepairResult`), with the file-system
effects represented by their written contents: `quarantined` is the content
of the quarantine side file if one is written, and `newPrimary` is the item
sequence whose serialization replaces the primary log if it is rewritten. -/
structure RepairOutcome where
  repaired : Bool
  compacted : Bool
  errors : List String
  stats : ReadStats
  quarantined : Option (List CorruptEntry)
  newPrimary : Option (List MemoryItem)

/-- `repairMemoryFile` in `memory-store.ts`, as a pure function of the file
content and the options: re-parses every line, and rewrites the primary log
when invalid lines were found (`repaired`) or when compaction was requested
and at least one valid item exists (`compacted`). -/
def repairMemoryFile (jsonParse : String → Except String Json)
    (dateParse : String → Option ℤ) (content : String)
    (options : RepairOptions) : RepairOutcome :=
  let lines := jsSplitLines content
  let acc := repairLinesGo jsonParse 1 lines
  let repaired : Bool := decide (0 < acc.invalid)
  let compacted : Bool := options.compact && decide (0 < acc.items.length)
  let shouldWrite : Bool := repaired || compacted
  { repaired := repaired
    compacted := compacted
    errors := acc.errors
    stats :=
      { totalLines := lines.length
        emptyLines := acc.empty
        validLines := acc.valid
        invalidLines := acc.invalid
        bytes := content.utf8ByteSize }
    quarantined :=
      if options.quarantine && decide (0 < acc.corrupt.length) then
        some acc.corrupt
      else none
    newPrimary :=
      if shouldWrite then
        some (if compacted then selectLatestItems dateParse acc.items
          else acc.items)
      else none }

/-! ### Cooperative file lock (`withFileLock` in `file-lock.ts`)

One iteration of the acquisition loop is modelled as a pure step function on
the observable inputs of the catch block: the error code of the failed
exclusive create, the clock reading at the timeout check, and the result of
`fs.stat` on the marker together with the clock reading inside
`isLockStale`.  The outcome is which branch the code takes. -/

/-- File-system error codes distinguished by the lock loop. -/
inductive FsErrorCode where
  | eexist : FsErrorCode
  | enoent : FsErrorCode
  | other (code : String) : FsErrorCode
  deriving DecidableEq

/-- Options of `withFileLock` (defaults as in the source). -/
structure FileLockOptions where
  timeoutMs : ℤ := 5000
  retryDelayMs : ℤ := 50
  staleMs : ℤ := 30000

/-- `isLockStale` in `file-lock.ts`: stale when the marker's modification
time is older than `staleMs`; a vanished marker (`ENOENT`) is not stale; any
other stat error propagates. -/
def isLockStale (statResult : Except FsErrorCode ℤ) (now staleMs : ℤ) :
    Except FsErrorCode Bool :=
  match statResult with
  | .ok mtime => .ok (decide (staleMs < now - mtime))
  | .error .enoent => .ok false
  | .error e => .error e

/-- The branch taken by one failed acquisition attempt. -/
inductive LockStep where
  | abort (code : FsErrorCode) : LockStep
  | timeout (message : String) : LockStep
  | deleteAndRetry : LockStep
  | sleepAndRetry (delayMs : ℤ) : LockStep
  deriving DecidableEq

/-- The catch block of the `withFileLock` loop: rethrow non-`EEXIST` errors,
fail with a timeout error once `Date.now() - start > timeoutMs`, evict a
stale marker and retry immediately, otherwise sleep `retryDelayMs` and
retry. -/
def handleOpenFailure (lockPath : String) (options : FileLockOptions)
    (start nowTimeout : ℤ) (code : FsErrorCode)
    (statResult : Except FsErrorCode ℤ) (nowStale : ℤ) : LockStep :=
  if code ≠ .eexist then .abort code
  else if options.timeoutMs < nowTimeout - start then
    .timeout ("Timed out waiting for lock: " ++ lockPath)
  else
    match isLockStale statResult nowStale options.staleMs with
    | .error e => .abort e
    | .ok true => .deleteAndRetry
    | .ok false => .sleepAndRetry options.retryDelayMs

/-- The claim's description of the failure handling, written from its words:
when creation failed because the marker already exists, a wait beyond the
timeout fails with a timeout error naming the lock path; otherwise a marker
whose modification time is older than the staleness threshold is deleted and
acquisition retried immediately; otherwise the caller sleeps the retry delay
and retries (a marker that vanished before `stat` is not older than the
threshold, so it sleeps); a stat failure other than `ENOENT`, like any
filesystem error other than marker-already-exists, aborts immediately. -/
def lockFailureSpec (lockPath : String) (options : FileLockOptions)
    (start nowTimeout : ℤ) (code : FsErrorCode)
    (statResult : Except FsErrorCode ℤ) (nowStale : ℤ) : LockStep :=
  if code = .eexist then
    if nowTimeout - start > options.timeoutMs then
      .timeout ("Timed out waiting for lock: " ++ lockPath)
    else
      match statResult with
      | .ok mtime =>
        if nowStale - mtime > options.staleMs then .deleteAndRetry
        else .sleepAndRetry options.retryDelayMs
      | .error .enoent => .sleepAndRetry options.retryDelayMs
      | .error e => .abort e
  else .abort code

/-! ### Retrieval scoring (`retriever.ts`) -/

/-- Scoring weights (`ScoringConfig` in `schema.ts`). -/
structure ScoringConfig where
  scope : ℚ
  tag : ℚ
  recency : ℚ
  importance : ℚ
  text : ℚ
  halfLifeDays : ℚ

/-- A search query (`SearchQuery` in `retriever.ts`); `now` is the optional
reference time in epoch milliseconds. -/
structure SearchQuery where
  scope : Option String := none
  tags : Option (List String) := none
  text : Option String := none
  limit : Option ℤ := none
  includeDeleted : Option Bool := none
  now : Option ℤ := none

/-- Worker for `tokenize`: maximal runs of non-whitespace characters. -/
def wordsGo (revCur : List Char) : List Char → List (List Char)
  | [] => if revCur.isEmpty then [] else [revCur.reverse]
  | c :: rest =>
    if c.isWhitespace then
      if revCur.isEmpty then wordsGo [] rest
      else revCur.reverse :: wordsGo [] rest
    else wordsGo (c :: revCur) rest

/-- `tokenize` in `retriever.ts`: lower-case, split on whitespace runs, drop
empty tokens (the filter removes the empty string that
`split(/\s+/)` yields for leading whitespace). -/
def tokenize (text : String) : List String :=
  (wordsGo [] (jsToLower text).toList).map String.mk

/-- `recencyScore` in `retriever.ts`; `expQ` models `Math.exp`. -/
def recencyScore (expQ : ℚ → ℚ) (dateParse : String → Option ℤ)
    (item : MemoryItem) (halfLifeDays : ℚ) (now : ℤ) : ℚ :=
  if halfLifeDays ≤ 0 then 1
  else
    match dateParse item.updatedAt with
    | none => 0
    | some updated =>
      expQ (-(((now - updated : ℤ) : ℚ) / (1000 * 60 * 60 * 24)) /
        halfLifeDays)

/-- JavaScript `haystack.includes(token)`: substring containment. -/
def jsIncludes (hay tok : List Char) : Bool := decide (tok <:+: hay)

/-- `textScore` in `retriever.ts`: fraction of tokens occurring as substrings
of the lower-cased concatenation of content and summary. -/
def textScore (item : MemoryItem) (tokens : List String) : ℚ :=
  if tokens.length = 0 then 0
  else
    ((tokens.filter (fun tok =>
        jsIncludes (jsToLower (item.content ++ " " ++
          (item.summary.getD ""))).toList tok.toList)).length : ℚ) /
      tokens.length

/-- `tagScore` in `retriever.ts`: fraction of requested tags present
(case-insensitively) in the item's tag set. -/
def tagScore (item : MemoryItem) (tags : List String) : ℚ :=
  if tags.length = 0 then 0
  else
    ((tags.filter (fun tag =>
        jsToLower tag ∈ item.tags.map jsToLower)).length : ℚ) / tags.length

/-- The scope signal: 1 on exact scope match, 0 otherwise; 0 when no scope
is requested (an empty-string scope is falsy in
`query.scope ? ... : 0` and counts as not requested). -/
def scopeScore (q : SearchQuery) (item : MemoryItem) : ℚ :=
  match q.scope with
  | some s => if s ≠ "" then (if item.scope = s then 1 else 0) else 0
  | none => 0

/-- The tokens of the query text (`query.text ? tokenize(query.text) : []`;
an empty text is falsy). -/
def queryTokens (q : SearchQuery) : List String :=
  match q.text with
  | some t => if t ≠ "" then tokenize t else []
  | none => []

/-- `scoreItem` in `retriever.ts`: the weighted sum of the five normalized
signals.  `sysNow` models `new Date()` when the query has no reference
time. -/
def scoreItem (expQ : ℚ → ℚ) (dateParse : String → Option ℤ)
    (item : MemoryItem) (q : SearchQuery) (config : ScoringConfig)
    (sysNow : ℤ) : ℚ :=
  config.scope * scopeScore q item +
    config.tag * tagScore item (q.tags.getD []) +
    config.recency * recencyScore expQ dateParse item config.halfLifeDays
      (q.now.getD sysNow) +
    config.importance * item.importance +
    config.text * textScore item (queryTokens q)

/-- A scored result (`ScoredResult` in `retriever.ts`). -/
structure ScoredResult where
  item : MemoryItem
  score : ℚ

/-- The resolved `updatedAt` instant used by the result comparator
(`Date.parse(updatedAt)`); outside the parsable-date hypotheses of the
theorems below the JavaScript comparator would compute with `NaN`. -/
def timeOf (dateParse : String → Option ℤ) (item : MemoryItem) : ℤ :=
  (dateParse item.updatedAt).getD 0

/-- The sort comparator of `searchMemory` as a total preorder: descending by
score, exact score ties broken by descending resolved `updatedAt`. -/
def searchLe (dateParse : String → Option ℤ) (a b : ScoredResult) : Bool :=
  if a.score = b.score then
    decide (timeOf dateParse b.item ≤ timeOf dateParse a.item)
  else decide (b.score < a.score)

/-- The deleted-filter of `searchMemory`
(`query.includeDeleted ? true : !item.deleted`). -/
def searchFiltered (q : SearchQuery) (items : List MemoryItem) :
    List MemoryItem :=
  items.filter (fun item => q.includeDeleted.getD false || !item.deleted)

/-- The `results` local of `searchMemory`: each surviving item paired with
its score (the query is passed on with the resolved reference time, as in
`{...query, now}`). -/
def searchScored (expQ : ℚ → ℚ) (dateParse : String → Option ℤ)
    (items : List MemoryItem) (q : SearchQuery) (config : ScoringConfig)
    (sysNow : ℤ) : List ScoredResult :=
  (searchFiltered q items).map
    (fun item => ⟨item, scoreItem expQ dateParse item
      { q with now := some (q.now.getD sysNow) } config sysNow⟩)

/-- The scored results after the stable sort of `searchMemory`. -/
def searchSorted (expQ : ℚ → ℚ) (dateParse : String → Option ℤ)
    (items : List MemoryItem) (q : SearchQuery) (config : ScoringConfig)
    (sysNow : ℤ) : List ScoredResult :=
  (searchScored expQ dateParse items q config sysNow).mergeSort
    (searchLe dateParse)

/-- `searchMemory` in `retriever.ts`: filter soft-deleted items (unless
requested), score, sort by the stable comparator, and truncate to the
requested limit (`query.limit && query.limit > 0 ? query.limit :
results.length`: a non-positive or absent limit keeps everything). -/
def searchMemory (expQ : ℚ → ℚ) (dateParse : String → Option ℤ)
    (items : List MemoryItem) (q : SearchQuery) (config : ScoringConfig)
    (sysNow : ℤ) : List ScoredResult :=
  let sorted := searchSorted expQ dateParse items q config sysNow
  sorted.take
    (match q.limit with
     | some n => if 0 < n then n.toNat else sorted.length
     | none => sorted.length)

/-- The claim's result order: strictly greater score first, exact score ties
broken by weakly later resolved `updatedAt`. -/
def claimOrder (dateParse : String → Option ℤ) (a b : ScoredResult) : Prop :=
  b.score < a.score ∨
    (a.score = b.score ∧ timeOf dateParse b.item ≤ timeOf dateParse a.item)

/-! ### Summarizer (`summarizer.ts`) and prune engine (`prune.ts`)

String lengths and slices are modelled on characters (JavaScript uses UTF-16
units); the float literal `0.6` is modelled by the exact rational `6/10`;
the `sha256` content fingerprint is modelled by the normalized content
string itself (injective in the model).  Only the action list of
`pruneMemory` is modelled; the aggregate stats are not needed by the
claims. -/

/-- `ageInDays` (identical in `prune.ts` and `summarizer.ts`): 0 when the
date is unparsable, otherwise the elapsed milliseconds over 86 400 000. -/
def ageInDays (dateParse : String → Option ℤ) (dateIso : String)
    (now : ℤ) : ℚ :=
  match dateParse dateIso with
  | none => 0
  | some parsed => ((now - parsed : ℤ) : ℚ) / 86400000

/-- Worker for `collapseWs`: the flag records whether the previous character
was whitespace (so a run emits a single space). -/
def collapseWsGo : Bool → List Char → List Char
  | _, [] => []
  | prevWs, c :: rest =>
    if c.isWhitespace then
      if prevWs then collapseWsGo true rest
      else ' ' :: collapseWsGo true rest
    else c :: collapseWsGo false rest

/-- `replace(/\s+/g, " ")`: collapse every whitespace run to one space. -/
def collapseWs (s : String) : String :=
  String.mk (collapseWsGo false s.toList)

/-- `contentFingerprint` in `prune.ts`: the sha256 of the
whitespace-normalized lower-cased content, modelled by the normalized
content itself. -/
def contentFingerprint (content : String) : String :=
  jsTrim (collapseWs (jsToLower content))

/-- Summarization thresholds (`SummarizationConfig` in `schema.ts`). -/
structure SummarizationConfig where
  maxContentLength : ℕ
  olderThanDays : ℚ

/-- Prune policy knobs (`PruneConfig` in `schema.ts`). -/
structure PruneConfig where
  maxPerScope : ℕ
  deleteOlderThanDays : ℚ
  compressOlderThanDays : ℚ
  dedupe : Bool

/-- A proposed mutation (`PruneAction` in `prune.ts`). -/
structure PruneAction where
  id : String
  patch : MemoryPatch
  reason : String

/-- JavaScript `String.prototype.lastIndexOf` for a single character:
the last index, or `-1` when absent. -/
def jsLastIndexOf (l : List Char) (c : Char) : ℤ :=
  match l.reverse.findIdx? (fun x => x == c) with
  | none => -1
  | some i => (l.length : ℤ) - 1 - i

/-- `summarizeContent` in `summarizer.ts`: keep short content unchanged,
otherwise cut the `maxLength`-character snippet at the last
sentence-terminating mark if that falls beyond 60% of the window, else
hard-truncate with an ellipsis. -/
def summarizeContent (content : String) (maxLength : ℕ) : String :=
  if content.length ≤ maxLength then content
  else
    let snippet := content.toList.take maxLength
    let lastSentence := max (max (jsLastIndexOf snippet '.')
      (jsLastIndexOf snippet '!')) (jsLastIndexOf snippet '?')
    if (lastSentence : ℚ) > (maxLength : ℚ) * (6 / 10) then
      String.mk (snippet.take (lastSentence + 1).toNat)
    else jsTrim (String.mk snippet) ++ "..."

/-- `needsSummary` in `summarizer.ts`. -/
def needsSummary (dateParse : String → Option ℤ) (item : MemoryItem)
    (config : SummarizationConfig) (now : ℤ) : Bool :=
  decide (config.olderThanDays ≤ ageInDays dateParse item.updatedAt now) &&
    decide (config.maxContentLength ≤ item.content.length)

/-- `summarizeItem` in `summarizer.ts`: the stored summary when no summary
is needed, otherwise an optional tag prefix followed by the summarized
content. -/
def summarizeItem (dateParse : String → Option ℤ) (item : MemoryItem)
    (config : SummarizationConfig) (now : ℤ) : Option String :=
  if needsSummary dateParse item config now then
    some ((if 0 < item.tags.length then
        "Tags: " ++ String.intercalate ", " item.tags ++ ". "
      else "") ++ summarizeContent item.content config.maxContentLength)
  else item.summary

/-- The `byScope` grouping `Map` of `pruneMemory`, as an insertion-ordered
association list: scopes in first-occurrence order, each with its items in
log order. -/
def groupByScope (items : List MemoryItem) :
    List (String × List MemoryItem) :=
  items.foldl (fun acc item =>
    if acc.any (fun p => p.1 == item.scope) then
      acc.map (fun p =>
        if p.1 == item.scope then (p.1, p.2 ++ [item]) else p)
    else acc ++ [(item.scope, [item])]) []

/-- One step of the dedup scan of `pruneMemory`: skip deleted items; record
the first item per fingerprint in the map; for a later duplicate, propose a
tag merge when the deduplicated union's length differs from the canonical's
tag count, then propose the soft deletion. -/
def dedupStep (st : List (String × MemoryItem) × List PruneAction)
    (item : MemoryItem) :
    List (String × MemoryItem) × List PruneAction :=
  if item.deleted then st
  else
    match st.1.find? (fun p => p.1 == contentFingerprint item.content) with
    | none => (st.1 ++ [(contentFingerprint item.content, item)], st.2)
    | some pr =>
      let mergedTags := jsDedup (pr.2.tags ++ item.tags)
      (st.1,
        st.2 ++
          (if mergedTags.length ≠ pr.2.tags.length then
            [⟨pr.2.id, { tags := some mergedTags },
              "merge tags from duplicate"⟩]
          else []) ++
          [⟨item.id, { deleted := some true },
            "duplicate content in scope"⟩])

/-- The dedup phase of `pruneMemory` for one scope's items. -/
def dedupPhase (scopeItems : List MemoryItem) : List PruneAction :=
  (scopeItems.foldl dedupStep ([], [])).2

/-- The retention-ranking comparator of `pruneMemory`
(`(a, b) => b.score - a.score`): descending by score. -/
def pruneLe (a b : MemoryItem × ℚ × ℚ) : Bool := decide (b.2.1 ≤ a.2.1)

/-- The `ranked` entries of `pruneMemory`: each non-deleted item with its
retention score `importance + 1/(1+ageDays)` and its age, sorted
descending by score. -/
def rankedEntries (dateParse : String → Option ℤ)
    (scopeItems : List MemoryItem) (now : ℤ) :
    List (MemoryItem × ℚ × ℚ) :=
  ((scopeItems.filter (fun item => !item.deleted)).map (fun item =>
    (item, item.importance +
      1 / (1 + ageInDays dateParse item.updatedAt now),
      ageInDays dateParse item.updatedAt now))).mergeSort pruneLe

/-- The aging phase of `pruneMemory` for one scope's items: the top
`maxPerScope` ranked entries are retained; beyond the cutoff, old entries
are soft-deleted ("aged out"), and merely stale oversized ones receive a
summary patch when the summarizer produces a fresh non-empty summary. -/
def agingActions (dateParse : String → Option ℤ)
    (pruneConfig : PruneConfig) (summarizationConfig : SummarizationConfig)
    (now : ℤ) (scopeItems : List MemoryItem) : List PruneAction :=
  let ranked := rankedEntries dateParse scopeItems now
  let keep := (ranked.take pruneConfig.maxPerScope).map (fun e => e.1.id)
  ranked.foldl (fun acc e =>
    if e.1.id ∈ keep then acc
    else if pruneConfig.deleteOlderThanDays ≤ e.2.2 then
      acc ++ [⟨e.1.id, { deleted := some true }, "aged out"⟩]
    else if pruneConfig.compressOlderThanDays ≤ e.2.2 then
      match summarizeItem dateParse e.1 summarizationConfig now with
      | some s =>
        if s ≠ "" ∧ some s ≠ e.1.summary then
          acc ++ [⟨e.1.id, { summary := some (some s) },
            "compress older memory"⟩]
        else acc
      | none => acc
    else acc) []

/-- `pruneMemory` in `prune.ts` (action list only): per scope in
first-occurrence order, the dedup actions (when enabled) followed by the
aging actions. -/
def pruneMemory (dateParse : String → Option ℤ) (items : List MemoryItem)
    (pruneConfig : PruneConfig)
    (summarizationConfig : SummarizationConfig) (now : ℤ) :
    List PruneAction :=
  ((groupByScope items).map (fun p =>
    (if pruneConfig.dedupe then dedupPhase p.2 else []) ++
      agingActions dateParse pruneConfig summarizationConfig now p.2)).flatten

/-- The claim's description of the dedup scan of one scope: `seen` holds the
canonical (first) item of each fingerprint encountered so far; every later
non-deleted item with a seen fingerprint is proposed for soft deletion, and
a tag-merge patch for the canonical item is proposed exactly when the
duplicate's tags add at least one tag not already among the canonical
item's tags. -/
def specDedupGo (seen : List MemoryItem) :
    List MemoryItem → List PruneAction
  | [] => []
  | item :: rest =>
    if item.deleted then specDedupGo seen rest
    else
      match seen.find? (fun e =>
        contentFingerprint e.content == contentFingerprint item.content) with
      | none => specDedupGo (seen ++ [item]) rest
      | some canonical =>
        (if ∃ t ∈ item.tags, t ∉ canonical.tags then
          [⟨canonical.id,
            { tags := some (jsDedup (canonical.tags ++ item.tags)) },
            "merge tags from duplicate"⟩]
        else []) ++
        ([⟨item.id, { deleted := some true },
          "duplicate content in scope"⟩] ++ specDedupGo seen rest)

/-- The specification account of the whole dedup pass: per scope in
first-occurrence order, the claim's scan of that scope's items. -/
def specDedup (items : List MemoryItem) : List PruneAction :=
  ((jsDedup (items.map (·.scope))).map (fun s =>
    specDedupGo [] (items.filter (fun i => i.scope == s)))).flatten

/-- Canonical-side item for the C6 counterexample: its stored tag list
contains a duplicate, which the code's length test miscounts. -/
def dupTagItemA : MemoryItem := { baseItem with id := "a", tags := ["x", "x"] }

/-- Later duplicate for the C6 counterexample: same content, and its tags
add nothing new to the canonical tag set. -/
def dupTagItemB : MemoryItem := { baseItem with id := "b", tags := ["x"] }

/-- Dedup-enabled prune policy with generous thresholds, so the aging phase
proposes nothing for fresh items. -/
def dupPruneConfig : PruneConfig where
  maxPerScope := 10
  deleteOlderThanDays := 1000
  compressOlderThanDays := 1000
  dedupe := true

/-- Default-like summarization policy for the C6 instances. -/
def dupSummarizationConfig : SummarizationConfig where
  maxContentLength := 600
  olderThanDays := 30

/-- Later duplicate with genuinely new tags, for the C6 witness. -/
def mergeTagItemB : MemoryItem :=
  { baseItem with id := "b", tags := ["x", "y"] }

/-! ### The JSON index

The index module keeps three insertion-ordered string-keyed maps of id
buckets (`byScope`, `byTag`, and the nested `byScopeTag`).  JavaScript
object keys enumerate in insertion order, `delete` removes a key, and
re-creating a deleted key appends it at the end; the model is an
association list.  The `version` and `updatedAt` bookkeeping fields are
I/O-facing (set from the clock on save) and are not modelled. -/

/-- A `MemoryIndex` (without the `version`/`updatedAt` bookkeeping). -/
structure MemoryIndex where
  byScope : List (String × List String)
  byTag : List (String × List String)
  byScopeTag : List (String × List (String × List String))

/-- Property read `index.byScope[scope]` on an insertion-ordered object. -/
def bucketLookup (m : List (String × List String)) (k : String) :
    Option (List String) :=
  (m.find? (fun p => p.1 == k)).map (·.2)

/-- Nested property read `index.byScopeTag[scope]`. -/
def nestedLookup (m : List (String × List (String × List String)))
    (k : String) : Option (List (String × List String)) :=
  (m.find? (fun p => p.1 == k)).map (·.2)

/-- One map of `removeIdFromIndex`: filter the id out of every bucket and
delete the keys whose bucket became empty. -/
def removeIdBuckets (m : List (String × List String)) (id : String) :
    List (String × List String) :=
  (m.map (fun p => (p.1, p.2.filter (fun x => !(x == id))))).filter
    (fun p => !p.2.isEmpty)

/-- The `byScopeTag` part of `removeIdFromIndex`: apply the bucket removal
inside every scope and delete the scopes whose tag map became empty. -/
def removeIdNested (m : List (String × List (String × List String)))
    (id : String) : List (String × List (String × List String)) :=
  (m.map (fun p => (p.1, removeIdBuckets p.2 id))).filter
    (fun p => !p.2.isEmpty)

/-- `removeIdFromIndex` in the index module: the id disappears from every
bucket of the three maps, and emptied buckets (and emptied scopes of
`byScopeTag`) are deleted. -/
def removeIdFromIndex (idx : MemoryIndex) (id : String) : MemoryIndex where
  byScope := removeIdBuckets idx.byScope id
  byTag := removeIdBuckets idx.byTag id
  byScopeTag := removeIdNested idx.byScopeTag id

/-- `index.byX[k]` created-if-missing then pushed: a missing key is created
at the end of the key order (`if (!index.byX[k]) index.byX[k] = []` tests
presence, since an empty array is truthy). -/
def bucketPush (m : List (String × List String)) (k v : String) :
    List (String × List String) :=
  if m.any (fun p => p.1 == k) then
    m.map (fun p => if p.1 == k then (p.1, p.2 ++ [v]) else p)
  else m ++ [(k, [v])]

/-- The nested push of `addIdToIndex` into `byScopeTag[scope][tag]`. -/
def nestedPush (m : List (String × List (String × List String)))
    (scope tag id : String) : List (String × List (String × List String)) :=
  if m.any (fun p => p.1 == scope) then
    m.map (fun p =>
      if p.1 == scope then (p.1, bucketPush p.2 tag id) else p)
  else m ++ [(scope, bucketPush [] tag id)]

/-- `addIdToIndex` in the index module: push the id into its scope bucket,
and, once per entry of `item.tags` (in order), into the tag bucket and the
scope-tag bucket. -/
def addIdToIndex (idx : MemoryIndex) (item : MemoryItem) : MemoryIndex :=
  item.tags.foldl (fun acc tag =>
    { acc with
        byTag := bucketPush acc.byTag tag item.id,
        byScopeTag := nestedPush acc.byScopeTag item.scope tag item.id })
    { idx with byScope := bucketPush idx.byScope item.scope item.id }

/-- The per-id sort key of `sortIndex`: the resolved `updatedAt` of the
affected item of that id, and `0` for ids with no affected item.  (When the
item exists but its `updatedAt` does not parse, the source comparator
computes with `NaN` and the sort order is implementation-defined; the
theorems below assume every affected item's `updatedAt` parses, and the
model's `0` fallback is then never taken on that branch.) -/
def idxTime (dateParse : String → Option ℤ)
    (itemsById : List (String × MemoryItem)) (id : String) : ℤ :=
  match mapLookup itemsById id with
  | some it => (dateParse it.updatedAt).getD 0
  | none => 0

/-- The bucket comparator of `sortIndex` (`(a, b) => bTime - aTime`):
descending by resolved time. -/
def idxLe (time : String → ℤ) (a b : String) : Bool :=
  decide (time b ≤ time a)

/-- `sortByUpdated` applied to every bucket of one map. -/
def sortBuckets (time : String → ℤ) (m : List (String × List String)) :
    List (String × List String) :=
  m.map (fun p => (p.1, p.2.mergeSort (idxLe time)))

/-- `sortIndex` in the index module: every bucket of the three maps is
sorted descending by resolved item time. -/
def sortIndex (time : String → ℤ) (idx : MemoryIndex) : MemoryIndex where
  byScope := sortBuckets time idx.byScope
  byTag := sortBuckets time idx.byTag
  byScopeTag := idx.byScopeTag.map (fun p => (p.1, sortBuckets time p.2))

/-- The per-item body of the `updateIndexFromItems` loop: remove the id
from every bucket, then re-add the item unless it is soft-deleted. -/
def updStep (acc : MemoryIndex) (item : MemoryItem) : MemoryIndex :=
  if item.deleted then removeIdFromIndex acc item.id
  else addIdToIndex (removeIdFromIndex acc item.id) item

/-- The `itemsById` map of `updateIndexFromItems`. -/
def itemsByIdMap (items : List MemoryItem) : List (String × MemoryItem) :=
  items.foldl (fun m item => mapSet m item.id item) []

/-- `updateIndexFromItems` in the index module (its pure core, between
`loadIndex` and `saveIndex`): fold the remove/re-add step over the affected
items, then sort every bucket by the affected items' resolved times. -/
def updateIndexFromItems (dateParse : String → Option ℤ)
    (idx : MemoryIndex) (items : List MemoryItem) : MemoryIndex :=
  sortIndex (idxTime dateParse (itemsByIdMap items))
    (items.foldl updStep idx)

/-- Well-formedness of one index map: keys are distinct and every bucket is
duplicate-free. -/
def BucketsWF (m : List (String × List String)) : Prop :=
  (m.map Prod.fst).Nodup ∧ ∀ p ∈ m, p.2.Nodup

/-- Well-formedness of an index: all key levels distinct, all buckets
duplicate-free. -/
def IndexWF (idx : MemoryIndex) : Prop :=
  BucketsWF idx.byScope ∧ BucketsWF idx.byTag ∧
    (idx.byScopeTag.map Prod.fst).Nodup ∧
    ∀ p ∈ idx.byScopeTag, BucketsWF p.2

/-- Bucket-or-absent from a list: an empty list is the absent bucket. -/
def mkBucket (l : List String) : Option (List String) :=
  if l.isEmpty then none else some l

/-- The per-key dynamics of one bucket under the `updateIndexFromItems`
loop, for a fixed key whose push-trigger on an item is `cond`: the item's
id is filtered out (the bucket is deleted if emptied, and an absent bucket
and an empty one behave alike, hence `mkBucket`), then the id is pushed at
the end when the item is live and `cond` holds (creating the bucket if
needed). -/
def keyStep (cond : MemoryItem → Bool) (ob : Option (List String))
    (item : MemoryItem) : Option (List String) :=
  let b2 := (ob.getD []).filter (fun x => !(x == item.id))
  if item.deleted then mkBucket b2
  else if cond item then some (b2 ++ [item.id]) else mkBucket b2

/-- The nested bucket read `index.byScopeTag[scope]?.[tag]`. -/
def lookup2 (m : List (String × List (String × List String)))
    (s t : String) : Option (List String) :=
  match nestedLookup m s with
  | none => none
  | some inner => bucketLookup inner t

/-- Prior index for the C7 counterexample: two scope buckets in key order
`a`, `b`. -/
def idxC : MemoryIndex where
  byScope := [("a", ["y"]), ("b", ["z"])]
  byTag := []
  byScopeTag := []

/-- First affected item of the C7 counterexample: a fresh id in scope
`a`. -/
def itemX : MemoryItem := { baseItem with id := "x", scope := "a" }

/-- Second affected item of the C7 counterexample: id `y` moves to scope
`b`. -/
def itemY : MemoryItem := { baseItem with id := "y", scope := "b" }

/-- Higher-importance item of the C9 witness instance. -/
def wItemA : MemoryItem := { baseItem with importance := 1 }

/-- Lower-importance item of the C9 witness instance. -/
def wItemB : MemoryItem := { baseItem with id := "b", importance := 0 }

/-- All-zero scoring weights for the C9 witness instance. -/
def wCfg0 : ScoringConfig := ⟨0, 0, 0, 0, 0, 0⟩

/-- Scoring weights for the C9 witness instance after raising the
importance weight to 1. -/
def wCfg1 : ScoringConfig := ⟨0, 0, 0, 1, 0, 0⟩

/-- On a non-blank line, `parseLine` returns an item or an error,
never neither. -/
theorem parseLine_nonblank (jsonParse : String → Except String Json)
    (line : String) (n : Nat) (h : (jsTrim line).length ≠ 0) :
    (parseLine jsonParse line n).item.isSome ∨
      (parseLine jsonParse line n).error.isSome := by
  unfold parseLine
  rw [if_neg h]
  split
  · right; rfl
  · split
    · left; rfl
    · right; rfl

/-- The read loop classifies every line: line count is the sum of the three
counters, the valid counter counts the items, the invalid counter counts the
diagnostics. -/
theorem readLinesGo_partition (jsonParse : String → Except String Json) :
    ∀ (lines : List String) (n : Nat),
    (readLinesGo jsonParse n lines).empty +
        (readLinesGo jsonParse n lines).valid +
        (readLinesGo jsonParse n lines).invalid = lines.length ∧
      (readLinesGo jsonParse n lines).valid =
        (readLinesGo jsonParse n lines).items.length ∧
      (readLinesGo jsonParse n lines).invalid =
        (readLinesGo jsonParse n lines).errors.length := by
  intro lines
  induction lines with
  | nil => intro n; simp [readLinesGo]
  | cons line rest ih =>
    intro n
    obtain ⟨h1, h2, h3⟩ := ih (n + 1)
    by_cases hb : (jsTrim line).length = 0
    · simp only [readLinesGo, hb, if_pos]
      refine ⟨by simp; omega, h2, h3⟩
    · have hne := parseLine_nonblank jsonParse line n hb
      simp only [readLinesGo, if_neg hb]
      split
      · next item heq =>
        refine ⟨by simp; omega, by simp [h2], h3⟩
      · next err heq =>
        refine ⟨by simp; omega, h2, by simp [h3]⟩
      · next heq =>
        rw [heq] at hne
        simp at hne

/-- C10.  For every file content (and every JSON parser), the read statistics
returned by `readAllItems` partition the lines exactly: `totalLines` equals
`emptyLines + validLines + invalidLines`, `validLines` equals the number of
parsed items returned, and `invalidLines` equals the number of diagnostics
recorded. -/
theorem readAllItems_stats_partition
    (jsonParse : String → Except String Json) (content : String) :
    (readAllItems jsonParse content).stats.totalLines =
        (readAllItems jsonParse content).stats.emptyLines +
        (readAllItems jsonParse content).stats.validLines +
        (readAllItems jsonParse content).stats.invalidLines ∧
      (readAllItems jsonParse content).stats.validLines =
        (readAllItems jsonParse content).items.length ∧
      (readAllItems jsonParse content).stats.invalidLines =
        (readAllItems jsonParse content).errors.length := by
  obtain ⟨h1, h2, h3⟩ := readLinesGo_partition jsonParse (jsSplitLines content) 1
  refine ⟨?_, ?_, ?_⟩ <;> simp only [readAllItems] <;> omega

theorem mem_foldl_dedup (l : List String) :
    ∀ (acc : List String) (x : String),
    x ∈ l.foldl (fun acc y => if y ∈ acc then acc else acc ++ [y]) acc ↔
      x ∈ acc ∨ x ∈ l := by
  induction l with
  | nil => intro acc x; simp
  | cons y l ih =>
    intro acc x
    rw [List.foldl_cons, ih]
    by_cases hy : y ∈ acc
    · simp only [if_pos hy, List.mem_cons]
      constructor
      · rintro (h | h)
        · exact Or.inl h
        · exact Or.inr (Or.inr h)
      · rintro (h | h | h)
        · exact Or.inl h
        · exact Or.inl (h ▸ hy)
        · exact Or.inr h
    · simp only [if_neg hy, List.mem_append, List.mem_singleton, List.mem_cons]
      tauto

theorem mem_jsDedup (l : List String) (x : String) :
    x ∈ jsDedup l ↔ x ∈ l := by
  rw [jsDedup, mem_foldl_dedup]
  simp

theorem nodup_foldl_dedup (l : List String) :
    ∀ (acc : List String), acc.Nodup →
    (l.foldl (fun acc y => if y ∈ acc then acc else acc ++ [y]) acc).Nodup := by
  induction l with
  | nil => intro acc h; simpa using h
  | cons y l ih =>
    intro acc h
    rw [List.foldl_cons]
    by_cases hy : y ∈ acc
    · rw [if_pos hy]; exact ih acc h
    · rw [if_neg hy]
      exact ih _ (by simp [List.nodup_append, h, hy])

theorem nodup_jsDedup (l : List String) : (jsDedup l).Nodup :=
  nodup_foldl_dedup l [] List.nodup_nil

theorem jsDedup_concat (l : List String) (a : String) :
    jsDedup (l ++ [a]) =
      if a ∈ jsDedup l then jsDedup l else jsDedup l ++ [a] := by
  simp [jsDedup, List.foldl_append]

theorem max?_concat (l : List ℤ) (a : ℤ) :
    (l ++ [a]).max? =
      some (match l.max? with | none => a | some m => max m a) := by
  cases l with
  | nil => simp
  | cons x xs =>
    rw [List.cons_append, List.max?_cons', List.max?_cons',
      List.foldl_append]
    simp

theorem latestFold_concat (dateParse : String → Option ℤ)
    (items : List MemoryItem) (x : MemoryItem) :
    latestFold dateParse (items ++ [x]) =
      latestStep dateParse (latestFold dateParse items) x := by
  simp [latestFold, List.foldl_append]

theorem recordsFor_concat (items : List MemoryItem) (x : MemoryItem)
    (i : String) :
    recordsFor (items ++ [x]) i =
      recordsFor items i ++ if x.id == i then [x] else [] := by
  simp only [recordsFor, List.filter_append]
  congr 1
  by_cases h : x.id == i <;> simp [h]

theorem specWinner_concat_ne (dateParse : String → Option ℤ)
    (items : List MemoryItem) (x : MemoryItem) (i : String)
    (h : x.id ≠ i) :
    specWinner dateParse (items ++ [x]) i = specWinner dateParse items i := by
  unfold specWinner
  rw [recordsFor_concat]
  simp [h]

theorem specWinner_not_mem (dateParse : String → Option ℤ)
    (items : List MemoryItem) (i : String)
    (h : i ∉ items.map (·.id)) :
    specWinner dateParse items i = none := by
  have : recordsFor items i = [] := by
    rw [recordsFor, List.filter_eq_nil_iff]
    intro x hx
    simp only [beq_iff_eq]
    intro hxi
    exact h (hxi ▸ List.mem_map_of_mem (·.id) hx)
  rw [specWinner, this]
  simp

theorem specWinner_isSome (dateParse : String → Option ℤ)
    (items : List MemoryItem) (i : String)
    (h : i ∈ items.map (·.id)) :
    (specWinner dateParse items i).isSome := by
  obtain ⟨x, hx, hxi⟩ := List.mem_map.mp h
  have hmem : x ∈ recordsFor items i :=
    List.mem_filter.mpr ⟨hx, by simp [hxi]⟩
  have hne : recordsFor items i ≠ [] := List.ne_nil_of_mem hmem
  rw [specWinner]
  rcases hm : ((recordsFor items i).map (getTimestamp dateParse)).max? with - | m
  · rw [List.max?_eq_none_iff] at hm
    exact absurd (List.map_eq_nil_iff.mp hm) hne
  · have hmm : m ∈ (recordsFor items i).map (getTimestamp dateParse) :=
      List.max?_mem (fun a b => max_choice a b) hm
    obtain ⟨w, hw, hwm⟩ := List.mem_map.mp hmm
    have : w ∈ (recordsFor items i).filter
        (fun x => getTimestamp dateParse x == m) :=
      List.mem_filter.mpr ⟨hw, by simp [hwm]⟩
    simp only
    rw [List.getLast?_isSome]
    exact List.ne_nil_of_mem this

/-- The timestamp of the winner is the maximum timestamp for its id. -/
theorem specWinner_ts (dateParse : String → Option ℤ)
    (items : List MemoryItem) (i : String) (w : MemoryItem)
    (h : specWinner dateParse items i = some w) :
    ((recordsFor items i).map (getTimestamp dateParse)).max? =
      some (getTimestamp dateParse w) := by
  rw [specWinner] at h
  rcases hm : ((recordsFor items i).map (getTimestamp dateParse)).max?
      with - | m
  · rw [hm] at h; exact absurd h (by simp)
  · rw [hm] at h
    simp only at h
    have := List.mem_of_getLast?_eq_some h
    have := (List.mem_filter.mp this).2
    simp only [beq_iff_eq] at this
    rw [this]

theorem mapLookup_filterMap (keys : List String)
    (f : String → Option MemoryItem) (k : String)
    (hk : ∀ i ∈ keys, (f i).isSome) :
    mapLookup (keys.filterMap (fun i => (f i).map (fun w => (i, w)))) k =
      if k ∈ keys then f k else none := by
  induction keys with
  | nil => simp [mapLookup]
  | cons i rest ih =>
    obtain ⟨w, hw⟩ := Option.isSome_iff_exists.mp
      (hk i (List.mem_cons_self i rest))
    have hrest : ∀ j ∈ rest, (f j).isSome :=
      fun j hj => hk j (List.mem_cons_of_mem i hj)
    rw [List.filterMap_cons, hw]
    simp only [Option.map_some']
    by_cases hki : k = i
    · subst hki
      rw [if_pos (List.mem_cons_self k rest), hw]
      simp only [mapLookup]
      rw [List.find?_cons_of_pos _ (by simp)]
      simp
    · simp only [mapLookup]
      rw [List.find?_cons_of_neg _ (by simpa using fun h => hki h.symm)]
      have := ih hrest
      simp only [mapLookup] at this
      rw [this]
      simp [List.mem_cons, hki]

/-- `mapLookup` on the specification association list retrieves the
specification winner. -/
theorem mapLookup_specAssoc (dateParse : String → Option ℤ)
    (items : List MemoryItem) (k : String) :
    mapLookup (specAssoc dateParse items) k = specWinner dateParse items k := by
  rw [specAssoc, mapLookup_filterMap _ _ _
    (fun i hi => specWinner_isSome dateParse items i
      ((mem_jsDedup _ _).mp hi))]
  by_cases h : k ∈ jsDedup (items.map (·.id))
  · rw [if_pos h]
  · rw [if_neg h, specWinner_not_mem]
    intro hk
    exact h ((mem_jsDedup _ _).mpr hk)

theorem specAssoc_key_mem (dateParse : String → Option ℤ)
    (items : List MemoryItem) (p : String × MemoryItem)
    (hp : p ∈ specAssoc dateParse items) : p.1 ∈ items.map (·.id) := by
  obtain ⟨i, hi, hw⟩ := List.mem_filterMap.mp hp
  rcases hs : specWinner dateParse items i with - | w
  · rw [hs] at hw; exact absurd hw (by simp)
  · rw [hs] at hw
    simp only [Option.map_some', Option.some.injEq] at hw
    have : p.1 = i := by rw [← hw]
    rw [this]
    exact (mem_jsDedup _ _).mp hi

theorem mapSet_of_not_mem (m : List (String × MemoryItem)) (k : String)
    (v : MemoryItem) (h : ∀ p ∈ m, p.1 ≠ k) :
    mapSet m k v = m ++ [(k, v)] := by
  have hno : ¬(m.any (fun p => p.1 == k) = true) := by
    rw [List.any_eq_true]
    rintro ⟨p, hp, hpk⟩
    exact h p hp (by simpa using hpk)
  rw [mapSet, if_neg hno]

/-- Appending a record with a brand-new id makes it the winner for that id. -/
theorem specWinner_concat_self_new (dateParse : String → Option ℤ)
    (items : List MemoryItem) (x : MemoryItem)
    (h : x.id ∉ items.map (·.id)) :
    specWinner dateParse (items ++ [x]) x.id = some x := by
  have hempty : recordsFor items x.id = [] := by
    rw [recordsFor, List.filter_eq_nil_iff]
    intro y hy
    simp only [beq_iff_eq]
    intro hyx
    exact h (hyx ▸ List.mem_map_of_mem (·.id) hy)
  rw [specWinner, recordsFor_concat, hempty]
  simp

/-- Appending a record whose resolved timestamp is at least the current
maximum makes it the winner (the tie goes to the later record). -/
theorem specWinner_concat_self_ge (dateParse : String → Option ℤ)
    (items : List MemoryItem) (x cur : MemoryItem)
    (hc : specWinner dateParse items x.id = some cur)
    (hge : getTimestamp dateParse cur ≤ getTimestamp dateParse x) :
    specWinner dateParse (items ++ [x]) x.id = some x := by
  have hmax := specWinner_ts dateParse items x.id cur hc
  rw [specWinner, recordsFor_concat]
  simp only [beq_self_eq_true, if_pos, List.map_append, List.map_cons,
    List.map_nil]
  rw [max?_concat, hmax]
  simp only
  rw [max_eq_right hge]
  rw [List.filter_append]
  simp

/-- Appending a record with a strictly smaller resolved timestamp leaves the
winner unchanged. -/
theorem specWinner_concat_self_lt (dateParse : String → Option ℤ)
    (items : List MemoryItem) (x cur : MemoryItem)
    (hc : specWinner dateParse items x.id = some cur)
    (hlt : getTimestamp dateParse x < getTimestamp dateParse cur) :
    specWinner dateParse (items ++ [x]) x.id = some cur := by
  have hmax := specWinner_ts dateParse items x.id cur hc
  rw [specWinner] at hc
  rw [hmax] at hc
  simp only at hc
  rw [specWinner, recordsFor_concat]
  simp only [beq_self_eq_true, if_pos, List.map_append, List.map_cons,
    List.map_nil]
  rw [max?_concat, hmax]
  simp only
  rw [max_eq_left hlt.le]
  rw [List.filter_append]
  have : (getTimestamp dateParse x == getTimestamp dateParse cur) = false := by
    simp [hlt.ne]
  simp only [List.filter_cons, this]
  simpa using hc

theorem latestStep_eq_some (dateParse : String → Option ℤ)
    (m : List (String × MemoryItem)) (item cur : MemoryItem)
    (h : mapLookup m item.id = some cur) :
    latestStep dateParse m item =
      if getTimestamp dateParse cur ≤ getTimestamp dateParse item then
        mapSet m item.id item
      else m := by
  unfold latestStep
  rw [h]

theorem latestStep_eq_none (dateParse : String → Option ℤ)
    (m : List (String × MemoryItem)) (item : MemoryItem)
    (h : mapLookup m item.id = none) :
    latestStep dateParse m item = mapSet m item.id item := by
  unfold latestStep
  rw [h]

/-- The fold performed by `selectLatestItems` computes exactly the
association list described by the claim. -/
theorem latestFold_eq_specAssoc (dateParse : String → Option ℤ)
    (items : List MemoryItem) :
    latestFold dateParse items = specAssoc dateParse items := by
  induction items using List.reverseRecOn with
  | nil => simp [latestFold, specAssoc, jsDedup]
  | append_singleton l x ih =>
    rw [latestFold_concat, ih]
    by_cases hmem : x.id ∈ l.map (·.id)
    · obtain ⟨cur, hc⟩ := Option.isSome_iff_exists.mp
        (specWinner_isSome dateParse l x.id hmem)
      rw [latestStep_eq_some dateParse _ x cur
        (by rw [mapLookup_specAssoc, hc])]
      have hkeys : jsDedup ((l ++ [x]).map (·.id)) =
          jsDedup (l.map (·.id)) := by
        rw [List.map_append, List.map_cons, List.map_nil, jsDedup_concat,
          if_pos ((mem_jsDedup _ _).mpr hmem)]
      by_cases hge : getTimestamp dateParse cur ≤ getTimestamp dateParse x
      · rw [if_pos hge]
        have hany : (specAssoc dateParse l).any (fun p => p.1 == x.id) := by
          rw [List.any_eq_true]
          refine ⟨(x.id, cur), ?_, by simp⟩
          refine List.mem_filterMap.mpr
            ⟨x.id, (mem_jsDedup _ _).mpr hmem, ?_⟩
          rw [hc]
          rfl
        rw [mapSet, if_pos hany, specAssoc, specAssoc, hkeys,
          List.map_filterMap]
        apply List.filterMap_congr
        intro i hi
        by_cases hxi : x.id = i
        · subst hxi
          rw [hc, specWinner_concat_self_ge dateParse l x cur hc hge]
          simp
        · rw [specWinner_concat_ne dateParse l x i hxi]
          cases specWinner dateParse l i with
          | none => simp
          | some w =>
            have hne : i ≠ x.id := fun h => hxi h.symm
            simp [hne]
      · rw [if_neg hge]
        rw [specAssoc, specAssoc, hkeys]
        apply List.filterMap_congr
        intro i hi
        by_cases hxi : x.id = i
        · subst hxi
          rw [hc, specWinner_concat_self_lt dateParse l x cur hc
            (lt_of_not_le hge)]
        · rw [specWinner_concat_ne dateParse l x i hxi]
    · rw [latestStep_eq_none dateParse _ x
        (by rw [mapLookup_specAssoc]
            exact specWinner_not_mem dateParse l x.id hmem)]
      rw [mapSet_of_not_mem _ _ _
        (fun p hp hpk => hmem (by
          rw [← hpk]
          exact specAssoc_key_mem dateParse l p hp))]
      rw [specAssoc, specAssoc]
      rw [List.map_append, List.map_cons, List.map_nil, jsDedup_concat,
        if_neg (fun h => hmem ((mem_jsDedup _ _).mp h))]
      rw [List.filterMap_append]
      congr 1
      · apply List.filterMap_congr
        intro i hi
        have : x.id ≠ i := fun h => hmem (h ▸ (mem_jsDedup _ _).mp hi)
        rw [specWinner_concat_ne dateParse l x i this]
      · rw [List.filterMap_cons, specWinner_concat_self_new dateParse l x hmem]
        rfl

/-- C1.  For every log and every `Date.parse` model, `selectLatestItems`
returns exactly one item per distinct id: the record whose resolved
timestamp (updatedAt, falling back to createdAt, falling back to epoch zero)
is greatest among the records sharing that id, the record encountered later
in the log winning exact ties. -/
theorem selectLatestItems_eq_specLatest (dateParse : String → Option ℤ)
    (items : List MemoryItem) :
    selectLatestItems dateParse items = specLatest dateParse items := by
  rw [selectLatestItems, latestFold_eq_specAssoc, specAssoc, specLatest,
    List.map_filterMap]
  apply List.filterMap_congr
  intro i hi
  cases specWinner dateParse items i <;> simp

/-- C2 counterexample.  The claim states that a supplied `scope` patch field
is always applied (normalized); but `patch.scope ? ... : ...` tests JS
truthiness, so a supplied empty-string scope is ignored: the merged record
keeps the prior scope `"s"` instead of `normalizeScope "" = ""`. -/
theorem updateMemoryItem_scope_claim_counterexample :
    ((updateMemoryItem (fun _ => some 0) [baseItem] "a"
        { scope := some "" } "t2").1.map (·.scope)) = some "s" ∧
      normalizeScope "" = "" ∧ ("s" : String) ≠ "" := by
  refine ⟨by decide, by decide, by decide⟩

/-- C2 (amended).  For every existing id, `updateMemoryItem` merges the patch
onto the latest record for that id: each patch field is applied only if
explicitly present in the patch (omitted fields retain prior values; an
explicitly supplied null for `summary`/`metadata` overwrites with null),
except that a supplied `scope` is applied (normalized) only when it is a
non-empty string — an empty-string scope is falsy and ignored; `tags` are
normalized when supplied, `importance` is clamped when supplied, `updatedAt`
is set to the current instant, and the merged record is appended as a new
line after the unchanged prior log. -/
theorem updateMemoryItem_merge (dateParse : String → Option ℤ)
    (log : List MemoryItem) (id : String) (patch : MemoryPatch) (now : String)
    (e : MemoryItem)
    (h : (selectLatestItems dateParse log).find?
      (fun item => item.id == id) = some e) :
    updateMemoryItem dateParse log id patch now =
        (some (applyPatch e patch now), log ++ [applyPatch e patch now]) ∧
      (applyPatch e patch now).id = e.id ∧
      (applyPatch e patch now).createdAt = e.createdAt ∧
      (applyPatch e patch now).updatedAt = now ∧
      (patch.scope = none → (applyPatch e patch now).scope = e.scope) ∧
      (∀ s, patch.scope = some s → s ≠ "" →
        (applyPatch e patch now).scope = normalizeScope s) ∧
      (patch.scope = some "" → (applyPatch e patch now).scope = e.scope) ∧
      (patch.tags = none → (applyPatch e patch now).tags = e.tags) ∧
      (∀ t, patch.tags = some t →
        (applyPatch e patch now).tags = normalizeTags t) ∧
      (patch.content = none → (applyPatch e patch now).content = e.content) ∧
      (∀ c, patch.content = some c → (applyPatch e patch now).content = c) ∧
      (patch.summary = none → (applyPatch e patch now).summary = e.summary) ∧
      (∀ sm, patch.summary = some sm → (applyPatch e patch now).summary = sm) ∧
      (patch.metadata = none →
        (applyPatch e patch now).metadata = e.metadata) ∧
      (∀ md, patch.metadata = some md →
        (applyPatch e patch now).metadata = md) ∧
      (patch.importance = none →
        (applyPatch e patch now).importance = e.importance) ∧
      (∀ v, patch.importance = some v →
        (applyPatch e patch now).importance =
          clampImportance (some v) e.importance) ∧
      (patch.deleted = none → (applyPatch e patch now).deleted = e.deleted) ∧
      (∀ b, patch.deleted = some b → (applyPatch e patch now).deleted = b) := by
  refine ⟨?_, rfl, rfl, rfl, ?_, ?_, ?_, ?_, ?_, ?_, ?_, ?_, ?_, ?_, ?_, ?_,
    ?_, ?_, ?_⟩
  · unfold updateMemoryItem
    rw [h]
  · intro hs; simp [applyPatch, hs]
  · intro s hs hne; simp [applyPatch, hs, hne]
  · intro hs; simp [applyPatch, hs]
  · intro ht; simp [applyPatch, ht]
  · intro t ht; simp [applyPatch, ht]
  · intro hc; simp [applyPatch, hc]
  · intro c hc; simp [applyPatch, hc]
  · intro hs; simp [applyPatch, hs]
  · intro sm hs; simp [applyPatch, hs]
  · intro hm; simp [applyPatch, hm]
  · intro md hm; simp [applyPatch, hm]
  · intro hi; simp [applyPatch, hi]
  · intro v hi; simp [applyPatch, hi]
  · intro hd; simp [applyPatch, hd]
  · intro b hd; simp [applyPatch, hd]

/-- Witness for C2: the amended theorem applied at a concrete log, id and
patch, the hypothesis discharged by evaluation. -/
theorem updateMemoryItem_merge_witness :
    updateMemoryItem (fun _ => some 0) [baseItem] "a"
        { scope := some "ns", importance := some 2 } "t2" =
      (some (applyPatch baseItem
          { scope := some "ns", importance := some 2 } "t2"),
        [baseItem] ++ [applyPatch baseItem
          { scope := some "ns", importance := some 2 } "t2"]) :=
  (updateMemoryItem_merge (fun _ => some 0) [baseItem] "a"
    { scope := some "ns", importance := some 2 } "t2" baseItem rfl).1

/-- C8.  For every log and every id absent from its latest view, update (and
hence delete) returns the not-found signal (`null`, modelled as `none`,
distinct by type from any thrown validation error) and appends no record:
the log is unchanged. -/
theorem updateMemoryItem_not_found (dateParse : String → Option ℤ)
    (log : List MemoryItem) (id : String) (patch : MemoryPatch) (now : String)
    (h : id ∉ (selectLatestItems dateParse log).map (·.id)) :
    updateMemoryItem dateParse log id patch now = (none, log) ∧
      deleteMemoryItem dateParse log id now = (none, log) := by
  have hfind : ∀ (q : MemoryPatch),
      updateMemoryItem dateParse log id q now = (none, log) := by
    intro q
    have : (selectLatestItems dateParse log).find?
        (fun item => item.id == id) = none := by
      rw [List.find?_eq_none]
      intro x hx
      simp only [beq_iff_eq]
      exact fun hxi => h (hxi ▸ List.mem_map_of_mem (·.id) hx)
    unfold updateMemoryItem
    rw [this]
  exact ⟨hfind patch, hfind _⟩

/-- Witness for C8: updating a missing id on a one-item log returns `none`
and leaves the log unchanged. -/
theorem updateMemoryItem_not_found_witness :
    updateMemoryItem (fun _ => some 0) [baseItem] "b" {} "t2" =
        (none, [baseItem]) ∧
      deleteMemoryItem (fun _ => some 0) [baseItem] "b" "t2" =
        (none, [baseItem]) :=
  updateMemoryItem_not_found (fun _ => some 0) [baseItem] "b" {} "t2"
    (by decide)

/-- The repair loop parses exactly as the read loop: same items, same
diagnostics, same counters. -/
theorem repairLinesGo_eq_readLinesGo (jsonParse : String → Except String Json) :
    ∀ (lines : List String) (n : Nat),
    (repairLinesGo jsonParse n lines).items =
        (readLinesGo jsonParse n lines).items ∧
      (repairLinesGo jsonParse n lines).errors =
        (readLinesGo jsonParse n lines).errors ∧
      (repairLinesGo jsonParse n lines).empty =
        (readLinesGo jsonParse n lines).empty ∧
      (repairLinesGo jsonParse n lines).valid =
        (readLinesGo jsonParse n lines).valid ∧
      (repairLinesGo jsonParse n lines).invalid =
        (readLinesGo jsonParse n lines).invalid := by
  intro lines
  induction lines with
  | nil => intro n; simp [repairLinesGo, readLinesGo]
  | cons line rest ih =>
    intro n
    obtain ⟨h1, h2, h3, h4, h5⟩ := ih (n + 1)
    by_cases hb : (jsTrim line).length = 0
    · simp only [repairLinesGo, readLinesGo, if_pos hb]
      exact ⟨h1, h2, by rw [h3], h4, h5⟩
    · simp only [repairLinesGo, readLinesGo, if_neg hb]
      rcases hp : parseLine jsonParse line n with ⟨item?, err?⟩
      rcases item? with - | item
      · rcases err? with - | err
        · exact ⟨h1, h2, h3, h4, h5⟩
        · exact ⟨h1, by rw [h2], h3, h4, by rw [h5]⟩
      · exact ⟨by rw [h1], h2, h3, by rw [h4], h5⟩

/-- C3 counterexample.  On an empty log with `compact` requested, no invalid
line exists and no valid item exists, so the code does not rewrite the
primary log — although the claim ("rewrites iff at least one invalid line
was found or compaction was requested") demands a rewrite. -/
theorem repairMemoryFile_rewrite_counterexample :
    (repairMemoryFile (fun _ => Except.error "bad") (fun _ => some 0) ""
        { compact := true }).newPrimary = none ∧
      ({ compact := true } : RepairOptions).compact = true ∧
      (repairMemoryFile (fun _ => Except.error "bad") (fun _ => some 0) ""
        { compact := true }).stats.invalidLines = 0 := by
  refine ⟨rfl, rfl, rfl⟩

/-- C3 (amended).  Repair rewrites the primary log iff at least one invalid
line was found, or compaction was requested and at least one valid item was
parsed; the rewritten content is the latest-resolved view when compaction
was requested (and effective), and all valid items otherwise. -/
theorem repairMemoryFile_rewrite (jsonParse : String → Except String Json)
    (dateParse : String → Option ℤ) (content : String)
    (options : RepairOptions) :
    (repairMemoryFile jsonParse dateParse content options).newPrimary =
      if 0 < (readAllItems jsonParse content).stats.invalidLines ∨
          (options.compact = true ∧
            0 < (readAllItems jsonParse content).items.length) then
        some (if options.compact = true ∧
            0 < (readAllItems jsonParse content).items.length then
          selectLatestItems dateParse (readAllItems jsonParse content).items
        else (readAllItems jsonParse content).items)
      else none := by
  obtain ⟨h1, -, -, -, h5⟩ :=
    repairLinesGo_eq_readLinesGo jsonParse (jsSplitLines content) 1
  simp only [repairMemoryFile, readAllItems, h1, h5]
  by_cases hinv :
      0 < (readLinesGo jsonParse 1 (jsSplitLines content)).invalid
  · by_cases hcom : options.compact = true ∧
        0 < (readLinesGo jsonParse 1 (jsSplitLines content)).items.length <;>
      simp [hinv, hcom]
  · by_cases hcom : options.compact = true ∧
        0 < (readLinesGo jsonParse 1 (jsSplitLines content)).items.length
    · simp [hinv, hcom]
    · rcases hoc : options.compact with - | -
      · simp [hinv, hoc]
      · have : ¬ 0 < (readLinesGo jsonParse 1 (jsSplitLines content)).items.length := by
          intro hlen
          exact hcom ⟨hoc, hlen⟩
        simp [hinv, hoc, this]

/-- C5.  One failed lock-marker creation attempt behaves exactly as the
claim describes: non-`EEXIST` errors abort immediately without retry; with
`EEXIST`, a wait exceeding the timeout yields a timeout error naming the
lock path, a marker older than the staleness threshold is deleted with an
immediate retry, and otherwise the caller sleeps the configured retry delay
before retrying. -/
theorem handleOpenFailure_eq_spec (lockPath : String)
    (options : FileLockOptions) (start nowTimeout : ℤ) (code : FsErrorCode)
    (statResult : Except FsErrorCode ℤ) (nowStale : ℤ) :
    handleOpenFailure lockPath options start nowTimeout code statResult
        nowStale =
      lockFailureSpec lockPath options start nowTimeout code statResult
        nowStale := by
  unfold handleOpenFailure lockFailureSpec isLockStale
  by_cases hc : code = FsErrorCode.eexist
  · subst hc
    by_cases ht : options.timeoutMs < nowTimeout - start
    · simp [ht, gt_iff_lt]
    · cases statResult with
      | ok mtime =>
        by_cases hs : options.staleMs < nowStale - mtime <;>
          simp [ht, hs, gt_iff_lt]
      | error e => cases e <;> simp [ht, gt_iff_lt]
  · simp [hc]

/-! ### Stable sorting

`Array.prototype.sort` is required (since ES2019) to be a stable sort
consistent with its comparator; it is modelled by `List.mergeSort`, which is
stable.  This section develops the consequences of stability used by the
retrieval and index claims: the relative order of two elements in the output
is determined by the comparator, with ties resolved by the input order. -/

section StableSort

variable {α : Type}

theorem pair_sublist_or {a b : α} {l : List α} (ha : a ∈ l) (hb : b ∈ l)
    (hab : a ≠ b) : [a, b] <+ l ∨ [b, a] <+ l := by
  induction l with
  | nil => cases ha
  | cons x xs ih =>
    by_cases hax : a = x
    · subst hax
      have hbxs : b ∈ xs := by
        rcases List.mem_cons.mp hb with h | h
        · exact absurd h.symm hab
        · exact h
      exact Or.inl (List.cons_sublist_cons.mpr
        (List.singleton_sublist.mpr hbxs))
    · by_cases hbx : b = x
      · subst hbx
        have haxs : a ∈ xs := by
          rcases List.mem_cons.mp ha with h | h
          · exact absurd h hax
          · exact h
        exact Or.inr (List.cons_sublist_cons.mpr
          (List.singleton_sublist.mpr haxs))
      · have haxs : a ∈ xs := by
          rcases List.mem_cons.mp ha with h | h
          · exact absurd h hax
          · exact h
        have hbxs : b ∈ xs := by
          rcases List.mem_cons.mp hb with h | h
          · exact absurd h hbx
          · exact h
        rcases ih haxs hbxs with h | h
        · exact Or.inl (h.cons x)
        · exact Or.inr (h.cons x)

theorem pair_sublist_iff_indexOf [DecidableEq α] {a b : α} {l : List α}
    (nd : l.Nodup)
    (ha : a ∈ l) (hb : b ∈ l) (hab : a ≠ b) :
    [a, b] <+ l ↔ l.indexOf a < l.indexOf b := by
  induction l with
  | nil => cases ha
  | cons x xs ih =>
    obtain ⟨hx, ndxs⟩ := List.nodup_cons.mp nd
    by_cases hax : a = x
    · subst hax
      have hbxs : b ∈ xs := by
        rcases List.mem_cons.mp hb with h | h
        · exact absurd h.symm hab
        · exact h
      constructor
      · intro _
        rw [List.indexOf_cons_self, List.indexOf_cons_ne _ hab]
        exact Nat.succ_pos _
      · intro _
        exact List.cons_sublist_cons.mpr (List.singleton_sublist.mpr hbxs)
    · by_cases hbx : b = x
      · subst hbx
        constructor
        · intro h
          exfalso
          rcases List.sublist_cons_iff.mp h with h1 | ⟨r, hr, -⟩
          · exact hx (h1.subset (by simp))
          · exact hax (by injection hr)
        · intro h
          rw [List.indexOf_cons_self, List.indexOf_cons_ne _
            (fun hxa => hax hxa.symm)] at h
          exact absurd h (Nat.not_lt_zero _)
      · have haxs : a ∈ xs := by
          rcases List.mem_cons.mp ha with h | h
          · exact absurd h hax
          · exact h
        have hbxs : b ∈ xs := by
          rcases List.mem_cons.mp hb with h | h
          · exact absurd h hbx
          · exact h
        rw [List.indexOf_cons_ne _ (fun hxa => hax hxa.symm),
          List.indexOf_cons_ne _ (fun hxb => hbx hxb.symm)]
        constructor
        · intro h
          have h2 : [a, b] <+ xs := by
            rcases List.sublist_cons_iff.mp h with h1 | ⟨r, hr, -⟩
            · exact h1
            · exact absurd (by injection hr) hax
          exact Nat.succ_lt_succ ((ih ndxs haxs hbxs).mp h2)
        · intro h
          exact ((ih ndxs haxs hbxs).mpr (Nat.lt_of_succ_lt_succ h)).cons x

theorem not_pair_sublist_swap {β : Type} {a b : β} {l : List β}
    (nd : l.Nodup) (hab : a ≠ b) (h : [a, b] <+ l) : ¬ [b, a] <+ l := by
  intro h2
  induction l with
  | nil => simp at h
  | cons x xs ih =>
    obtain ⟨hx, ndxs⟩ := List.nodup_cons.mp nd
    rcases List.sublist_cons_iff.mp h with h1 | ⟨r1, hr1, hr1s⟩
    · rcases List.sublist_cons_iff.mp h2 with h2t | ⟨r2, hr2, hr2s⟩
      · exact ih ndxs h1 h2t
      · have hbx : b = x := by injection hr2
        have hbin : b ∈ xs := h1.subset (by simp)
        exact hx (hbx ▸ hbin)
    · have hax : a = x := by injection hr1
      rcases List.sublist_cons_iff.mp h2 with h2t | ⟨r2, hr2, hr2s⟩
      · have hain : a ∈ xs := h2t.subset (by simp)
        exact hx (hax ▸ hain)
      · have hbx : b = x := by injection hr2
        exact hab (hax.trans hbx.symm)

variable {le : α → α → Bool}

/-- Stability of the model sort, as an equivalence: for two distinct
elements tied under the comparator, their relative order in the output is
their relative order in the input. -/
theorem pair_sublist_mergeSort_iff
    (htrans : ∀ (a b c : α), le a b → le b c → le a c)
    (htotal : ∀ (a b : α), le a b || le b a)
    {l : List α} (nd : l.Nodup) {a b : α} (hab : a ≠ b)
    (h1 : le a b) (h2 : le b a) :
    [a, b] <+ l.mergeSort le ↔ [a, b] <+ l := by
  constructor
  · intro h
    have ha : a ∈ l := List.mem_mergeSort.mp (h.subset (by simp))
    have hb : b ∈ l := List.mem_mergeSort.mp (h.subset (by simp))
    rcases pair_sublist_or ha hb hab with h' | h'
    · exact h'
    · exact absurd (List.pair_sublist_mergeSort htrans htotal h2 h')
        (not_pair_sublist_swap ((List.mergeSort_perm l le).nodup_iff.mpr nd)
          hab h)
  · exact fun h => List.pair_sublist_mergeSort htrans htotal h1 h

/-- Membership of an ordered pair in the sorted output: `a` precedes `b` iff
the comparator (weakly) prefers `a`, with exact ties resolved by the input
order. -/
theorem pair_sublist_mergeSort_iff_le
    (htrans : ∀ (a b c : α), le a b → le b c → le a c)
    (htotal : ∀ (a b : α), le a b || le b a)
    {l : List α} (nd : l.Nodup) {a b : α}
    (ha : a ∈ l) (hb : b ∈ l) (hab : a ≠ b) :
    [a, b] <+ l.mergeSort le ↔
      (le a b = true ∧ (le b a = true → [a, b] <+ l)) := by
  have sorted := List.sorted_mergeSort htrans htotal l
  constructor
  · intro h
    have hp := List.Pairwise.sublist h sorted
    have hle : le a b :=
      List.rel_of_pairwise_cons hp (List.mem_cons_self b [])
    exact ⟨hle, fun hba =>
      (pair_sublist_mergeSort_iff htrans htotal nd hab hle hba).mp h⟩
  · rintro ⟨hle, hcond⟩
    by_cases hba : le b a = true
    · exact (pair_sublist_mergeSort_iff htrans htotal nd hab hle hba).mpr
        (hcond hba)
    · rcases pair_sublist_or (List.mem_mergeSort.mpr ha)
        (List.mem_mergeSort.mpr hb) hab with h | h
      · exact h
      · have hp := List.Pairwise.sublist h sorted
        exact absurd
          (List.rel_of_pairwise_cons hp (List.mem_cons_self a [])) hba

/-- The relative order of two distinct elements in the sorted output:
`a` precedes `b` iff the comparator (weakly) prefers `a`, with exact ties
resolved by the input order. -/
theorem mergeSort_indexOf_lt_iff [DecidableEq α]
    (htrans : ∀ (a b c : α), le a b → le b c → le a c)
    (htotal : ∀ (a b : α), le a b || le b a)
    {l : List α} (nd : l.Nodup) {a b : α}
    (ha : a ∈ l) (hb : b ∈ l) (hab : a ≠ b) :
    ((l.mergeSort le).indexOf a < (l.mergeSort le).indexOf b) ↔
      (le a b = true ∧ (le b a = true → [a, b] <+ l)) := by
  have ndm : (l.mergeSort le).Nodup :=
    (List.mergeSort_perm l le).nodup_iff.mpr nd
  have ham : a ∈ l.mergeSort le := List.mem_mergeSort.mpr ha
  have hbm : b ∈ l.mergeSort le := List.mem_mergeSort.mpr hb
  have sorted := List.sorted_mergeSort htrans htotal l
  rw [← pair_sublist_iff_indexOf ndm ham hbm hab]
  constructor
  · intro h
    have hp := List.Pairwise.sublist h sorted
    have hle : le a b :=
      List.rel_of_pairwise_cons hp (List.mem_cons_self b [])
    refine ⟨hle, fun hba => ?_⟩
    exact (pair_sublist_mergeSort_iff htrans htotal nd hab hle hba).mp h
  · rintro ⟨hle, hcond⟩
    by_cases hba : le b a = true
    · exact (pair_sublist_mergeSort_iff htrans htotal nd hab hle hba).mpr
        (hcond hba)
    · rcases pair_sublist_or ham hbm hab with h | h
      · exact h
      · have hp := List.Pairwise.sublist h sorted
        exact absurd
          (List.rel_of_pairwise_cons hp (List.mem_cons_self a [])) hba

end StableSort

theorem searchLe_iff (dateParse : String → Option ℤ) (a b : ScoredResult) :
    searchLe dateParse a b = true ↔ claimOrder dateParse a b := by
  unfold searchLe claimOrder
  by_cases h : a.score = b.score <;> simp [h]

theorem searchLe_total (dateParse : String → Option ℤ)
    (a b : ScoredResult) : searchLe dateParse a b || searchLe dateParse b a := by
  unfold searchLe
  rcases eq_or_ne a.score b.score with h | h
  · rw [if_pos h, if_pos h.symm]
    simp only [Bool.or_eq_true, decide_eq_true_eq]
    omega
  · rw [if_neg h, if_neg (Ne.symm h)]
    simp only [Bool.or_eq_true, decide_eq_true_eq]
    rcases h.lt_or_lt with hl | hl
    · exact Or.inr hl
    · exact Or.inl hl

theorem searchLe_trans (dateParse : String → Option ℤ)
    (a b c : ScoredResult) (h1 : searchLe dateParse a b)
    (h2 : searchLe dateParse b c) : searchLe dateParse a c := by
  unfold searchLe at h1 h2 ⊢
  rcases eq_or_ne a.score b.score with hab | hab <;>
    rcases eq_or_ne b.score c.score with hbc | hbc
  · rw [if_pos hab] at h1
    rw [if_pos hbc] at h2
    rw [if_pos (hab.trans hbc)]
    simp only [decide_eq_true_eq] at h1 h2 ⊢
    omega
  · rw [if_neg (by rw [hab]; exact hbc)]
    rw [if_neg hbc] at h2
    rw [hab]
    exact h2
  · rw [if_neg (fun h => hab (h.trans hbc.symm)), ← hbc]
    rw [if_neg hab] at h1
    exact h1
  · rw [if_neg hab] at h1
    rw [if_neg hbc] at h2
    simp only [decide_eq_true_eq] at h1 h2
    have hac : c.score < a.score := h2.trans h1
    rw [if_neg (ne_of_gt hac)]
    simp only [decide_eq_true_eq]
    exact hac

/-- C4.  For every item list, query, scoring configuration and reference
time (with every item's `updatedAt` parsable, so that the JavaScript
comparator computes without `NaN`), `searchMemory` excludes every item with
`deleted = true` unless the query requests including deleted items, sorts
the remaining scored items descending by score with exact score ties broken
by descending `updatedAt`, and truncates the result to the requested limit,
where a non-positive or absent limit returns all results. -/
theorem searchMemory_spec (expQ : ℚ → ℚ) (dateParse : String → Option ℤ)
    (items : List MemoryItem) (q : SearchQuery) (config : ScoringConfig)
    (sysNow : ℤ)
    (hparse : ∀ item ∈ items, (dateParse item.updatedAt).isSome) :
    (∀ r ∈ searchMemory expQ dateParse items q config sysNow,
      q.includeDeleted.getD false = true ∨ r.item.deleted = false) ∧
      (searchMemory expQ dateParse items q config sysNow).Pairwise
        (claimOrder dateParse) ∧
      (searchMemory expQ dateParse items q config sysNow).length =
        (match q.limit with
         | some n =>
           if 0 < n then min n.toNat (searchFiltered q items).length
           else (searchFiltered q items).length
         | none => (searchFiltered q items).length) ∧
      (∀ r ∈ searchMemory expQ dateParse items q config sysNow,
        r.item ∈ searchFiltered q items ∧
          r.score = scoreItem expQ dateParse r.item
            { q with now := some (q.now.getD sysNow) } config sysNow) ∧
      ((∀ n, q.limit = some n → n ≤ 0) →
        (searchMemory expQ dateParse items q config sysNow).map (·.item) ~
          searchFiltered q items) := by
  have hsortedlen :
      (searchSorted expQ dateParse items q config sysNow).length =
        (searchFiltered q items).length := by
    rw [searchSorted, List.length_mergeSort, searchScored, List.length_map]
  have hsorted_pair :
      (searchSorted expQ dateParse items q config sysNow).Pairwise
        (fun a b => searchLe dateParse a b = true) :=
    List.sorted_mergeSort (searchLe_trans dateParse)
      (searchLe_total dateParse) _
  have hmem_scored : ∀ r ∈ searchScored expQ dateParse items q config sysNow,
      r.item ∈ searchFiltered q items ∧
        r.score = scoreItem expQ dateParse r.item
          { q with now := some (q.now.getD sysNow) } config sysNow := by
    intro r hr
    obtain ⟨item, hmem, heq⟩ := List.mem_map.mp hr
    refine ⟨by rw [← heq]; exact hmem, by rw [← heq]⟩
  have hsub_take : searchMemory expQ dateParse items q config sysNow <+
      searchSorted expQ dateParse items q config sysNow := by
    rw [searchMemory]
    exact List.take_sublist _ _
  have hmem_out : ∀ r ∈ searchMemory expQ dateParse items q config sysNow,
      r.item ∈ searchFiltered q items ∧
        r.score = scoreItem expQ dateParse r.item
          { q with now := some (q.now.getD sysNow) } config sysNow := by
    intro r hr
    apply hmem_scored
    have hmm := hsub_take.subset hr
    rw [searchSorted] at hmm
    exact List.mem_mergeSort.mp hmm
  refine ⟨?_, ?_, ?_, hmem_out, ?_⟩
  · intro r hr
    have h1 := (hmem_out r hr).1
    rw [searchFiltered] at h1
    have h2 := (List.mem_filter.mp h1).2
    rcases Bool.or_eq_true_iff.mp h2 with h | h
    · exact Or.inl h
    · exact Or.inr (by simpa using h)
  · exact List.Pairwise.imp (fun hab => (searchLe_iff dateParse _ _).mp hab)
      (List.Pairwise.sublist hsub_take hsorted_pair)
  · rw [searchMemory]
    cases hq : q.limit with
    | none => simp [List.length_take, hsortedlen]
    | some n =>
      by_cases hn : 0 < n
      · simp [hn, List.length_take, hsortedlen]
      · simp [hn, List.length_take, hsortedlen]
  · intro hlim
    have htake : searchMemory expQ dateParse items q config sysNow =
        searchSorted expQ dateParse items q config sysNow := by
      rw [searchMemory]
      cases hq : q.limit with
      | none => exact List.take_length _
      | some n =>
        have hn : ¬ 0 < n := by have := hlim n hq; omega
        simp [hn, List.take_length]
    rw [htake, searchSorted]
    have hperm := List.Perm.map (fun r : ScoredResult => r.item)
      (List.mergeSort_perm
        (searchScored expQ dateParse items q config sysNow)
        (searchLe dateParse))
    refine hperm.trans ?_
    rw [searchScored, List.map_map]
    show List.map (fun item => item) (searchFiltered q items) ~
      searchFiltered q items
    rw [List.map_id']

/-- Witness for C4: the theorem applied to a two-item log whose second item
is soft-deleted; with no limit, exactly the non-deleted item survives. -/
theorem searchMemory_spec_witness :
    (searchMemory (fun _ => 1) (fun _ => some 0)
      [baseItem, { baseItem with id := "b", deleted := true }] {}
      ⟨1, 1, 1, 1, 1, 0⟩ 0).length = 1 := by
  have h := searchMemory_spec (fun _ => 1) (fun _ => some 0)
    [baseItem, { baseItem with id := "b", deleted := true }] {}
    ⟨1, 1, 1, 1, 1, 0⟩ 0 (by decide)
  rw [h.2.2.1]
  rfl

theorem indexOf_map_of_inj {α β : Type} [DecidableEq α] [DecidableEq β]
    {l : List α} {f : α → β} (a : α)
    (hinj : ∀ x ∈ l, ∀ y ∈ l, f x = f y → x = y) (ha : a ∈ l) :
    (l.map f).indexOf (f a) = l.indexOf a := by
  induction l with
  | nil => cases ha
  | cons x xs ih =>
    by_cases hax : a = x
    · subst hax
      rw [List.map_cons, List.indexOf_cons_self, List.indexOf_cons_self]
    · have hmem : a ∈ xs := by
        rcases List.mem_cons.mp ha with h | h
        · exact absurd h hax
        · exact h
      have hfx : f x ≠ f a := fun h =>
        hax (hinj a ha x (List.mem_cons_self x xs) h.symm)
      rw [List.map_cons, List.indexOf_cons_ne _ hfx,
        List.indexOf_cons_ne _ (fun h => hax h.symm)]
      have hinjxs : ∀ u ∈ xs, ∀ v ∈ xs, f u = f v → u = v :=
        fun u hu v hv => hinj u (List.mem_cons_of_mem x hu) v
          (List.mem_cons_of_mem x hv)
      rw [ih hinjxs hmem]

theorem pair_sublist_map_iff {α β : Type} (f : α → β) {l : List α} {x y : α}
    (hinj : ∀ u ∈ l, ∀ v ∈ l, f u = f v → u = v) (hx : x ∈ l) (hy : y ∈ l) :
    [f x, f y] <+ l.map f ↔ [x, y] <+ l := by
  constructor
  · intro h
    obtain ⟨l', hl', heq⟩ := List.sublist_map_iff.mp h
    rcases l' with - | ⟨u, l''⟩
    · simp at heq
    rcases l'' with - | ⟨v, l'''⟩
    · simp at heq
    rcases l''' with - | ⟨w, rest⟩
    · have hu : u ∈ l := hl'.subset (by simp)
      have hv : v ∈ l := hl'.subset (by simp)
      simp only [List.map_cons, List.map_nil, List.cons.injEq, and_true]
        at heq
      obtain ⟨h1, h2⟩ := heq
      rw [hinj x hx u hu h1, hinj y hy v hv h2]
      exact hl'
    · simp at heq
  · intro h
    have := h.map f
    simpa using this

/-- The rank comparison of two surviving items in the (limit-free) search
output, characterized through stability: the item with a strictly better
comparator value comes first, and exact comparator ties keep the filtered
input order. -/
theorem searchMemory_rank_iff (expQ : ℚ → ℚ) (dateParse : String → Option ℤ)
    (items : List MemoryItem) (q : SearchQuery) (cfg : ScoringConfig)
    (sysNow : ℤ) (A B : MemoryItem)
    (hnd : (items.map (·.id)).Nodup) (hlimit : q.limit = none)
    (hAF : A ∈ searchFiltered q items) (hBF : B ∈ searchFiltered q items)
    (hABid : A.id ≠ B.id) :
    (((searchMemory expQ dateParse items q cfg sysNow).map
        (fun r => r.item.id)).indexOf A.id <
      ((searchMemory expQ dateParse items q cfg sysNow).map
        (fun r => r.item.id)).indexOf B.id) ↔
    (searchLe dateParse
        ⟨A, scoreItem expQ dateParse A
          { q with now := some (q.now.getD sysNow) } cfg sysNow⟩
        ⟨B, scoreItem expQ dateParse B
          { q with now := some (q.now.getD sysNow) } cfg sysNow⟩ = true ∧
      (searchLe dateParse
          ⟨B, scoreItem expQ dateParse B
            { q with now := some (q.now.getD sysNow) } cfg sysNow⟩
          ⟨A, scoreItem expQ dateParse A
            { q with now := some (q.now.getD sysNow) } cfg sysNow⟩ = true →
        [A, B] <+ searchFiltered q items)) := by
  have hout : searchMemory expQ dateParse items q cfg sysNow =
      searchSorted expQ dateParse items q cfg sysNow := by
    simp only [searchMemory, hlimit, List.take_length]
  have hndF : ((searchFiltered q items).map (·.id)).Nodup := by
    refine List.Nodup.sublist ?_ hnd
    exact List.Sublist.map _ (by rw [searchFiltered]; exact List.filter_sublist items)
  have hinjF : ∀ x ∈ searchFiltered q items, ∀ y ∈ searchFiltered q items,
      x.id = y.id → x = y :=
    fun x hx y hy h => List.inj_on_of_nodup_map hndF hx hy h
  have hndScoredIds :
      ((searchScored expQ dateParse items q cfg sysNow).map
        (fun r => r.item.id)).Nodup := by
    rw [searchScored, List.map_map]
    exact hndF
  have hndScored : (searchScored expQ dateParse items q cfg sysNow).Nodup :=
    List.Nodup.of_map _ hndScoredIds
  have hndSorted : (searchSorted expQ dateParse items q cfg sysNow).Nodup := by
    rw [searchSorted]
    exact (List.mergeSort_perm _ _).nodup_iff.mpr hndScored
  have hmemAs : (⟨A, scoreItem expQ dateParse A
      { q with now := some (q.now.getD sysNow) } cfg sysNow⟩ : ScoredResult) ∈
      searchScored expQ dateParse items q cfg sysNow := by
    rw [searchScored]
    exact List.mem_map_of_mem _ hAF
  have hmemBs : (⟨B, scoreItem expQ dateParse B
      { q with now := some (q.now.getD sysNow) } cfg sysNow⟩ : ScoredResult) ∈
      searchScored expQ dateParse items q cfg sysNow := by
    rw [searchScored]
    exact List.mem_map_of_mem _ hBF
  have hmemA : (⟨A, scoreItem expQ dateParse A
      { q with now := some (q.now.getD sysNow) } cfg sysNow⟩ : ScoredResult) ∈
      searchSorted expQ dateParse items q cfg sysNow := by
    rw [searchSorted]
    exact List.mem_mergeSort.mpr hmemAs
  have hmemB : (⟨B, scoreItem expQ dateParse B
      { q with now := some (q.now.getD sysNow) } cfg sysNow⟩ : ScoredResult) ∈
      searchSorted expQ dateParse items q cfg sysNow := by
    rw [searchSorted]
    exact List.mem_mergeSort.mpr hmemBs
  have hinjSorted : ∀ x ∈ searchSorted expQ dateParse items q cfg sysNow,
      ∀ y ∈ searchSorted expQ dateParse items q cfg sysNow,
      x.item.id = y.item.id → x = y := by
    have : ((searchSorted expQ dateParse items q cfg sysNow).map
        (fun r => r.item.id)).Nodup := by
      rw [searchSorted]
      exact (List.Perm.map _ (List.mergeSort_perm _ _)).nodup_iff.mpr
        hndScoredIds
    exact fun x hx y hy h => List.inj_on_of_nodup_map this hx hy h
  have hne : (⟨A, scoreItem expQ dateParse A
      { q with now := some (q.now.getD sysNow) } cfg sysNow⟩ : ScoredResult) ≠
      ⟨B, scoreItem expQ dateParse B
        { q with now := some (q.now.getD sysNow) } cfg sysNow⟩ := by
    intro h
    exact hABid (congrArg (fun r : ScoredResult => r.item.id) h)
  have hndSortedIds : ((searchSorted expQ dateParse items q cfg sysNow).map
      (fun r => r.item.id)).Nodup := by
    rw [searchSorted]
    exact (List.Perm.map _ (List.mergeSort_perm _ _)).nodup_iff.mpr
      hndScoredIds
  have hmemAid : A.id ∈ (searchSorted expQ dateParse items q cfg sysNow).map
      (fun r => r.item.id) := List.mem_map_of_mem _ hmemA
  have hmemBid : B.id ∈ (searchSorted expQ dateParse items q cfg sysNow).map
      (fun r => r.item.id) := List.mem_map_of_mem _ hmemB
  rw [hout]
  rw [← pair_sublist_iff_indexOf hndSortedIds hmemAid hmemBid hABid]
  have step1 : ([A.id, B.id] <+
      (searchSorted expQ dateParse items q cfg sysNow).map
        (fun r => r.item.id)) ↔
      [(⟨A, scoreItem expQ dateParse A
          { q with now := some (q.now.getD sysNow) } cfg sysNow⟩ :
        ScoredResult),
        ⟨B, scoreItem expQ dateParse B
          { q with now := some (q.now.getD sysNow) } cfg sysNow⟩] <+
        searchSorted expQ dateParse items q cfg sysNow :=
    pair_sublist_map_iff _ hinjSorted hmemA hmemB
  have step2 : ([(⟨A, scoreItem expQ dateParse A
          { q with now := some (q.now.getD sysNow) } cfg sysNow⟩ :
        ScoredResult),
        ⟨B, scoreItem expQ dateParse B
          { q with now := some (q.now.getD sysNow) } cfg sysNow⟩] <+
        searchSorted expQ dateParse items q cfg sysNow) ↔
      (searchLe dateParse
          ⟨A, scoreItem expQ dateParse A
            { q with now := some (q.now.getD sysNow) } cfg sysNow⟩
          ⟨B, scoreItem expQ dateParse B
            { q with now := some (q.now.getD sysNow) } cfg sysNow⟩ = true ∧
        (searchLe dateParse
            ⟨B, scoreItem expQ dateParse B
              { q with now := some (q.now.getD sysNow) } cfg sysNow⟩
            ⟨A, scoreItem expQ dateParse A
              { q with now := some (q.now.getD sysNow) } cfg sysNow⟩ = true →
          [(⟨A, scoreItem expQ dateParse A
              { q with now := some (q.now.getD sysNow) } cfg sysNow⟩ :
            ScoredResult),
            ⟨B, scoreItem expQ dateParse B
              { q with now := some (q.now.getD sysNow) } cfg sysNow⟩] <+
            searchScored expQ dateParse items q cfg sysNow)) := by
    rw [searchSorted]
    exact pair_sublist_mergeSort_iff_le (searchLe_trans dateParse)
      (searchLe_total dateParse) hndScored hmemAs hmemBs hne
  rw [step1, step2]
  constructor
  · rintro ⟨h1, h2⟩
    refine ⟨h1, fun hba => ?_⟩
    have hpair := h2 hba
    rw [searchScored] at hpair
    exact (pair_sublist_map_iff
      (fun item => (⟨item, scoreItem expQ dateParse item
        { q with now := some (q.now.getD sysNow) } cfg sysNow⟩ :
          ScoredResult))
      (fun u _ v _ h => congrArg (fun r : ScoredResult => r.item) h)
      hAF hBF).mp hpair
  · rintro ⟨h1, h2⟩
    refine ⟨h1, fun hba => ?_⟩
    have hpair := h2 hba
    rw [searchScored]
    exact (pair_sublist_map_iff
      (fun item => (⟨item, scoreItem expQ dateParse item
        { q with now := some (q.now.getD sysNow) } cfg sysNow⟩ :
          ScoredResult))
      (fun u _ v _ h => congrArg (fun r : ScoredResult => r.item) h)
      hAF hBF).mpr hpair

theorem searchLe_mk (dateParse : String → Option ℤ) (x y : MemoryItem)
    (sx sy : ℚ) :
    searchLe dateParse ⟨x, sx⟩ ⟨y, sy⟩ =
      if sx = sy then decide (timeOf dateParse y ≤ timeOf dateParse x)
      else decide (sy < sx) := rfl

/-- C9.  For any two items A and B scored under the same query and reference
time, where B's stored importance is strictly lower than A's and all other
signals (scope, tag, recency, text) are equal, increasing the importance
weight with all other weights (and the recency half-life) fixed never
decreases A's rank relative to B in the (limit-free) search output order. -/
theorem searchMemory_importance_rank_mono (expQ : ℚ → ℚ)
    (dateParse : String → Option ℤ) (items : List MemoryItem)
    (q : SearchQuery) (cfg cfg' : ScoringConfig) (sysNow : ℤ)
    (A B : MemoryItem)
    (hA : A ∈ items) (hB : B ∈ items) (hABid : A.id ≠ B.id)
    (hnd : (items.map (·.id)).Nodup) (hlimit : q.limit = none)
    (hkeepA : (q.includeDeleted.getD false || !A.deleted) = true)
    (hkeepB : (q.includeDeleted.getD false || !B.deleted) = true)
    (himp : B.importance < A.importance)
    (hwh : cfg'.halfLifeDays = cfg.halfLifeDays)
    (hwi : cfg.importance ≤ cfg'.importance)
    (hS : scopeScore q A = scopeScore q B)
    (hT : tagScore A (q.tags.getD []) = tagScore B (q.tags.getD []))
    (hR : recencyScore expQ dateParse A cfg.halfLifeDays (q.now.getD sysNow) =
      recencyScore expQ dateParse B cfg.halfLifeDays (q.now.getD sysNow))
    (hX : textScore A (queryTokens q) = textScore B (queryTokens q)) :
    (((searchMemory expQ dateParse items q cfg sysNow).map
        (fun r => r.item.id)).indexOf A.id <
      ((searchMemory expQ dateParse items q cfg sysNow).map
        (fun r => r.item.id)).indexOf B.id) →
    (((searchMemory expQ dateParse items q cfg' sysNow).map
        (fun r => r.item.id)).indexOf A.id <
      ((searchMemory expQ dateParse items q cfg' sysNow).map
        (fun r => r.item.id)).indexOf B.id) := by
  intro hrank
  have hAF : A ∈ searchFiltered q items := List.mem_filter.mpr ⟨hA, hkeepA⟩
  have hBF : B ∈ searchFiltered q items := List.mem_filter.mpr ⟨hB, hkeepB⟩
  obtain ⟨h1, h2⟩ := (searchMemory_rank_iff expQ dateParse items q cfg sysNow
    A B hnd hlimit hAF hBF hABid).mp hrank
  apply (searchMemory_rank_iff expQ dateParse items q cfg' sysNow
    A B hnd hlimit hAF hBF hABid).mpr
  have hd : 0 < A.importance - B.importance := sub_pos.mpr himp
  have hdiffw :
      scoreItem expQ dateParse A
          { q with now := some (q.now.getD sysNow) } cfg sysNow -
        scoreItem expQ dateParse B
          { q with now := some (q.now.getD sysNow) } cfg sysNow =
      cfg.importance * (A.importance - B.importance) := by
    show cfg.scope * scopeScore q A +
        cfg.tag * tagScore A (q.tags.getD []) +
        cfg.recency * recencyScore expQ dateParse A cfg.halfLifeDays
          (q.now.getD sysNow) +
        cfg.importance * A.importance +
        cfg.text * textScore A (queryTokens q) -
        (cfg.scope * scopeScore q B +
          cfg.tag * tagScore B (q.tags.getD []) +
          cfg.recency * recencyScore expQ dateParse B cfg.halfLifeDays
            (q.now.getD sysNow) +
          cfg.importance * B.importance +
          cfg.text * textScore B (queryTokens q)) =
      cfg.importance * (A.importance - B.importance)
    rw [hS, hT, hR, hX]
    ring
  have hdiffw2 :
      scoreItem expQ dateParse A
          { q with now := some (q.now.getD sysNow) } cfg' sysNow -
        scoreItem expQ dateParse B
          { q with now := some (q.now.getD sysNow) } cfg' sysNow =
      cfg'.importance * (A.importance - B.importance) := by
    show cfg'.scope * scopeScore q A +
        cfg'.tag * tagScore A (q.tags.getD []) +
        cfg'.recency * recencyScore expQ dateParse A cfg'.halfLifeDays
          (q.now.getD sysNow) +
        cfg'.importance * A.importance +
        cfg'.text * textScore A (queryTokens q) -
        (cfg'.scope * scopeScore q B +
          cfg'.tag * tagScore B (q.tags.getD []) +
          cfg'.recency * recencyScore expQ dateParse B cfg'.halfLifeDays
            (q.now.getD sysNow) +
          cfg'.importance * B.importance +
          cfg'.text * textScore B (queryTokens q)) =
      cfg'.importance * (A.importance - B.importance)
    rw [hwh, hS, hT, hR, hX]
    ring
  rw [searchLe_mk] at h1 h2 ⊢
  rcases lt_trichotomy cfg.importance 0 with hw | hw | hw
  · exfalso
    have hlt : scoreItem expQ dateParse A
        { q with now := some (q.now.getD sysNow) } cfg sysNow <
        scoreItem expQ dateParse B
          { q with now := some (q.now.getD sysNow) } cfg sysNow := by
      have := mul_neg_of_neg_of_pos hw hd
      linarith [hdiffw]
    rw [if_neg (ne_of_lt hlt)] at h1
    have := of_decide_eq_true h1
    linarith
  · have heqw : scoreItem expQ dateParse A
        { q with now := some (q.now.getD sysNow) } cfg sysNow =
        scoreItem expQ dateParse B
          { q with now := some (q.now.getD sysNow) } cfg sysNow := by
      have : cfg.importance * (A.importance - B.importance) = 0 := by
        rw [hw]; ring
      linarith [hdiffw]
    rw [if_pos heqw] at h1
    have htime := of_decide_eq_true h1
    rcases eq_or_lt_of_le (hw ▸ hwi) with hw2 | hw2
    · have heqw2 : scoreItem expQ dateParse A
          { q with now := some (q.now.getD sysNow) } cfg' sysNow =
          scoreItem expQ dateParse B
            { q with now := some (q.now.getD sysNow) } cfg' sysNow := by
        have : cfg'.importance * (A.importance - B.importance) = 0 := by
          rw [← hw2]; ring
        linarith [hdiffw2]
      refine ⟨?_, ?_⟩
      · rw [if_pos heqw2]
        exact decide_eq_true htime
      · intro hba
        rw [searchLe_mk] at hba
        rw [if_pos heqw2.symm] at hba
        have htime2 := of_decide_eq_true hba
        apply h2
        rw [if_pos heqw.symm]
        exact decide_eq_true htime2
    · have hgt : scoreItem expQ dateParse B
          { q with now := some (q.now.getD sysNow) } cfg' sysNow <
          scoreItem expQ dateParse A
            { q with now := some (q.now.getD sysNow) } cfg' sysNow := by
        have := mul_pos hw2 hd
        linarith [hdiffw2]
      refine ⟨?_, ?_⟩
      · rw [if_neg (ne_of_gt hgt)]
        exact decide_eq_true hgt
      · intro hba
        rw [searchLe_mk] at hba
        rw [if_neg (ne_of_lt hgt)] at hba
        have := of_decide_eq_true hba
        linarith
  · have hw2 : 0 < cfg'.importance := lt_of_lt_of_le hw hwi
    have hgt : scoreItem expQ dateParse B
        { q with now := some (q.now.getD sysNow) } cfg' sysNow <
        scoreItem expQ dateParse A
          { q with now := some (q.now.getD sysNow) } cfg' sysNow := by
      have := mul_pos hw2 hd
      linarith [hdiffw2]
    refine ⟨?_, ?_⟩
    · rw [if_neg (ne_of_gt hgt)]
      exact decide_eq_true hgt
    · intro hba
      rw [searchLe_mk] at hba
      rw [if_neg (ne_of_lt hgt)] at hba
      have := of_decide_eq_true hba
      linarith

/-- C9 witness: at the witness items (equal signals except a higher
importance on item `a`), with all-zero weights item `a` already ranks
before `b` (stable tie), and after raising the importance weight it still
does.  Both rankings evaluate concretely: the scored lists are already
sorted, so the stable sort leaves them unchanged. -/
theorem searchMemory_importance_rank_mono_witness :
    (((searchMemory (fun _ => 1) (fun _ => some 0) [wItemA, wItemB] {}
        wCfg0 0).map (fun r => r.item.id)).indexOf "a" <
      ((searchMemory (fun _ => 1) (fun _ => some 0) [wItemA, wItemB] {}
        wCfg0 0).map (fun r => r.item.id)).indexOf "b") ∧
    (((searchMemory (fun _ => 1) (fun _ => some 0) [wItemA, wItemB] {}
        wCfg1 0).map (fun r => r.item.id)).indexOf "a" <
      ((searchMemory (fun _ => 1) (fun _ => some 0) [wItemA, wItemB] {}
        wCfg1 0).map (fun r => r.item.id)).indexOf "b") := by
  have hsc : ∀ item : MemoryItem,
      scoreItem (fun _ => 1) (fun _ => some 0) item
        { ({} : SearchQuery) with
            now := some ((({} : SearchQuery)).now.getD 0) } wCfg0 0 = 0 := by
    intro item
    simp [scoreItem, wCfg0]
  have hs0 : (searchScored (fun _ => 1) (fun _ => some 0) [wItemA, wItemB]
      {} wCfg0 0).Pairwise
      (fun a b => searchLe (fun _ => some 0) a b = true) := by
    unfold searchScored
    rw [show searchFiltered {} [wItemA, wItemB] = [wItemA, wItemB] from
      rfl]
    rw [List.pairwise_map]
    constructor
    · intro y hy
      rw [List.mem_singleton.mp hy]
      unfold searchLe
      rw [if_pos (by
        show scoreItem (fun _ => 1) (fun _ => some 0) wItemA
            { ({} : SearchQuery) with
                now := some ((({} : SearchQuery)).now.getD 0) } wCfg0 0 =
          scoreItem (fun _ => 1) (fun _ => some 0) wItemB
            { ({} : SearchQuery) with
                now := some ((({} : SearchQuery)).now.getD 0) } wCfg0 0
        rw [hsc wItemA, hsc wItemB])]
      decide
    · exact List.pairwise_singleton _ _
  have he0 : searchMemory (fun _ => 1) (fun _ => some 0) [wItemA, wItemB]
      {} wCfg0 0 =
      searchScored (fun _ => 1) (fun _ => some 0) [wItemA, wItemB]
        {} wCfg0 0 := by
    show (searchSorted (fun _ => 1) (fun _ => some 0) [wItemA, wItemB]
        {} wCfg0 0).take
      (searchSorted (fun _ => 1) (fun _ => some 0) [wItemA, wItemB]
        {} wCfg0 0).length = _
    unfold searchSorted
    rw [List.mergeSort_of_sorted hs0]
    exact List.take_length _
  have hant : ((searchMemory (fun _ => 1) (fun _ => some 0)
      [wItemA, wItemB] {} wCfg0 0).map (fun r => r.item.id)).indexOf "a" <
      ((searchMemory (fun _ => 1) (fun _ => some 0) [wItemA, wItemB] {}
        wCfg0 0).map (fun r => r.item.id)).indexOf "b" := by
    rw [he0]
    decide
  exact ⟨hant, searchMemory_importance_rank_mono (fun _ => 1)
    (fun _ => some 0) [wItemA, wItemB] {} wCfg0 wCfg1 0 wItemA wItemB
    (by simp) (by simp) (by decide) (by decide) rfl (by decide) (by decide)
    (by decide) rfl (by decide) (by decide) (by decide) (by decide)
    (by decide) hant⟩

theorem foldl_dedup_suffix (l : List String) :
    ∀ acc : List String,
    ∃ r, l.foldl (fun acc x => if x ∈ acc then acc else acc ++ [x]) acc =
        acc ++ r ∧ (r = [] ↔ ∀ t ∈ l, t ∈ acc) := by
  induction l with
  | nil => intro acc; exact ⟨[], by simp⟩
  | cons t l ih =>
    intro acc
    rw [List.foldl_cons]
    by_cases ht : t ∈ acc
    · obtain ⟨r, hr, hiff⟩ := ih acc
      rw [if_pos ht]
      refine ⟨r, hr, ?_⟩
      rw [hiff]
      constructor
      · intro h x hx
        rcases List.mem_cons.mp hx with h1 | h1
        · exact h1 ▸ ht
        · exact h x h1
      · intro h x hx
        exact h x (List.mem_cons_of_mem t hx)
    · obtain ⟨r, hr, -⟩ := ih (acc ++ [t])
      rw [if_neg ht, hr, List.append_assoc]
      refine ⟨[t] ++ r, rfl, ?_⟩
      constructor
      · intro h; simp at h
      · intro h
        exact absurd (h t (List.mem_cons_self t l)) ht

theorem jsDedup_of_nodup_aux (l : List String) :
    ∀ acc : List String, (∀ t ∈ l, t ∉ acc) → l.Nodup →
    l.foldl (fun acc x => if x ∈ acc then acc else acc ++ [x]) acc =
      acc ++ l := by
  induction l with
  | nil => intro acc _ _; simp
  | cons t l ih =>
    intro acc hdisj hnd
    obtain ⟨ht, hndl⟩ := List.nodup_cons.mp hnd
    rw [List.foldl_cons, if_neg (hdisj t (List.mem_cons_self t l))]
    rw [ih (acc ++ [t]) ?_ hndl]
    · simp
    · intro x hx
      simp only [List.mem_append, List.mem_singleton]
      rintro (h | h)
      · exact hdisj x (List.mem_cons_of_mem t hx) h
      · exact ht (h ▸ hx)

/-- For a duplicate-free canonical tag list, the code's tag-merge trigger
(the deduplicated union has a different length) is exactly "the duplicate
adds a new tag". -/
theorem jsDedup_append_length_ne (l1 l2 : List String) (nd : l1.Nodup) :
    (jsDedup (l1 ++ l2)).length ≠ l1.length ↔ ∃ t ∈ l2, t ∉ l1 := by
  have h0 : l1.foldl (fun acc x => if x ∈ acc then acc else acc ++ [x]) [] =
      l1 := by
    have := jsDedup_of_nodup_aux l1 [] (by intro t _; simp) nd
    simpa using this
  have h1 : jsDedup (l1 ++ l2) =
      l2.foldl (fun acc x => if x ∈ acc then acc else acc ++ [x]) l1 := by
    rw [jsDedup, List.foldl_append, h0]
  obtain ⟨r, hr, hiff⟩ := foldl_dedup_suffix l2 l1
  rw [h1, hr, List.length_append]
  constructor
  · intro h
    have hrne : r ≠ [] := by
      intro hre
      subst hre
      simp at h
    by_contra hx
    push_neg at hx
    exact hrne (hiff.mpr hx)
  · rintro ⟨t, ht, htn⟩ h
    have hre : r = [] := by
      have : r.length = 0 := by omega
      exact List.length_eq_zero.mp this
    exact htn (hiff.mp hre t ht)

theorem scopeRecords_empty (items : List MemoryItem) (s : String)
    (h : s ∉ items.map (·.scope)) :
    items.filter (fun i => i.scope == s) = [] := by
  rw [List.filter_eq_nil_iff]
  intro x hx
  simp only [beq_iff_eq]
  exact fun hxs => h (hxs ▸ List.mem_map_of_mem (·.scope) hx)

/-- The `byScope` map groups the items exactly: scopes in first-occurrence
order, each scope with the subsequence of items carrying it. -/
theorem groupByScope_eq (items : List MemoryItem) :
    groupByScope items =
      (jsDedup (items.map (·.scope))).map
        (fun s => (s, items.filter (fun i => i.scope == s))) := by
  induction items using List.reverseRecOn with
  | nil => simp [groupByScope, jsDedup]
  | append_singleton l x ih =>
    simp only [groupByScope] at ih ⊢
    rw [List.foldl_append, List.foldl_cons, List.foldl_nil, ih]
    by_cases hmem : x.scope ∈ l.map (·.scope)
    · have hany : ((jsDedup (l.map (·.scope))).map
          (fun s => (s, l.filter (fun i => i.scope == s)))).any
          (fun p => p.1 == x.scope) = true := by
        rw [List.any_eq_true]
        exact ⟨(x.scope, l.filter (fun i => i.scope == x.scope)),
          List.mem_map_of_mem _ ((mem_jsDedup _ _).mpr hmem), by simp⟩
      rw [if_pos hany, List.map_append, List.map_cons, List.map_nil,
        jsDedup_concat, if_pos ((mem_jsDedup _ _).mpr hmem), List.map_map]
      apply List.map_congr_left
      intro s hs
      by_cases hxs : s = x.scope
      · subst hxs
        simp [List.filter_append]
      · have h1 : (s == x.scope) = false := by
          simp [hxs]
        have h2 : (x.scope == s) = false := by
          simp only [beq_eq_false_iff_ne, ne_eq]
          exact fun h => hxs h.symm
        simp [List.filter_append, h1, h2, hxs]
    · have hany : ¬ (((jsDedup (l.map (·.scope))).map
          (fun s => (s, l.filter (fun i => i.scope == s)))).any
          (fun p => p.1 == x.scope) = true) := by
        rw [List.any_eq_true]
        rintro ⟨p, hp, hps⟩
        obtain ⟨s, hs, rfl⟩ := List.mem_map.mp hp
        simp only [beq_iff_eq] at hps
        exact hmem (hps ▸ (mem_jsDedup _ _).mp hs)
      rw [if_neg hany, List.map_append, List.map_cons, List.map_nil,
        jsDedup_concat, if_neg (fun h => hmem ((mem_jsDedup _ _).mp h)),
        List.map_append]
      congr 1
      · apply List.map_congr_left
        intro s hs
        have h2 : ((fun i : MemoryItem => i.scope == s) x) = false := by
          simp only [beq_eq_false_iff_ne, ne_eq]
          exact fun h => hmem (h ▸ (mem_jsDedup _ _).mp hs)
        simp [List.filter_append, h2]
      · simp [List.filter_append, scopeRecords_empty l x.scope hmem]

theorem dedupStep_acts (st : List (String × MemoryItem) × List PruneAction)
    (item : MemoryItem) (a : PruneAction)
    (ha : a ∈ (dedupStep st item).2) :
    a ∈ st.2 ∨ a.reason = "duplicate content in scope" ∨
      a.reason = "merge tags from duplicate" := by
  unfold dedupStep at ha
  split at ha
  · exact Or.inl ha
  · split at ha
    · exact Or.inl ha
    · rcases List.mem_append.mp ha with h | h
      · rcases List.mem_append.mp h with h1 | h1
        · exact Or.inl h1
        · right; right
          revert h1
          split
          · intro h1
            rw [List.mem_singleton.mp h1]
          · intro h1
            simp at h1
      · right; left
        rw [List.mem_singleton.mp h]

theorem dedupFold_acts (l : List MemoryItem) :
    ∀ (st : List (String × MemoryItem) × List PruneAction) (a : PruneAction),
    a ∈ (l.foldl dedupStep st).2 →
    a ∈ st.2 ∨ a.reason = "duplicate content in scope" ∨
      a.reason = "merge tags from duplicate" := by
  induction l with
  | nil => intro st a ha; exact Or.inl ha
  | cons item rest ih =>
    intro st a ha
    rw [List.foldl_cons] at ha
    rcases ih (dedupStep st item) a ha with h | h
    · exact dedupStep_acts st item a h
    · exact Or.inr h

theorem dedupPhase_reasons (scopeItems : List MemoryItem) (a : PruneAction)
    (ha : a ∈ dedupPhase scopeItems) :
    a.reason = "duplicate content in scope" ∨
      a.reason = "merge tags from duplicate" := by
  rcases dedupFold_acts scopeItems ([], []) a ha with h | h
  · simp at h
  · exact h

theorem agingFold_acts (dateParse : String → Option ℤ)
    (pruneConfig : PruneConfig) (summarizationConfig : SummarizationConfig)
    (now : ℤ) (keep : List String) (l : List (MemoryItem × ℚ × ℚ)) :
    ∀ (acc : List PruneAction) (a : PruneAction),
    a ∈ l.foldl (fun acc e =>
      if e.1.id ∈ keep then acc
      else if pruneConfig.deleteOlderThanDays ≤ e.2.2 then
        acc ++ [⟨e.1.id, { deleted := some true }, "aged out"⟩]
      else if pruneConfig.compressOlderThanDays ≤ e.2.2 then
        match summarizeItem dateParse e.1 summarizationConfig now with
        | some s =>
          if s ≠ "" ∧ some s ≠ e.1.summary then
            acc ++ [⟨e.1.id, { summary := some (some s) },
              "compress older memory"⟩]
          else acc
        | none => acc
      else acc) acc →
    a ∈ acc ∨ a.reason = "aged out" ∨ a.reason = "compress older memory" := by
  induction l with
  | nil => intro acc a ha; exact Or.inl ha
  | cons e rest ih =>
    intro acc a ha
    rw [List.foldl_cons] at ha
    rcases ih _ a ha with h | h
    · revert h
      split
      · exact fun h => Or.inl h
      · split
        · intro h
          rcases List.mem_append.mp h with h1 | h1
          · exact Or.inl h1
          · right; left
            rw [List.mem_singleton.mp h1]
        · split
          · split
            · split
              · intro h
                rcases List.mem_append.mp h with h1 | h1
                · exact Or.inl h1
                · right; right
                  rw [List.mem_singleton.mp h1]
              · exact fun h => Or.inl h
            · exact fun h => Or.inl h
          · exact fun h => Or.inl h
    · exact Or.inr h

theorem agingActions_reasons (dateParse : String → Option ℤ)
    (pruneConfig : PruneConfig) (summarizationConfig : SummarizationConfig)
    (now : ℤ) (scopeItems : List MemoryItem) (a : PruneAction)
    (ha : a ∈ agingActions dateParse pruneConfig summarizationConfig now
      scopeItems) :
    a.reason = "aged out" ∨ a.reason = "compress older memory" := by
  simp only [agingActions] at ha
  rcases agingFold_acts dateParse pruneConfig summarizationConfig now _ _ _
    a ha with h | h
  · simp at h
  · exact h

theorem dedupStep_deleted (st : List (String × MemoryItem) × List PruneAction)
    (item : MemoryItem) (h : item.deleted = true) :
    dedupStep st item = st := by
  unfold dedupStep
  rw [if_pos h]

theorem dedupStep_new (st : List (String × MemoryItem) × List PruneAction)
    (item : MemoryItem) (h : item.deleted = false)
    (hfind : st.1.find?
      (fun p => p.1 == contentFingerprint item.content) = none) :
    dedupStep st item =
      (st.1 ++ [(contentFingerprint item.content, item)], st.2) := by
  unfold dedupStep
  rw [if_neg (by simp [h]), hfind]

theorem dedupStep_dup (st : List (String × MemoryItem) × List PruneAction)
    (item : MemoryItem) (pr : String × MemoryItem) (h : item.deleted = false)
    (hfind : st.1.find?
      (fun p => p.1 == contentFingerprint item.content) = some pr) :
    dedupStep st item =
      (st.1,
        st.2 ++
          (if (jsDedup (pr.2.tags ++ item.tags)).length ≠ pr.2.tags.length then
            [⟨pr.2.id, { tags := some (jsDedup (pr.2.tags ++ item.tags)) },
              "merge tags from duplicate"⟩]
          else []) ++
          [⟨item.id, { deleted := some true },
            "duplicate content in scope"⟩]) := by
  unfold dedupStep
  rw [if_neg (by simp [h]), hfind]

/-- The dedup fold computes the claim's scan: with the fingerprint map in
sync with the canonical items seen so far (all with duplicate-free tags),
the emitted actions are those of the specification scan. -/
theorem dedupFold_eq_spec (l : List MemoryItem) :
    ∀ (seen : List MemoryItem) (acts : List PruneAction),
    (∀ e ∈ seen, e.tags.Nodup) → (∀ i ∈ l, i.tags.Nodup) →
    (l.foldl dedupStep
      (seen.map (fun e => (contentFingerprint e.content, e)), acts)).2 =
      acts ++ specDedupGo seen l := by
  induction l with
  | nil => intro seen acts _ _; simp [specDedupGo]
  | cons item rest ih =>
    intro seen acts hseen hl
    have hlrest : ∀ i ∈ rest, i.tags.Nodup :=
      fun i hi => hl i (List.mem_cons_of_mem item hi)
    rw [List.foldl_cons]
    by_cases hdel : item.deleted = true
    · rw [dedupStep_deleted _ item hdel]
      rw [ih seen acts hseen hlrest]
      simp only [specDedupGo]
      rw [if_pos hdel]
    · have hdel' : item.deleted = false := Bool.eq_false_iff.mpr hdel
      rcases hfind : seen.find? (fun e =>
          contentFingerprint e.content == contentFingerprint item.content)
          with - | e
      · have hfind1 : ((seen.map
            (fun e => (contentFingerprint e.content, e))).find?
            (fun p => p.1 == contentFingerprint item.content)) = none := by
          rw [List.find?_map]
          rw [show ((fun p : String × MemoryItem =>
              p.1 == contentFingerprint item.content) ∘
              (fun e => (contentFingerprint e.content, e))) =
            (fun e => contentFingerprint e.content ==
              contentFingerprint item.content) from rfl]
          rw [hfind]
          rfl
        rw [dedupStep_new _ item hdel' hfind1]
        have hmap : (seen.map (fun e => (contentFingerprint e.content, e)) ++
            [(contentFingerprint item.content, item)]) =
            (seen ++ [item]).map
              (fun e => (contentFingerprint e.content, e)) := by
          rw [List.map_append]
          rfl
        rw [show ((seen.map (fun e => (contentFingerprint e.content, e)) ++
            [(contentFingerprint item.content, item)], acts) :
            List (String × MemoryItem) × List PruneAction) =
            ((seen ++ [item]).map
              (fun e => (contentFingerprint e.content, e)), acts) from by
          rw [hmap]]
        have hseen2 : ∀ e ∈ seen ++ [item], e.tags.Nodup := by
          intro e he
          rcases List.mem_append.mp he with h | h
          · exact hseen e h
          · rw [List.mem_singleton.mp h]
            exact hl item (List.mem_cons_self item rest)
        rw [ih (seen ++ [item]) acts hseen2 hlrest]
        simp only [specDedupGo]
        rw [if_neg (by simp [hdel']), hfind]
      · have hfind1 : ((seen.map
            (fun e => (contentFingerprint e.content, e))).find?
            (fun p => p.1 == contentFingerprint item.content)) =
            some (contentFingerprint e.content, e) := by
          rw [List.find?_map]
          rw [show ((fun p : String × MemoryItem =>
              p.1 == contentFingerprint item.content) ∘
              (fun e => (contentFingerprint e.content, e))) =
            (fun e => contentFingerprint e.content ==
              contentFingerprint item.content) from rfl]
          rw [hfind]
          rfl
        rw [dedupStep_dup _ item _ hdel' hfind1]
        dsimp only
        have hend : e ∈ seen := List.mem_of_find?_eq_some hfind
        have hiff := jsDedup_append_length_ne e.tags item.tags (hseen e hend)
        rw [ih seen _ hseen hlrest]
        simp only [specDedupGo]
        rw [if_neg (show ¬item.deleted = true from hdel), hfind]
        dsimp only
        by_cases hnew : ∃ t ∈ item.tags, t ∉ e.tags
        · rw [if_pos (hiff.mpr hnew), if_pos hnew]
          simp [List.append_assoc]
        · rw [if_neg (fun h => hnew (hiff.mp h)), if_neg hnew]
          simp [List.append_assoc]

theorem dedupPhase_eq_spec (scopeItems : List MemoryItem)
    (htags : ∀ i ∈ scopeItems, i.tags.Nodup) :
    dedupPhase scopeItems = specDedupGo [] scopeItems := by
  have h := dedupFold_eq_spec scopeItems [] []
    (fun e he => absurd he (List.not_mem_nil e)) htags
  simpa [dedupPhase] using h

theorem agingActions_filter_eq_nil (dateParse : String → Option ℤ)
    (pcfg : PruneConfig) (scfg : SummarizationConfig) (now : ℤ)
    (scopeItems : List MemoryItem) (p : PruneAction → Bool)
    (hp1 : ∀ a : PruneAction, a.reason = "aged out" → p a = false)
    (hp2 : ∀ a : PruneAction, a.reason = "compress older memory" →
      p a = false) :
    (agingActions dateParse pcfg scfg now scopeItems).filter p = [] := by
  apply List.filter_eq_nil_iff.mpr
  intro a ha
  rcases agingActions_reasons dateParse pcfg scfg now scopeItems a ha
    with h | h
  · simp [hp1 a h]
  · simp [hp2 a h]

theorem agingFilter_nil (dateParse : String → Option ℤ)
    (pcfg : PruneConfig) (scfg : SummarizationConfig) (now : ℤ)
    (scopeItems : List MemoryItem) :
    (agingActions dateParse pcfg scfg now scopeItems).filter
      (fun a => a.reason == "duplicate content in scope" ||
        a.reason == "merge tags from duplicate") = [] := by
  apply agingActions_filter_eq_nil
  · intro a h
    show (a.reason == "duplicate content in scope" ||
      a.reason == "merge tags from duplicate") = false
    rw [h]
    decide
  · intro a h
    show (a.reason == "duplicate content in scope" ||
      a.reason == "merge tags from duplicate") = false
    rw [h]
    decide

theorem dedupFilter_self (scopeItems : List MemoryItem) :
    (dedupPhase scopeItems).filter
      (fun a => a.reason == "duplicate content in scope" ||
        a.reason == "merge tags from duplicate") = dedupPhase scopeItems := by
  apply List.filter_eq_self.mpr
  intro a ha
  rcases dedupPhase_reasons scopeItems a ha with h | h <;> rw [h] <;> decide

/-- C6 counterexample.  The claim says a tag-merge patch for the canonical
item is proposed exactly when the duplicate's tags add at least one tag not
already in the canonical item's tag set.  The code instead tests
`mergedTags.length !== existing.tags.length`; when the canonical item's
stored tags contain a duplicate (here `["x", "x"]`), a later duplicate
whose tags add nothing new (`["x"]`) still changes the deduplicated
length, so a merge patch for the canonical item is proposed anyway. -/
theorem pruneMemory_merge_claim_counterexample :
    (∀ t ∈ dupTagItemB.tags, t ∈ dupTagItemA.tags) ∧
    ((pruneMemory (fun _ => some 0) [dupTagItemA, dupTagItemB]
        dupPruneConfig dupSummarizationConfig 0).filter
      (fun a => a.reason == "merge tags from duplicate")).map
        (fun a => a.id) = ["a"] := by
  constructor
  · decide
  · have hsplit : pruneMemory (fun _ => some 0) [dupTagItemA, dupTagItemB]
        dupPruneConfig dupSummarizationConfig 0 =
        dedupPhase [dupTagItemA, dupTagItemB] ++
          (agingActions (fun _ => some 0) dupPruneConfig
            dupSummarizationConfig 0 [dupTagItemA, dupTagItemB] ++ []) := by
      show ((groupByScope [dupTagItemA, dupTagItemB]).map _).flatten = _
      rw [show groupByScope [dupTagItemA, dupTagItemB] =
        [("s", [dupTagItemA, dupTagItemB])] from rfl]
      rfl
    rw [hsplit, List.append_nil, List.filter_append,
      agingActions_filter_eq_nil _ _ _ _ _ _
        (fun a h => by
          show (a.reason == "merge tags from duplicate") = false
          rw [h]
          decide)
        (fun a h => by
          show (a.reason == "merge tags from duplicate") = false
          rw [h]
          decide),
      List.append_nil]
    rfl

/-- **C6** (amended).  With dedup enabled, and restricted to item sets
whose stored tag lists are free of duplicates (for such items the code's
length test agrees with the claim's "adds at least one new tag" trigger),
the dedup-reason actions of `pruneMemory` are exactly the claim's scan:
per scope, scanning non-deleted items in original order by fingerprint of
whitespace-normalized lower-cased content, the first item with a given
fingerprint is canonical and receives no dedup deletion, every later item
with the same fingerprint is proposed for soft deletion with reason
"duplicate content in scope", and a tag-merge patch for the canonical item
is proposed exactly when the duplicate's tags add at least one tag not
already in the canonical item's tag set. -/
theorem pruneMemory_dedup_spec (dateParse : String → Option ℤ)
    (items : List MemoryItem) (pcfg : PruneConfig)
    (scfg : SummarizationConfig) (now : ℤ)
    (hded : pcfg.dedupe = true)
    (htags : ∀ item ∈ items, item.tags.Nodup) :
    (pruneMemory dateParse items pcfg scfg now).filter
      (fun a => a.reason == "duplicate content in scope" ||
        a.reason == "merge tags from duplicate") = specDedup items := by
  simp only [pruneMemory, specDedup, groupByScope_eq, hded,
    eq_self_iff_true, if_true, List.map_map]
  rw [List.filter_flatten, List.map_map]
  congr 1
  apply List.map_congr_left
  intro s hs
  simp only [Function.comp]
  rw [List.filter_append, dedupFilter_self, agingFilter_nil,
    List.append_nil]
  exact dedupPhase_eq_spec _
    (fun i hi => htags i (List.mem_of_mem_filter hi))

theorem eq_of_nodup_of_pair_sublist_iff {α : Type} {l1 l2 : List α}
    (nd1 : l1.Nodup) (nd2 : l2.Nodup)
    (hmem : ∀ x, x ∈ l1 ↔ x ∈ l2)
    (hpair : ∀ a b, a ≠ b → ([a, b] <+ l1 ↔ [a, b] <+ l2)) :
    l1 = l2 := by
  induction l1 generalizing l2 with
  | nil =>
    rcases l2 with - | ⟨y, t2⟩
    · rfl
    · exact absurd ((hmem y).mpr (List.mem_cons_self y t2))
        (List.not_mem_nil y)
  | cons x t1 ih =>
    rcases l2 with - | ⟨y, t2⟩
    · exact absurd ((hmem x).mp (List.mem_cons_self x t1))
        (List.not_mem_nil x)
    · obtain ⟨hx1, ndt1⟩ := List.nodup_cons.mp nd1
      obtain ⟨hy2, ndt2⟩ := List.nodup_cons.mp nd2
      have hxy : x = y := by
        by_contra hne
        have hyint1 : y ∈ t1 := by
          rcases List.mem_cons.mp ((hmem y).mpr (List.mem_cons_self y t2))
            with h | h
          · exact absurd h.symm hne
          · exact h
        have hxint2 : x ∈ t2 := by
          rcases List.mem_cons.mp ((hmem x).mp (List.mem_cons_self x t1))
            with h | h
          · exact absurd h hne
          · exact h
        have h1 : [x, y] <+ x :: t1 :=
          List.cons_sublist_cons.mpr (List.singleton_sublist.mpr hyint1)
        have h2 : [y, x] <+ y :: t2 :=
          List.cons_sublist_cons.mpr (List.singleton_sublist.mpr hxint2)
        exact not_pair_sublist_swap nd2 hne ((hpair x y hne).mp h1) h2
      subst hxy
      congr 1
      apply ih ndt1 ndt2
      · intro z
        constructor
        · intro hz
          have hzx : z ≠ x := fun h => hx1 (h ▸ hz)
          rcases List.mem_cons.mp
            ((hmem z).mp (List.mem_cons_of_mem x hz)) with h | h
          · exact absurd h hzx
          · exact h
        · intro hz
          have hzx : z ≠ x := fun h => hy2 (h ▸ hz)
          rcases List.mem_cons.mp
            ((hmem z).mpr (List.mem_cons_of_mem x hz)) with h | h
          · exact absurd h hzx
          · exact h
      · intro a b hab
        constructor
        · intro h
          have hain : a ∈ t1 := h.subset (by simp)
          have hax : a ≠ x := fun he => hx1 (he ▸ hain)
          have h2 := (hpair a b hab).mp (h.cons x)
          rcases List.sublist_cons_iff.mp h2 with h3 | ⟨r, hr, -⟩
          · exact h3
          · exact absurd (by injection hr) hax
        · intro h
          have hain : a ∈ t2 := h.subset (by simp)
          have hax : a ≠ x := fun he => hy2 (he ▸ hain)
          have h2 := (hpair a b hab).mpr (h.cons x)
          rcases List.sublist_cons_iff.mp h2 with h3 | ⟨r, hr, -⟩
          · exact h3
          · exact absurd (by injection hr) hax

theorem pair_sublist_filter_iff {α : Type} {p : α → Bool} {a b : α}
    {l : List α} :
    [a, b] <+ l.filter p ↔ ([a, b] <+ l ∧ p a = true ∧ p b = true) := by
  constructor
  · intro h
    refine ⟨h.trans (List.filter_sublist l), ?_, ?_⟩
    · exact (List.mem_filter.mp (h.subset (by simp))).2
    · exact (List.mem_filter.mp (h.subset (by simp))).2
  · rintro ⟨h, hpa, hpb⟩
    have h2 := h.filter p
    simpa [hpa, hpb] using h2

theorem pair_sublist_append_iff {α : Type} {a b : α} {u v : List α} :
    [a, b] <+ u ++ v ↔
      ([a, b] <+ u ∨ [a, b] <+ v ∨ (a ∈ u ∧ b ∈ v)) := by
  constructor
  · intro h
    rcases List.sublist_append_iff.mp h with ⟨x, y, hxy, hxu, hyv⟩
    rcases x with - | ⟨c, x⟩
    · rw [List.nil_append] at hxy
      exact Or.inr (Or.inl (hxy ▸ hyv))
    · rcases x with - | ⟨d, x⟩
      · simp only [List.cons_append, List.nil_append,
          List.cons.injEq] at hxy
        obtain ⟨hca, hy⟩ := hxy
        subst hca
        rcases y with - | ⟨e, y⟩
        · simp at hy
        · simp only [List.cons.injEq] at hy
          obtain ⟨heb, hynil⟩ := hy
          subst heb
          subst hynil
          exact Or.inr (Or.inr ⟨List.singleton_sublist.mp hxu,
            List.singleton_sublist.mp hyv⟩)
      · rcases y with - | ⟨e, y⟩
        · rw [List.append_nil] at hxy
          exact Or.inl (hxy ▸ hxu)
        · exfalso
          simp only [List.cons_append, List.cons.injEq] at hxy
          exact absurd hxy.2.2.symm (by simp)
  · rintro (h | h | ⟨hau, hbv⟩)
    · exact h.trans (List.sublist_append_left u v)
    · exact h.trans (List.sublist_append_right u v)
    · exact List.Sublist.append (List.singleton_sublist.mpr hau)
        (List.singleton_sublist.mpr hbv)

theorem filter_mergeSort_eq {α : Type} {le : α → α → Bool}
    (htrans : ∀ (a b c : α), le a b → le b c → le a c)
    (htotal : ∀ (a b : α), le a b || le b a)
    (p : α → Bool) {l : List α} (nd : l.Nodup) :
    (l.mergeSort le).filter p = (l.filter p).mergeSort le := by
  have ndm : (l.mergeSort le).Nodup :=
    (List.mergeSort_perm l le).nodup_iff.mpr nd
  have ndf : (l.filter p).Nodup := nd.filter p
  apply eq_of_nodup_of_pair_sublist_iff (ndm.filter p)
    ((List.mergeSort_perm _ le).nodup_iff.mpr ndf)
  · intro x
    simp only [List.mem_filter, List.mem_mergeSort]
  · intro a b hab
    by_cases hain : a ∈ l ∧ p a = true
    · by_cases hbin : b ∈ l ∧ p b = true
      · have hafm : a ∈ l.filter p := List.mem_filter.mpr hain
        have hbfm : b ∈ l.filter p := List.mem_filter.mpr hbin
        rw [pair_sublist_filter_iff,
          pair_sublist_mergeSort_iff_le htrans htotal nd hain.1 hbin.1 hab,
          pair_sublist_mergeSort_iff_le htrans htotal ndf hafm hbfm hab]
        constructor
        · rintro ⟨⟨hle, hcond⟩, -, -⟩
          exact ⟨hle, fun hba => pair_sublist_filter_iff.mpr
            ⟨hcond hba, hain.2, hbin.2⟩⟩
        · rintro ⟨hle, hcond⟩
          exact ⟨⟨hle, fun hba =>
            (pair_sublist_filter_iff.mp (hcond hba)).1⟩, hain.2, hbin.2⟩
      · apply iff_of_false
        · intro h
          have hbm : b ∈ (l.mergeSort le).filter p :=
            h.subset (List.mem_cons_of_mem a (List.mem_cons_self b []))
          rw [List.mem_filter, List.mem_mergeSort] at hbm
          exact hbin hbm
        · intro h
          have hbm : b ∈ (l.filter p).mergeSort le :=
            h.subset (List.mem_cons_of_mem a (List.mem_cons_self b []))
          rw [List.mem_mergeSort, List.mem_filter] at hbm
          exact hbin hbm
    · apply iff_of_false
      · intro h
        have ham : a ∈ (l.mergeSort le).filter p :=
          h.subset (List.mem_cons_self a [b])
        rw [List.mem_filter, List.mem_mergeSort] at ham
        exact hain ham
      · intro h
        have ham : a ∈ (l.filter p).mergeSort le :=
          h.subset (List.mem_cons_self a [b])
        rw [List.mem_mergeSort, List.mem_filter] at ham
        exact hain ham

theorem mergeSort_append_absorb {α : Type} {le : α → α → Bool}
    (htrans : ∀ (a b c : α), le a b → le b c → le a c)
    (htotal : ∀ (a b : α), le a b || le b a)
    {l1 l2 : List α} (nd : (l1 ++ l2).Nodup) :
    (l1.mergeSort le ++ l2).mergeSort le = (l1 ++ l2).mergeSort le := by
  have hperm : (l1.mergeSort le ++ l2).Perm (l1 ++ l2) :=
    (List.mergeSort_perm l1 le).append (List.Perm.refl l2)
  have nd1 : l1.Nodup := (List.Nodup.of_append_left nd)
  have ndm : (l1.mergeSort le ++ l2).Nodup := hperm.nodup_iff.mpr nd
  apply eq_of_nodup_of_pair_sublist_iff
    ((List.mergeSort_perm _ le).nodup_iff.mpr ndm)
    ((List.mergeSort_perm _ le).nodup_iff.mpr nd)
  · intro x
    simp only [List.mem_mergeSort, List.mem_append]
  · intro a b hab
    by_cases hain : a ∈ l1 ++ l2
    · by_cases hbin : b ∈ l1 ++ l2
      · have hain2 : a ∈ l1.mergeSort le ++ l2 := hperm.mem_iff.mpr hain
        have hbin2 : b ∈ l1.mergeSort le ++ l2 := hperm.mem_iff.mpr hbin
        rw [pair_sublist_mergeSort_iff_le htrans htotal ndm hain2 hbin2 hab,
          pair_sublist_mergeSort_iff_le htrans htotal nd hain hbin hab]
        have key : le a b = true → le b a = true →
            ([a, b] <+ l1.mergeSort le ++ l2 ↔ [a, b] <+ l1 ++ l2) := by
          intro h1 h2
          rw [pair_sublist_append_iff, pair_sublist_append_iff,
            pair_sublist_mergeSort_iff htrans htotal nd1 hab h1 h2,
            List.mem_mergeSort]
        constructor
        · rintro ⟨hle, hcond⟩
          exact ⟨hle, fun hba => (key hle hba).mp (hcond hba)⟩
        · rintro ⟨hle, hcond⟩
          exact ⟨hle, fun hba => (key hle hba).mpr (hcond hba)⟩
      · apply iff_of_false
        · intro h
          have hbm := h.subset
            (List.mem_cons_of_mem a (List.mem_cons_self b []))
          rw [List.mem_mergeSort] at hbm
          exact hbin (hperm.mem_iff.mp hbm)
        · intro h
          have hbm := h.subset
            (List.mem_cons_of_mem a (List.mem_cons_self b []))
          rw [List.mem_mergeSort] at hbm
          exact hbin hbm
    · apply iff_of_false
      · intro h
        have ham := h.subset (List.mem_cons_self a [b])
        rw [List.mem_mergeSort] at ham
        exact hain (hperm.mem_iff.mp ham)
      · intro h
        have ham := h.subset (List.mem_cons_self a [b])
        rw [List.mem_mergeSort] at ham
        exact hain ham

theorem mkBucket_getD (l : List String) : (mkBucket l).getD [] = l := by
  cases l <;> rfl

theorem mkBucket_append_singleton (l : List String) (x : String) :
    mkBucket (l ++ [x]) = some (l ++ [x]) := by
  cases l <;> rfl

theorem mkBucket_map_sort (le : String → String → Bool) (l : List String) :
    Option.map (fun b => b.mergeSort le) (mkBucket l) =
      mkBucket (l.mergeSort le) := by
  cases l with
  | nil =>
    rw [show ([] : List String).mergeSort le = [] from List.mergeSort_nil]
    rfl
  | cons x t =>
    show some ((x :: t).mergeSort le) = mkBucket ((x :: t).mergeSort le)
    unfold mkBucket
    rw [if_neg]
    intro h
    have h2 := List.isEmpty_iff.mp h
    have h3 := (List.mergeSort_perm (x :: t) le).length_eq
    rw [h2] at h3
    simp at h3

/-- Closed form of the per-key dynamics folded over a non-empty item list
with distinct ids: the bucket becomes the surviving prior content (ids of
no affected item, in order) followed by the ids pushed for this key, or is
absent when that list is empty. -/
theorem keyStep_foldl_closed (cond : MemoryItem → Bool) :
    ∀ (l : List MemoryItem) (ob : Option (List String)),
    l ≠ [] → (l.map (fun i => i.id)).Nodup →
    l.foldl (keyStep cond) ob =
      mkBucket ((ob.getD []).filter
          (fun x => !((l.map (fun i => i.id)).contains x)) ++
        (l.filter (fun i => !i.deleted && cond i)).map (fun i => i.id)) := by
  intro l
  induction l with
  | nil => intro ob h _; exact absurd rfl h
  | cons i rest ih =>
    intro ob _ hnd
    rw [List.map_cons, List.nodup_cons] at hnd
    obtain ⟨hi, hndrest⟩ := hnd
    have hpred : ∀ x : String,
        (!((i.id :: rest.map (fun i => i.id)).contains x)) =
          (!((rest.map (fun i => i.id)).contains x) && !(x == i.id)) := by
      intro x
      rw [List.contains_cons, Bool.not_or, Bool.and_comm]
    rw [List.foldl_cons]
    rcases Decidable.em (rest.isEmpty = true) with hrest | hrest
    · have h0 : rest = [] := List.isEmpty_iff.mp hrest
      subst h0
      have hpred0 : (fun x : String =>
            !(((i :: ([] : List MemoryItem)).map
              (fun i => i.id)).contains x)) =
          (fun x : String => !(x == i.id)) := by
        funext x
        rw [List.map_cons, List.map_nil, List.contains_cons,
          List.contains_nil, Bool.or_false]
      have hfc : ((i :: ([] : List MemoryItem)).filter
            (fun i => !i.deleted && cond i)).map (fun i => i.id) =
          if (!i.deleted && cond i) = true then [i.id] else [] := by
        rw [List.filter_cons, List.filter_nil]
        by_cases h : (!i.deleted && cond i) = true
        · rw [if_pos h, if_pos h]
          rfl
        · rw [if_neg h, if_neg h]
          rfl
      rw [List.foldl_nil, hpred0, hfc]
      unfold keyStep
      by_cases hdel : i.deleted = true
      · rw [if_pos hdel, if_neg (by simp [hdel]), List.append_nil]
      · rw [if_neg hdel]
        by_cases hcond : cond i = true
        · rw [if_pos hcond, if_pos (by simp [hdel, hcond]),
            mkBucket_append_singleton]
        · rw [if_neg hcond, if_neg (by simp [hcond]), List.append_nil]
    · have hrest2 : rest ≠ [] := fun h => hrest (by rw [h]; rfl)
      rw [ih (keyStep cond ob i) hrest2 hndrest]
      have hcomb : ((ob.getD []).filter (fun x => !(x == i.id))).filter
            (fun x => !((rest.map (fun i => i.id)).contains x)) =
          (ob.getD []).filter
            (fun x => !(((i :: rest).map (fun i => i.id)).contains x)) := by
        rw [List.filter_filter]
        apply List.filter_congr
        intro x _
        rw [List.map_cons, hpred x]
      have hsurv : ((keyStep cond ob i).getD []).filter
            (fun x => !((rest.map (fun i => i.id)).contains x)) =
          (ob.getD []).filter
            (fun x => !(((i :: rest).map (fun i => i.id)).contains x)) ++
            (if !i.deleted && cond i then [i.id] else []) := by
        unfold keyStep
        by_cases hdel : i.deleted = true
        · rw [if_pos hdel, mkBucket_getD, hcomb, if_neg (by simp [hdel]),
            List.append_nil]
        · rw [if_neg hdel]
          by_cases hcond : cond i = true
          · rw [if_pos hcond]
            show ((_ ++ [i.id]).filter _) = _
            rw [List.filter_append, hcomb, if_pos (by simp [hdel, hcond])]
            congr 1
            have hcont : ((rest.map (fun i => i.id)).contains i.id) = false :=
              Bool.eq_false_iff.mpr (fun hc => hi (by simpa using hc))
            have hcont2 : (!((rest.map (fun i => i.id)).contains i.id)) =
                true := by
              rw [hcont]
              rfl
            rw [List.filter_cons, if_pos hcont2, List.filter_nil]
          · rw [if_neg hcond, mkBucket_getD, hcomb,
              if_neg (by simp [hcond]), List.append_nil]
      rw [hsurv]
      congr 1
      rw [List.filter_cons]
      by_cases hpush : (!i.deleted && cond i) = true
      · rw [if_pos hpush, if_pos hpush, List.map_cons, List.append_assoc]
        rfl
      · rw [if_neg hpush, if_neg hpush, List.append_nil]

theorem idxLe_trans (time : String → ℤ) :
    ∀ (a b c : String), idxLe time a b → idxLe time b c →
      idxLe time a c := by
  intro a b c h1 h2
  simp only [idxLe, decide_eq_true_eq] at h1 h2 ⊢
  exact le_trans h2 h1

theorem idxLe_total (time : String → ℤ) :
    ∀ (a b : String), (idxLe time a b || idxLe time b a) = true := by
  intro a b
  simp only [idxLe, Bool.or_eq_true_iff, decide_eq_true_eq]
  exact le_total (time b) (time a)

/-- Idempotence of the per-key dynamics followed by the per-bucket sort:
folding the same affected items again over an already updated-and-sorted
bucket reproduces it. -/
theorem keyStep_sort_idem (cond : MemoryItem → Bool) (time : String → ℤ)
    (items : List MemoryItem)
    (hnd : (items.map (fun i => i.id)).Nodup)
    (ob : Option (List String)) (hob : (ob.getD []).Nodup) :
    Option.map (fun b => b.mergeSort (idxLe time))
        (items.foldl (keyStep cond)
          (Option.map (fun b => b.mergeSort (idxLe time))
            (items.foldl (keyStep cond) ob))) =
      Option.map (fun b => b.mergeSort (idxLe time))
        (items.foldl (keyStep cond) ob) := by
  have htrans := idxLe_trans time
  have htotal := idxLe_total time
  rcases Decidable.em (items.isEmpty = true) with hemp | hemp
  · have h0 : items = [] := List.isEmpty_iff.mp hemp
    subst h0
    rw [List.foldl_nil, List.foldl_nil]
    cases ob with
    | none => rfl
    | some b =>
      show some ((b.mergeSort (idxLe time)).mergeSort (idxLe time)) = _
      rw [List.mergeSort_of_sorted (List.sorted_mergeSort htrans htotal b)]
      rfl
  · have hne : items ≠ [] := fun h => by rw [h] at hemp; exact hemp rfl
    rw [keyStep_foldl_closed cond items ob hne hnd, mkBucket_map_sort]
    rw [keyStep_foldl_closed cond items _ hne hnd, mkBucket_getD,
      mkBucket_map_sort]
    set R := items.map (fun i => i.id) with hR
    set S := (ob.getD []).filter (fun x => !(R.contains x)) with hS
    set P := (items.filter (fun i => !i.deleted && cond i)).map
      (fun i => i.id) with hP
    congr 1
    have ndS : S.Nodup := hob.filter _
    have ndP : P.Nodup := by
      rw [hP]
      exact hnd.sublist ((List.filter_sublist items).map (fun i => i.id))
    have hPR : ∀ x ∈ P, x ∈ R := by
      intro x hxP
      rw [hP] at hxP
      rcases List.mem_map.mp hxP with ⟨j, hj, hjx⟩
      rw [hR]
      exact hjx ▸ List.mem_map_of_mem _ (List.mem_of_mem_filter hj)
    have hdisj : S.Disjoint P := by
      intro x hx hxP
      rw [hS] at hx
      have hcx : R.contains x = true := by simpa using hPR x hxP
      have h3 := (List.mem_filter.mp hx).2
      rw [hcx] at h3
      simp at h3
    have ndSP : (S ++ P).Nodup := List.nodup_append.mpr ⟨ndS, ndP, hdisj⟩
    have hfilters : ((S ++ P).mergeSort (idxLe time)).filter
        (fun x => !(R.contains x)) = S.mergeSort (idxLe time) := by
      rw [filter_mergeSort_eq htrans htotal _ ndSP, List.filter_append]
      have h1 : S.filter (fun x => !(R.contains x)) = S := by
        apply List.filter_eq_self.mpr
        intro x hx
        rw [hS] at hx
        exact (List.mem_filter.mp hx).2
      have h2 : P.filter (fun x => !(R.contains x)) = [] := by
        apply List.filter_eq_nil_iff.mpr
        intro x hx
        have hcx : R.contains x = true := by simpa using hPR x hx
        rw [hcx]
        decide
      rw [h1, h2, List.append_nil]
    rw [hfilters]
    exact mergeSort_append_absorb htrans htotal ndSP

theorem bucketLookup_cons_pos (p : String × List String)
    (rest : List (String × List String)) (k : String)
    (h : (p.1 == k) = true) :
    bucketLookup (p :: rest) k = some p.2 := by
  unfold bucketLookup
  rw [List.find?_cons_of_pos rest
    (show (fun q : String × List String => q.1 == k) p = true from h)]
  rfl

theorem bucketLookup_cons_neg (p : String × List String)
    (rest : List (String × List String)) (k : String)
    (h : (p.1 == k) = false) :
    bucketLookup (p :: rest) k = bucketLookup rest k := by
  unfold bucketLookup
  rw [List.find?_cons_of_neg rest
    (show ¬ (fun q : String × List String => q.1 == k) p = true from by
      rw [show (fun q : String × List String => q.1 == k) p = (p.1 == k)
        from rfl, h]
      simp)]

theorem bucketLookup_eq_none (m : List (String × List String)) (k : String)
    (h : k ∉ m.map Prod.fst) : bucketLookup m k = none := by
  induction m with
  | nil => rfl
  | cons p rest ih =>
    rw [List.map_cons, List.mem_cons] at h
    push_neg at h
    rw [bucketLookup_cons_neg p rest k
      (beq_eq_false_iff_ne.mpr (fun he => h.1 he.symm))]
    exact ih h.2

theorem removeIdBuckets_keys_sublist (m : List (String × List String))
    (id : String) :
    (removeIdBuckets m id).map Prod.fst <+ m.map Prod.fst := by
  induction m with
  | nil => exact List.Sublist.refl _
  | cons p rest ih =>
    unfold removeIdBuckets at ih ⊢
    rw [List.map_cons, List.filter_cons]
    by_cases hkeep :
        (!((p.2.filter (fun x => !(x == id))).isEmpty)) = true
    · rw [if_pos hkeep, List.map_cons, List.map_cons]
      exact ih.cons₂ p.1
    · rw [if_neg hkeep, List.map_cons]
      exact ih.cons p.1

theorem bucketLookup_removeIdBuckets (m : List (String × List String))
    (id k : String) (hnd : (m.map Prod.fst).Nodup) :
    bucketLookup (removeIdBuckets m id) k =
      mkBucket (((bucketLookup m k).getD []).filter
        (fun x => !(x == id))) := by
  induction m with
  | nil => rfl
  | cons p rest ih =>
    rw [List.map_cons, List.nodup_cons] at hnd
    obtain ⟨hp, hndrest⟩ := hnd
    unfold removeIdBuckets at ih ⊢
    rw [List.map_cons, List.filter_cons]
    cases hpk : (p.1 == k) with
    | true =>
      rw [bucketLookup_cons_pos p rest k hpk]
      by_cases hkeep :
          (!((p.2.filter (fun x => !(x == id))).isEmpty)) = true
      · rw [if_pos hkeep,
          bucketLookup_cons_pos (p.1, p.2.filter (fun x => !(x == id))) _ k
            hpk]
        rw [show ((some p.2).getD []) = p.2 from rfl]
        unfold mkBucket
        rw [Bool.not_eq_true'] at hkeep
        rw [if_neg (by rw [hkeep]; simp)]
      · have hempty : (p.2.filter (fun x => !(x == id))).isEmpty = true := by
          cases h2 : (p.2.filter (fun x => !(x == id))).isEmpty with
          | false => exact absurd (by rw [h2]; rfl) hkeep
          | true => rfl
        rw [if_neg hkeep]
        have hnone : bucketLookup
            ((rest.map (fun p =>
              (p.1, p.2.filter (fun x => !(x == id))))).filter
              (fun p => !p.2.isEmpty)) k = none := by
          apply bucketLookup_eq_none
          intro hmem
          apply hp
          rw [eq_of_beq hpk]
          have h2 := (removeIdBuckets_keys_sublist rest id).subset
          unfold removeIdBuckets at h2
          exact h2 hmem
        rw [hnone]
        rw [show ((some p.2).getD []) = p.2 from rfl]
        unfold mkBucket
        rw [if_pos hempty]
    | false =>
      rw [bucketLookup_cons_neg p rest k hpk]
      by_cases hkeep :
          (!((p.2.filter (fun x => !(x == id))).isEmpty)) = true
      · rw [if_pos hkeep,
          bucketLookup_cons_neg (p.1, p.2.filter (fun x => !(x == id))) _ k
            hpk]
        exact ih hndrest
      · rw [if_neg hkeep]
        exact ih hndrest

theorem bucketLookup_append_right (m l2 : List (String × List String))
    (k : String) (h : bucketLookup m k = none) :
    bucketLookup (m ++ l2) k = bucketLookup l2 k := by
  induction m with
  | nil => rfl
  | cons p rest ih =>
    cases hpk : (p.1 == k) with
    | true => rw [bucketLookup_cons_pos p rest k hpk] at h; cases h
    | false =>
      rw [bucketLookup_cons_neg p rest k hpk] at h
      rw [List.cons_append, bucketLookup_cons_neg p (rest ++ l2) k hpk]
      exact ih h

theorem bucketLookup_append_left (m l2 : List (String × List String))
    (k : String) (b : List String) (h : bucketLookup m k = some b) :
    bucketLookup (m ++ l2) k = some b := by
  induction m with
  | nil => cases h
  | cons p rest ih =>
    cases hpk : (p.1 == k) with
    | true =>
      rw [bucketLookup_cons_pos p rest k hpk] at h
      rw [List.cons_append, bucketLookup_cons_pos p (rest ++ l2) k hpk]
      exact h
    | false =>
      rw [bucketLookup_cons_neg p rest k hpk] at h
      rw [List.cons_append, bucketLookup_cons_neg p (rest ++ l2) k hpk]
      exact ih h

theorem bucketLookup_push_aux (m : List (String × List String))
    (k v : String) :
    bucketLookup (m.map (fun p =>
        if p.1 == k then (p.1, p.2 ++ [v]) else p)) k =
      (bucketLookup m k).map (fun b => b ++ [v]) := by
  induction m with
  | nil => rfl
  | cons p rest ih =>
    rw [List.map_cons]
    cases hpk : (p.1 == k) with
    | true =>
      rw [if_pos rfl, bucketLookup_cons_pos (p.1, p.2 ++ [v]) _ k hpk,
        bucketLookup_cons_pos p rest k hpk]
      rfl
    | false =>
      rw [if_neg (by simp), bucketLookup_cons_neg p _ k hpk,
        bucketLookup_cons_neg p rest k hpk]
      exact ih

theorem not_any_key_of_lookup_none (m : List (String × List String))
    (k : String) (hany : m.any (fun p => p.1 == k) = false) :
    bucketLookup m k = none := by
  apply bucketLookup_eq_none
  intro hmem
  rcases List.mem_map.mp hmem with ⟨q, hqm, hqk⟩
  have : m.any (fun p => p.1 == k) = true :=
    List.any_eq_true.mpr ⟨q, hqm, by rw [hqk]; exact beq_self_eq_true k⟩
  rw [this] at hany
  cases hany

theorem bucketLookup_isSome_of_mem (m : List (String × List String))
    (k : String) (h : k ∈ m.map Prod.fst) :
    ∃ b, bucketLookup m k = some b := by
  induction m with
  | nil => cases h
  | cons p rest ih =>
    cases hpk : (p.1 == k) with
    | true => exact ⟨p.2, bucketLookup_cons_pos p rest k hpk⟩
    | false =>
      rw [bucketLookup_cons_neg p rest k hpk]
      apply ih
      rcases List.mem_cons.mp h with h1 | h1
      · exact absurd (beq_iff_eq.mpr h1.symm) (by rw [hpk]; simp)
      · exact h1

theorem bucketLookup_bucketPush_self (m : List (String × List String))
    (k v : String) :
    bucketLookup (bucketPush m k v) k =
      some ((bucketLookup m k).getD [] ++ [v]) := by
  unfold bucketPush
  cases hany : m.any (fun p => p.1 == k) with
  | true =>
    rw [if_pos rfl, bucketLookup_push_aux m k v]
    rcases List.any_eq_true.mp hany with ⟨q, hqm, hqk⟩
    have hk : k ∈ m.map Prod.fst := by
      have h2 := List.mem_map_of_mem Prod.fst hqm
      rw [eq_of_beq hqk] at h2
      exact h2
    rcases bucketLookup_isSome_of_mem m k hk with ⟨b, hb⟩
    rw [hb]
    rfl
  | false =>
    rw [if_neg (by simp)]
    rw [bucketLookup_append_right m _ k (not_any_key_of_lookup_none m k hany),
      not_any_key_of_lookup_none m k hany]
    rw [bucketLookup_cons_pos (k, [v]) [] k (beq_self_eq_true k)]
    rfl

theorem bucketLookup_push_map_ne (m : List (String × List String))
    (k v k2 : String) (hne : k2 ≠ k) :
    bucketLookup (m.map (fun p =>
        if p.1 == k then (p.1, p.2 ++ [v]) else p)) k2 =
      bucketLookup m k2 := by
  induction m with
  | nil => rfl
  | cons p rest ih =>
    rw [List.map_cons]
    cases hpk : (p.1 == k) with
    | true =>
      rw [if_pos rfl]
      have hp2 : (p.1 == k2) = false :=
        beq_eq_false_iff_ne.mpr
          (fun he => hne (he.symm.trans (eq_of_beq hpk)))
      rw [bucketLookup_cons_neg (p.1, p.2 ++ [v]) _ k2 hp2,
        bucketLookup_cons_neg p rest k2 hp2]
      exact ih
    | false =>
      rw [if_neg (by simp)]
      cases hpk2 : (p.1 == k2) with
      | true =>
        rw [bucketLookup_cons_pos p _ k2 hpk2,
          bucketLookup_cons_pos p rest k2 hpk2]
      | false =>
        rw [bucketLookup_cons_neg p _ k2 hpk2,
          bucketLookup_cons_neg p rest k2 hpk2]
        exact ih

theorem bucketLookup_bucketPush_ne (m : List (String × List String))
    (k v k2 : String) (hne : k2 ≠ k) :
    bucketLookup (bucketPush m k v) k2 = bucketLookup m k2 := by
  unfold bucketPush
  cases hany : m.any (fun p => p.1 == k) with
  | true =>
    rw [if_pos rfl]
    exact bucketLookup_push_map_ne m k v k2 hne
  | false =>
    rw [if_neg (by simp)]
    cases hlk : bucketLookup m k2 with
    | some b => exact bucketLookup_append_left m _ k2 b hlk
    | none =>
      rw [bucketLookup_append_right m _ k2 hlk,
        bucketLookup_cons_neg (k, [v]) [] k2
          (beq_eq_false_iff_ne.mpr (fun he => hne he.symm))]
      rfl

theorem bucketPush_keys_nodup (m : List (String × List String))
    (k v : String) (hnd : (m.map Prod.fst).Nodup) :
    ((bucketPush m k v).map Prod.fst).Nodup := by
  unfold bucketPush
  cases hany : m.any (fun p => p.1 == k) with
  | true =>
    rw [if_pos rfl, List.map_map]
    have he : (Prod.fst ∘ fun p : String × List String =>
        if p.1 == k then (p.1, p.2 ++ [v]) else p) = Prod.fst := by
      funext p
      show (if p.1 == k then (p.1, p.2 ++ [v]) else p).1 = p.1
      cases hpk : (p.1 == k) with
      | true => rw [if_pos rfl]
      | false => rw [if_neg (by simp)]
    rw [he]
    exact hnd
  | false =>
    rw [if_neg (by simp), List.map_append]
    rw [List.nodup_append]
    refine ⟨hnd, by simp, ?_⟩
    intro x hx hxk
    rw [List.map_cons, List.map_nil, List.mem_singleton] at hxk
    subst hxk
    rcases bucketLookup_isSome_of_mem m x hx with ⟨b, hb⟩
    rw [not_any_key_of_lookup_none m x hany] at hb
    cases hb

theorem removeIdBuckets_keys_nodup (m : List (String × List String))
    (id : String) (hnd : (m.map Prod.fst).Nodup) :
    ((removeIdBuckets m id).map Prod.fst).Nodup :=
  hnd.sublist (removeIdBuckets_keys_sublist m id)

theorem nestedLookup_cons_pos (p : String × List (String × List String))
    (rest : List (String × List (String × List String))) (k : String)
    (h : (p.1 == k) = true) :
    nestedLookup (p :: rest) k = some p.2 := by
  unfold nestedLookup
  rw [List.find?_cons_of_pos rest
    (show (fun q : String × List (String × List String) => q.1 == k) p =
      true from h)]
  rfl

theorem nestedLookup_cons_neg (p : String × List (String × List String))
    (rest : List (String × List (String × List String))) (k : String)
    (h : (p.1 == k) = false) :
    nestedLookup (p :: rest) k = nestedLookup rest k := by
  unfold nestedLookup
  rw [List.find?_cons_of_neg rest
    (show ¬ (fun q : String × List (String × List String) => q.1 == k) p =
      true from by
      rw [show (fun q : String × List (String × List String) => q.1 == k) p
        = (p.1 == k) from rfl, h]
      simp)]

theorem nestedLookup_eq_none
    (m : List (String × List (String × List String))) (k : String)
    (h : k ∉ m.map Prod.fst) : nestedLookup m k = none := by
  induction m with
  | nil => rfl
  | cons p rest ih =>
    rw [List.map_cons, List.mem_cons] at h
    push_neg at h
    rw [nestedLookup_cons_neg p rest k
      (beq_eq_false_iff_ne.mpr (fun he => h.1 he.symm))]
    exact ih h.2

theorem removeIdNested_keys_sublist
    (m : List (String × List (String × List String))) (id : String) :
    (removeIdNested m id).map Prod.fst <+ m.map Prod.fst := by
  induction m with
  | nil => exact List.Sublist.refl _
  | cons p rest ih =>
    unfold removeIdNested at ih ⊢
    rw [List.map_cons, List.filter_cons]
    by_cases hkeep : (!((removeIdBuckets p.2 id).isEmpty)) = true
    · rw [if_pos hkeep, List.map_cons, List.map_cons]
      exact ih.cons₂ p.1
    · rw [if_neg hkeep, List.map_cons]
      exact ih.cons p.1

theorem nestedLookup_isSome_of_mem
    (m : List (String × List (String × List String))) (k : String)
    (h : k ∈ m.map Prod.fst) :
    ∃ inner, nestedLookup m k = some inner := by
  induction m with
  | nil => cases h
  | cons p rest ih =>
    cases hpk : (p.1 == k) with
    | true => exact ⟨p.2, nestedLookup_cons_pos p rest k hpk⟩
    | false =>
      rw [nestedLookup_cons_neg p rest k hpk]
      apply ih
      rcases List.mem_cons.mp h with h1 | h1
      · exact absurd (beq_iff_eq.mpr h1.symm) (by rw [hpk]; simp)
      · exact h1

theorem nestedLookup_append_right
    (m l2 : List (String × List (String × List String))) (k : String)
    (h : nestedLookup m k = none) :
    nestedLookup (m ++ l2) k = nestedLookup l2 k := by
  induction m with
  | nil => rfl
  | cons p rest ih =>
    cases hpk : (p.1 == k) with
    | true => rw [nestedLookup_cons_pos p rest k hpk] at h; cases h
    | false =>
      rw [nestedLookup_cons_neg p rest k hpk] at h
      rw [List.cons_append, nestedLookup_cons_neg p (rest ++ l2) k hpk]
      exact ih h

theorem nestedLookup_append_left
    (m l2 : List (String × List (String × List String))) (k : String)
    (inner : List (String × List String))
    (h : nestedLookup m k = some inner) :
    nestedLookup (m ++ l2) k = some inner := by
  induction m with
  | nil => cases h
  | cons p rest ih =>
    cases hpk : (p.1 == k) with
    | true =>
      rw [nestedLookup_cons_pos p rest k hpk] at h
      rw [List.cons_append, nestedLookup_cons_pos p (rest ++ l2) k hpk]
      exact h
    | false =>
      rw [nestedLookup_cons_neg p rest k hpk] at h
      rw [List.cons_append, nestedLookup_cons_neg p (rest ++ l2) k hpk]
      exact ih h

theorem not_any_skey_of_nestedLookup_none
    (m : List (String × List (String × List String))) (k : String)
    (hany : m.any (fun p => p.1 == k) = false) :
    nestedLookup m k = none := by
  apply nestedLookup_eq_none
  intro hmem
  rcases List.mem_map.mp hmem with ⟨q, hqm, hqk⟩
  have h2 : m.any (fun p => p.1 == k) = true :=
    List.any_eq_true.mpr ⟨q, hqm, by rw [hqk]; exact beq_self_eq_true k⟩
  rw [h2] at hany
  cases hany

theorem lookup2_of_nested_some
    {m : List (String × List (String × List String))} {s : String}
    {inner : List (String × List String)}
    (h : nestedLookup m s = some inner) (t : String) :
    lookup2 m s t = bucketLookup inner t := by
  unfold lookup2
  rw [h]

theorem lookup2_of_nested_none
    {m : List (String × List (String × List String))} {s : String}
    (h : nestedLookup m s = none) (t : String) :
    lookup2 m s t = none := by
  unfold lookup2
  rw [h]

theorem lookup2_removeIdNested
    (m : List (String × List (String × List String))) (id s t : String) :
    (m.map Prod.fst).Nodup → (∀ p ∈ m, (p.2.map Prod.fst).Nodup) →
    lookup2 (removeIdNested m id) s t =
      mkBucket (((lookup2 m s t).getD []).filter
        (fun x => !(x == id))) := by
  induction m with
  | nil => intro _ _; rfl
  | cons p rest ih =>
    intro hnd hinner
    rw [List.map_cons, List.nodup_cons] at hnd
    obtain ⟨hp, hndrest⟩ := hnd
    have hinnerrest : ∀ q ∈ rest, (q.2.map Prod.fst).Nodup :=
      fun q hq => hinner q (List.mem_cons_of_mem p hq)
    have hinnerp : (p.2.map Prod.fst).Nodup :=
      hinner p (List.mem_cons_self p rest)
    unfold removeIdNested at ih ⊢
    rw [List.map_cons, List.filter_cons]
    cases hps : (p.1 == s) with
    | true =>
      rw [lookup2_of_nested_some (nestedLookup_cons_pos p rest s hps) t]
      by_cases hkeep : (!((removeIdBuckets p.2 id).isEmpty)) = true
      · rw [if_pos hkeep,
          lookup2_of_nested_some
            (nestedLookup_cons_pos (p.1, removeIdBuckets p.2 id) _ s hps) t]
        exact bucketLookup_removeIdBuckets p.2 id t hinnerp
      · rw [if_neg hkeep]
        have hempty : (removeIdBuckets p.2 id).isEmpty = true := by
          cases h2 : (removeIdBuckets p.2 id).isEmpty with
          | false => exact absurd (by rw [h2]; rfl) hkeep
          | true => rfl
        have hrm : removeIdBuckets p.2 id = [] := List.isEmpty_iff.mp hempty
        have hnone : nestedLookup
            ((rest.map (fun p => (p.1, removeIdBuckets p.2 id))).filter
              (fun p => !p.2.isEmpty)) s = none := by
          apply nestedLookup_eq_none
          intro hmem
          apply hp
          rw [eq_of_beq hps]
          have h2 := (removeIdNested_keys_sublist rest id).subset
          unfold removeIdNested at h2
          exact h2 hmem
        rw [lookup2_of_nested_none hnone t,
          ← bucketLookup_removeIdBuckets p.2 id t hinnerp, hrm]
        rfl
    | false =>
      have hl2 : lookup2 (p :: rest) s t = lookup2 rest s t := by
        unfold lookup2
        rw [nestedLookup_cons_neg p rest s hps]
      rw [hl2]
      by_cases hkeep : (!((removeIdBuckets p.2 id).isEmpty)) = true
      · rw [if_pos hkeep]
        have hskip : lookup2 ((p.1, removeIdBuckets p.2 id) ::
            (rest.map (fun p => (p.1, removeIdBuckets p.2 id))).filter
              (fun p => !p.2.isEmpty)) s t =
            lookup2 ((rest.map (fun p => (p.1, removeIdBuckets p.2 id))).filter
              (fun p => !p.2.isEmpty)) s t := by
          unfold lookup2
          rw [nestedLookup_cons_neg (p.1, removeIdBuckets p.2 id) _ s hps]
        rw [hskip]
        exact ih hndrest hinnerrest
      · rw [if_neg hkeep]
        exact ih hndrest hinnerrest

theorem lookup2_eq_getD (m : List (String × List (String × List String)))
    (s t : String) :
    lookup2 m s t = bucketLookup ((nestedLookup m s).getD []) t := by
  unfold lookup2
  cases h : nestedLookup m s with
  | none => rfl
  | some inner => rfl

theorem nestedPush_map_lookup_self
    (m : List (String × List (String × List String)))
    (s tg id : String) :
    nestedLookup (m.map (fun p =>
        if p.1 == s then (p.1, bucketPush p.2 tg id) else p)) s =
      (nestedLookup m s).map (fun inner => bucketPush inner tg id) := by
  induction m with
  | nil => rfl
  | cons p rest ih =>
    rw [List.map_cons]
    cases hps : (p.1 == s) with
    | true =>
      rw [if_pos rfl, nestedLookup_cons_pos (p.1, bucketPush p.2 tg id) _ s
        hps, nestedLookup_cons_pos p rest s hps]
      rfl
    | false =>
      rw [if_neg (by simp), nestedLookup_cons_neg p _ s hps,
        nestedLookup_cons_neg p rest s hps]
      exact ih

theorem nestedPush_map_lookup_ne
    (m : List (String × List (String × List String)))
    (s tg id s2 : String) (hne : s2 ≠ s) :
    nestedLookup (m.map (fun p =>
        if p.1 == s then (p.1, bucketPush p.2 tg id) else p)) s2 =
      nestedLookup m s2 := by
  induction m with
  | nil => rfl
  | cons p rest ih =>
    rw [List.map_cons]
    cases hps : (p.1 == s) with
    | true =>
      rw [if_pos rfl]
      have hp2 : (p.1 == s2) = false :=
        beq_eq_false_iff_ne.mpr
          (fun he => hne (he.symm.trans (eq_of_beq hps)))
      rw [nestedLookup_cons_neg (p.1, bucketPush p.2 tg id) _ s2 hp2,
        nestedLookup_cons_neg p rest s2 hp2]
      exact ih
    | false =>
      rw [if_neg (by simp)]
      cases hps2 : (p.1 == s2) with
      | true =>
        rw [nestedLookup_cons_pos p _ s2 hps2,
          nestedLookup_cons_pos p rest s2 hps2]
      | false =>
        rw [nestedLookup_cons_neg p _ s2 hps2,
          nestedLookup_cons_neg p rest s2 hps2]
        exact ih

theorem nestedLookup_nestedPush_self
    (m : List (String × List (String × List String))) (s tg id : String) :
    nestedLookup (nestedPush m s tg id) s =
      some (bucketPush ((nestedLookup m s).getD []) tg id) := by
  unfold nestedPush
  cases hany : m.any (fun p => p.1 == s) with
  | true =>
    rw [if_pos rfl, nestedPush_map_lookup_self m s tg id]
    rcases List.any_eq_true.mp hany with ⟨q, hqm, hqs⟩
    have hk : s ∈ m.map Prod.fst := by
      have h2 := List.mem_map_of_mem Prod.fst hqm
      rw [eq_of_beq hqs] at h2
      exact h2
    rcases nestedLookup_isSome_of_mem m s hk with ⟨inner, hb⟩
    rw [hb]
    rfl
  | false =>
    rw [if_neg (by simp),
      nestedLookup_append_right m _ s
        (not_any_skey_of_nestedLookup_none m s hany),
      not_any_skey_of_nestedLookup_none m s hany,
      nestedLookup_cons_pos (s, bucketPush [] tg id) [] s
        (beq_self_eq_true s)]
    rfl

theorem nestedLookup_nestedPush_ne
    (m : List (String × List (String × List String)))
    (s tg id s2 : String) (hne : s2 ≠ s) :
    nestedLookup (nestedPush m s tg id) s2 = nestedLookup m s2 := by
  unfold nestedPush
  cases hany : m.any (fun p => p.1 == s) with
  | true =>
    rw [if_pos rfl]
    exact nestedPush_map_lookup_ne m s tg id s2 hne
  | false =>
    rw [if_neg (by simp)]
    cases hlk : nestedLookup m s2 with
    | some inner => exact nestedLookup_append_left m _ s2 inner hlk
    | none =>
      rw [nestedLookup_append_right m _ s2 hlk,
        nestedLookup_cons_neg (s, bucketPush [] tg id) [] s2
          (beq_eq_false_iff_ne.mpr (fun he => hne he.symm))]
      rfl

theorem bucketLookup_tagFold (id : String) (tags : List String) :
    ∀ (m0 : List (String × List String)) (t : String), tags.Nodup →
    bucketLookup (tags.foldl (fun m tag => bucketPush m tag id) m0) t =
      if tags.contains t then some ((bucketLookup m0 t).getD [] ++ [id])
      else bucketLookup m0 t := by
  induction tags with
  | nil =>
    intro m0 t _
    rw [List.foldl_nil, if_neg (by rw [List.contains_nil]; simp)]
  | cons tg rest ih =>
    intro m0 t hnd
    obtain ⟨htg, hndrest⟩ := List.nodup_cons.mp hnd
    rw [List.foldl_cons, ih (bucketPush m0 tg id) t hndrest]
    cases hteq : (t == tg) with
    | true =>
      have ht2 : t = tg := eq_of_beq hteq
      have hrc : rest.contains t = false := by
        cases h2 : rest.contains t with
        | false => rfl
        | true =>
          exact absurd (show tg ∈ rest from ht2 ▸ (by simpa using h2))
            htg
      rw [if_neg (by rw [hrc]; simp), ht2,
        bucketLookup_bucketPush_self m0 tg id,
        if_pos (by rw [List.contains_cons, beq_self_eq_true]; rfl)]
    | false =>
      have hne : t ≠ tg := beq_eq_false_iff_ne.mp hteq
      rw [show (tg :: rest).contains t = rest.contains t from by
        rw [List.contains_cons, hteq, Bool.false_or]]
      rw [bucketLookup_bucketPush_ne m0 tg id t hne]

theorem lookup2_nestedTagFold (s id : String) (tags : List String) :
    ∀ (m0 : List (String × List (String × List String))) (t : String),
    lookup2 (tags.foldl (fun m tag => nestedPush m s tag id) m0) s t =
      bucketLookup (tags.foldl (fun b tag => bucketPush b tag id)
        ((nestedLookup m0 s).getD [])) t := by
  induction tags with
  | nil =>
    intro m0 t
    rw [List.foldl_nil, List.foldl_nil]
    exact lookup2_eq_getD m0 s t
  | cons tg rest ih =>
    intro m0 t
    rw [List.foldl_cons, List.foldl_cons,
      ih (nestedPush m0 s tg id) t,
      nestedLookup_nestedPush_self m0 s tg id]
    rfl

theorem lookup2_nestedTagFold_ne (s id : String) (tags : List String)
    (s2 : String) (hne : s2 ≠ s) :
    ∀ (m0 : List (String × List (String × List String))) (t : String),
    lookup2 (tags.foldl (fun m tag => nestedPush m s tag id) m0) s2 t =
      lookup2 m0 s2 t := by
  induction tags with
  | nil => intro m0 t; rfl
  | cons tg rest ih =>
    intro m0 t
    rw [List.foldl_cons, ih (nestedPush m0 s tg id) t]
    unfold lookup2
    rw [nestedLookup_nestedPush_ne m0 s tg id s2 hne]

theorem keyStep_deleted (cond : MemoryItem → Bool)
    (ob : Option (List String)) (item : MemoryItem)
    (h : item.deleted = true) :
    keyStep cond ob item =
      mkBucket ((ob.getD []).filter (fun x => !(x == item.id))) := by
  unfold keyStep
  rw [if_pos h]

theorem keyStep_push (cond : MemoryItem → Bool)
    (ob : Option (List String)) (item : MemoryItem)
    (h1 : item.deleted = false) (h2 : cond item = true) :
    keyStep cond ob item =
      some ((ob.getD []).filter (fun x => !(x == item.id)) ++ [item.id]) := by
  unfold keyStep
  rw [if_neg (by simp [h1]), if_pos h2]

theorem keyStep_nopush (cond : MemoryItem → Bool)
    (ob : Option (List String)) (item : MemoryItem)
    (h1 : item.deleted = false) (h2 : cond item = false) :
    keyStep cond ob item =
      mkBucket ((ob.getD []).filter (fun x => !(x == item.id))) := by
  unfold keyStep
  rw [if_neg (by simp [h1]), if_neg (by simp [h2])]

theorem addIdToIndex_byScope (idx : MemoryIndex) (item : MemoryItem) :
    (addIdToIndex idx item).byScope =
      bucketPush idx.byScope item.scope item.id := by
  unfold addIdToIndex
  have haux : ∀ (tags : List String) (acc : MemoryIndex),
      (tags.foldl (fun acc tag =>
        { acc with
            byTag := bucketPush acc.byTag tag item.id,
            byScopeTag :=
              nestedPush acc.byScopeTag item.scope tag item.id })
        acc).byScope = acc.byScope := by
    intro tags
    induction tags with
    | nil => intro acc; rfl
    | cons tg rest ih =>
      intro acc
      rw [List.foldl_cons]
      exact ih _
  exact haux item.tags _

theorem addIdToIndex_byTag (idx : MemoryIndex) (item : MemoryItem) :
    (addIdToIndex idx item).byTag =
      item.tags.foldl (fun m tag => bucketPush m tag item.id)
        idx.byTag := by
  unfold addIdToIndex
  have haux : ∀ (tags : List String) (acc : MemoryIndex),
      (tags.foldl (fun acc tag =>
        { acc with
            byTag := bucketPush acc.byTag tag item.id,
            byScopeTag :=
              nestedPush acc.byScopeTag item.scope tag item.id })
        acc).byTag =
      tags.foldl (fun m tag => bucketPush m tag item.id) acc.byTag := by
    intro tags
    induction tags with
    | nil => intro acc; rfl
    | cons tg rest ih =>
      intro acc
      rw [List.foldl_cons, List.foldl_cons]
      exact ih _
  exact haux item.tags _

theorem addIdToIndex_byScopeTag (idx : MemoryIndex) (item : MemoryItem) :
    (addIdToIndex idx item).byScopeTag =
      item.tags.foldl (fun m tag =>
        nestedPush m item.scope tag item.id) idx.byScopeTag := by
  unfold addIdToIndex
  have haux : ∀ (tags : List String) (acc : MemoryIndex),
      (tags.foldl (fun acc tag =>
        { acc with
            byTag := bucketPush acc.byTag tag item.id,
            byScopeTag :=
              nestedPush acc.byScopeTag item.scope tag item.id })
        acc).byScopeTag =
      tags.foldl (fun m tag => nestedPush m item.scope tag item.id)
        acc.byScopeTag := by
    intro tags
    induction tags with
    | nil => intro acc; rfl
    | cons tg rest ih =>
      intro acc
      rw [List.foldl_cons, List.foldl_cons]
      exact ih _
  exact haux item.tags _

theorem updStep_byScope_lookup (acc : MemoryIndex) (item : MemoryItem)
    (s : String) (hnd : (acc.byScope.map Prod.fst).Nodup) :
    bucketLookup ((updStep acc item).byScope) s =
      keyStep (fun i => i.scope == s) (bucketLookup acc.byScope s) item := by
  by_cases hdel : item.deleted = true
  · rw [keyStep_deleted _ _ _ hdel]
    unfold updStep
    rw [if_pos hdel]
    exact bucketLookup_removeIdBuckets acc.byScope item.id s hnd
  · have hdel2 : item.deleted = false := Bool.eq_false_iff.mpr hdel
    unfold updStep
    rw [if_neg hdel, addIdToIndex_byScope]
    show bucketLookup
      (bucketPush (removeIdBuckets acc.byScope item.id) item.scope item.id)
      s = _
    cases hsc : (item.scope == s) with
    | true =>
      rw [keyStep_push _ _ _ hdel2 hsc]
      have hseq : item.scope = s := eq_of_beq hsc
      rw [hseq, bucketLookup_bucketPush_self,
        bucketLookup_removeIdBuckets acc.byScope item.id s hnd,
        mkBucket_getD]
    | false =>
      rw [keyStep_nopush _ _ _ hdel2 hsc]
      rw [bucketLookup_bucketPush_ne _ item.scope item.id s
        (fun he => (beq_eq_false_iff_ne.mp hsc) he.symm)]
      exact bucketLookup_removeIdBuckets acc.byScope item.id s hnd

theorem updStep_byTag_lookup (acc : MemoryIndex) (item : MemoryItem)
    (t : String) (hnd : (acc.byTag.map Prod.fst).Nodup)
    (htags : item.tags.Nodup) :
    bucketLookup ((updStep acc item).byTag) t =
      keyStep (fun i => i.tags.contains t) (bucketLookup acc.byTag t)
        item := by
  by_cases hdel : item.deleted = true
  · rw [keyStep_deleted _ _ _ hdel]
    unfold updStep
    rw [if_pos hdel]
    exact bucketLookup_removeIdBuckets acc.byTag item.id t hnd
  · have hdel2 : item.deleted = false := Bool.eq_false_iff.mpr hdel
    unfold updStep
    rw [if_neg hdel, addIdToIndex_byTag]
    show bucketLookup
      (item.tags.foldl (fun m tag => bucketPush m tag item.id)
        (removeIdBuckets acc.byTag item.id)) t = _
    rw [bucketLookup_tagFold item.id item.tags
      (removeIdBuckets acc.byTag item.id) t htags]
    cases hc : (item.tags.contains t) with
    | true =>
      rw [if_pos rfl, keyStep_push _ _ _ hdel2 hc,
        bucketLookup_removeIdBuckets acc.byTag item.id t hnd,
        mkBucket_getD]
    | false =>
      rw [if_neg (by simp), keyStep_nopush _ _ _ hdel2 hc]
      exact bucketLookup_removeIdBuckets acc.byTag item.id t hnd

theorem updStep_byScopeTag_lookup (acc : MemoryIndex) (item : MemoryItem)
    (s t : String) (hndO : (acc.byScopeTag.map Prod.fst).Nodup)
    (hndI : ∀ p ∈ acc.byScopeTag, (p.2.map Prod.fst).Nodup)
    (htags : item.tags.Nodup) :
    lookup2 ((updStep acc item).byScopeTag) s t =
      keyStep (fun i => i.scope == s && i.tags.contains t)
        (lookup2 acc.byScopeTag s t) item := by
  by_cases hdel : item.deleted = true
  · rw [keyStep_deleted _ _ _ hdel]
    unfold updStep
    rw [if_pos hdel]
    exact lookup2_removeIdNested acc.byScopeTag item.id s t hndO hndI
  · have hdel2 : item.deleted = false := Bool.eq_false_iff.mpr hdel
    unfold updStep
    rw [if_neg hdel, addIdToIndex_byScopeTag]
    show lookup2
      (item.tags.foldl (fun m tag => nestedPush m item.scope tag item.id)
        (removeIdNested acc.byScopeTag item.id)) s t = _
    cases hsc : (item.scope == s) with
    | true =>
      have hseq : item.scope = s := eq_of_beq hsc
      cases hct : (item.tags.contains t) with
      | true =>
        have hcond :
            ((fun i => i.scope == s && i.tags.contains t) item) = true := by
          show (item.scope == s && item.tags.contains t) = true
          rw [hsc, hct]
          rfl
        rw [keyStep_push _ _ _ hdel2 hcond, ← hseq,
          lookup2_nestedTagFold item.scope item.id item.tags
            (removeIdNested acc.byScopeTag item.id) t,
          bucketLookup_tagFold item.id item.tags _ t htags,
          if_pos hct,
          ← lookup2_eq_getD (removeIdNested acc.byScopeTag item.id)
            item.scope t,
          lookup2_removeIdNested acc.byScopeTag item.id item.scope t
            hndO hndI,
          mkBucket_getD]
      | false =>
        have hcond :
            ((fun i => i.scope == s && i.tags.contains t) item) = false := by
          show (item.scope == s && item.tags.contains t) = false
          rw [hct, Bool.and_false]
        rw [keyStep_nopush _ _ _ hdel2 hcond, ← hseq,
          lookup2_nestedTagFold item.scope item.id item.tags
            (removeIdNested acc.byScopeTag item.id) t,
          bucketLookup_tagFold item.id item.tags _ t htags,
          if_neg (by rw [hct]; simp),
          ← lookup2_eq_getD (removeIdNested acc.byScopeTag item.id)
            item.scope t,
          lookup2_removeIdNested acc.byScopeTag item.id item.scope t
            hndO hndI]
    | false =>
      have hcond :
          ((fun i => i.scope == s && i.tags.contains t) item) = false := by
        show (item.scope == s && item.tags.contains t) = false
        rw [hsc, Bool.false_and]
      rw [keyStep_nopush _ _ _ hdel2 hcond,
        lookup2_nestedTagFold_ne item.scope item.id item.tags s
          (fun he => (beq_eq_false_iff_ne.mp hsc) he.symm) _ t]
      exact lookup2_removeIdNested acc.byScopeTag item.id s t hndO hndI

theorem tagFold_keys_nodup (id : String) (tags : List String) :
    ∀ m0 : List (String × List String), (m0.map Prod.fst).Nodup →
    ((tags.foldl (fun m tag => bucketPush m tag id) m0).map
      Prod.fst).Nodup := by
  induction tags with
  | nil => intro m0 h; exact h
  | cons tg rest ih =>
    intro m0 h
    rw [List.foldl_cons]
    exact ih _ (bucketPush_keys_nodup m0 tg id h)

theorem removeIdNested_keys_nodup
    (m : List (String × List (String × List String))) (id : String)
    (hnd : (m.map Prod.fst).Nodup) :
    ((removeIdNested m id).map Prod.fst).Nodup :=
  hnd.sublist (removeIdNested_keys_sublist m id)

theorem nestedPush_keys_nodup
    (m : List (String × List (String × List String)))
    (s tg id : String) (hnd : (m.map Prod.fst).Nodup) :
    ((nestedPush m s tg id).map Prod.fst).Nodup := by
  unfold nestedPush
  cases hany : m.any (fun p => p.1 == s) with
  | true =>
    rw [if_pos rfl, List.map_map]
    have he : (Prod.fst ∘ fun p : String × List (String × List String) =>
        if p.1 == s then (p.1, bucketPush p.2 tg id) else p) = Prod.fst := by
      funext p
      show (if p.1 == s then (p.1, bucketPush p.2 tg id) else p).1 = p.1
      cases hps : (p.1 == s) with
      | true => rw [if_pos rfl]
      | false => rw [if_neg (by simp)]
    rw [he]
    exact hnd
  | false =>
    rw [if_neg (by simp), List.map_append, List.nodup_append]
    refine ⟨hnd, by simp, ?_⟩
    intro x hx hxk
    rw [List.map_cons, List.map_nil, List.mem_singleton] at hxk
    subst hxk
    rcases nestedLookup_isSome_of_mem m x hx with ⟨inner, hb⟩
    rw [not_any_skey_of_nestedLookup_none m x hany] at hb
    cases hb

theorem nestedTagFold_keys_nodup (s id : String) (tags : List String) :
    ∀ m0 : List (String × List (String × List String)),
    (m0.map Prod.fst).Nodup →
    ((tags.foldl (fun m tag => nestedPush m s tag id) m0).map
      Prod.fst).Nodup := by
  induction tags with
  | nil => intro m0 h; exact h
  | cons tg rest ih =>
    intro m0 h
    rw [List.foldl_cons]
    exact ih _ (nestedPush_keys_nodup m0 s tg id h)

theorem removeIdNested_inner
    (m : List (String × List (String × List String))) (id : String)
    (hin : ∀ p ∈ m, (p.2.map Prod.fst).Nodup) :
    ∀ p ∈ removeIdNested m id, (p.2.map Prod.fst).Nodup := by
  intro p hp
  unfold removeIdNested at hp
  rcases List.mem_map.mp (List.mem_of_mem_filter hp) with ⟨q, hq, hqp⟩
  rw [← hqp]
  exact removeIdBuckets_keys_nodup _ _ (hin q hq)

theorem nestedPush_inner
    (m : List (String × List (String × List String)))
    (s tg id : String) (hin : ∀ p ∈ m, (p.2.map Prod.fst).Nodup) :
    ∀ p ∈ nestedPush m s tg id, (p.2.map Prod.fst).Nodup := by
  intro p hp
  unfold nestedPush at hp
  by_cases hany : m.any (fun q => q.1 == s) = true
  · rw [if_pos hany] at hp
    rcases List.mem_map.mp hp with ⟨q, hq, hqp⟩
    rw [← hqp]
    cases hqs : (q.1 == s) with
    | true =>
      rw [if_pos rfl]
      exact bucketPush_keys_nodup _ _ _ (hin q hq)
    | false =>
      rw [if_neg (by simp)]
      exact hin q hq
  · rw [if_neg hany] at hp
    rcases List.mem_append.mp hp with h | h
    · exact hin p h
    · rw [List.mem_singleton.mp h]
      exact bucketPush_keys_nodup [] tg id (by simp)

theorem nestedTagFold_inner (s id : String) (tags : List String) :
    ∀ m0 : List (String × List (String × List String)),
    (∀ p ∈ m0, (p.2.map Prod.fst).Nodup) →
    ∀ p ∈ tags.foldl (fun m tag => nestedPush m s tag id) m0,
      (p.2.map Prod.fst).Nodup := by
  induction tags with
  | nil => intro m0 h; exact h
  | cons tg rest ih =>
    intro m0 h
    rw [List.foldl_cons]
    exact ih _ (nestedPush_inner m0 s tg id h)

theorem updStep_byScope_keys_nodup (acc : MemoryIndex) (item : MemoryItem)
    (hnd : (acc.byScope.map Prod.fst).Nodup) :
    (((updStep acc item).byScope).map Prod.fst).Nodup := by
  unfold updStep
  by_cases hdel : item.deleted = true
  · rw [if_pos hdel]
    exact removeIdBuckets_keys_nodup _ _ hnd
  · rw [if_neg hdel, addIdToIndex_byScope]
    exact bucketPush_keys_nodup _ _ _ (removeIdBuckets_keys_nodup _ _ hnd)

theorem updStep_byTag_keys_nodup (acc : MemoryIndex) (item : MemoryItem)
    (hnd : (acc.byTag.map Prod.fst).Nodup) :
    (((updStep acc item).byTag).map Prod.fst).Nodup := by
  unfold updStep
  by_cases hdel : item.deleted = true
  · rw [if_pos hdel]
    exact removeIdBuckets_keys_nodup _ _ hnd
  · rw [if_neg hdel, addIdToIndex_byTag]
    exact tagFold_keys_nodup item.id item.tags _
      (removeIdBuckets_keys_nodup _ _ hnd)

theorem updStep_byScopeTag_keys_nodup (acc : MemoryIndex)
    (item : MemoryItem)
    (hnd : (acc.byScopeTag.map Prod.fst).Nodup) :
    (((updStep acc item).byScopeTag).map Prod.fst).Nodup := by
  unfold updStep
  by_cases hdel : item.deleted = true
  · rw [if_pos hdel]
    exact removeIdNested_keys_nodup _ _ hnd
  · rw [if_neg hdel, addIdToIndex_byScopeTag]
    exact nestedTagFold_keys_nodup item.scope item.id item.tags _
      (removeIdNested_keys_nodup _ _ hnd)

theorem updStep_byScopeTag_inner (acc : MemoryIndex) (item : MemoryItem)
    (hin : ∀ p ∈ acc.byScopeTag, (p.2.map Prod.fst).Nodup) :
    ∀ p ∈ (updStep acc item).byScopeTag, (p.2.map Prod.fst).Nodup := by
  unfold updStep
  by_cases hdel : item.deleted = true
  · rw [if_pos hdel]
    exact removeIdNested_inner _ _ hin
  · rw [if_neg hdel, addIdToIndex_byScopeTag]
    exact nestedTagFold_inner item.scope item.id item.tags _
      (removeIdNested_inner _ _ hin)

theorem foldl_updStep_byScope (s : String) (items : List MemoryItem) :
    ∀ acc : MemoryIndex, (acc.byScope.map Prod.fst).Nodup →
    bucketLookup ((items.foldl updStep acc).byScope) s =
      items.foldl (keyStep (fun i => i.scope == s))
        (bucketLookup acc.byScope s) := by
  induction items with
  | nil => intro acc _; rfl
  | cons i rest ih =>
    intro acc hnd
    rw [List.foldl_cons, List.foldl_cons,
      ih (updStep acc i) (updStep_byScope_keys_nodup acc i hnd),
      updStep_byScope_lookup acc i s hnd]

theorem foldl_updStep_byTag (t : String) (items : List MemoryItem) :
    ∀ acc : MemoryIndex, (acc.byTag.map Prod.fst).Nodup →
    (∀ i ∈ items, i.tags.Nodup) →
    bucketLookup ((items.foldl updStep acc).byTag) t =
      items.foldl (keyStep (fun i => i.tags.contains t))
        (bucketLookup acc.byTag t) := by
  induction items with
  | nil => intro acc _ _; rfl
  | cons i rest ih =>
    intro acc hnd htags
    rw [List.foldl_cons, List.foldl_cons,
      ih (updStep acc i) (updStep_byTag_keys_nodup acc i hnd)
        (fun j hj => htags j (List.mem_cons_of_mem i hj)),
      updStep_byTag_lookup acc i t hnd
        (htags i (List.mem_cons_self i rest))]

theorem foldl_updStep_byScopeTag (s t : String)
    (items : List MemoryItem) :
    ∀ acc : MemoryIndex, (acc.byScopeTag.map Prod.fst).Nodup →
    (∀ p ∈ acc.byScopeTag, (p.2.map Prod.fst).Nodup) →
    (∀ i ∈ items, i.tags.Nodup) →
    lookup2 ((items.foldl updStep acc).byScopeTag) s t =
      items.foldl (keyStep (fun i => i.scope == s && i.tags.contains t))
        (lookup2 acc.byScopeTag s t) := by
  induction items with
  | nil => intro acc _ _ _; rfl
  | cons i rest ih =>
    intro acc hnd hin htags
    rw [List.foldl_cons, List.foldl_cons,
      ih (updStep acc i) (updStep_byScopeTag_keys_nodup acc i hnd)
        (updStep_byScopeTag_inner acc i hin)
        (fun j hj => htags j (List.mem_cons_of_mem i hj)),
      updStep_byScopeTag_lookup acc i s t hnd hin
        (htags i (List.mem_cons_self i rest))]

theorem bucketLookup_sortBuckets (time : String → ℤ)
    (m : List (String × List String)) (k : String) :
    bucketLookup (sortBuckets time m) k =
      (bucketLookup m k).map (fun b => b.mergeSort (idxLe time)) := by
  unfold sortBuckets bucketLookup
  rw [List.find?_map,
    show ((fun p : String × List String => p.1 == k) ∘
        (fun p : String × List String =>
          (p.1, p.2.mergeSort (idxLe time)))) =
      (fun p : String × List String => p.1 == k) from rfl]
  cases h : m.find? (fun p => p.1 == k) with
  | none => rfl
  | some q => rfl

theorem nestedLookup_sortIndex (time : String → ℤ) (idx : MemoryIndex)
    (s : String) :
    nestedLookup ((sortIndex time idx).byScopeTag) s =
      (nestedLookup idx.byScopeTag s).map
        (fun inner => sortBuckets time inner) := by
  show nestedLookup (idx.byScopeTag.map
    (fun p => (p.1, sortBuckets time p.2))) s = _
  unfold nestedLookup
  rw [List.find?_map,
    show ((fun p : String × List (String × List String) => p.1 == s) ∘
        (fun p : String × List (String × List String) =>
          (p.1, sortBuckets time p.2))) =
      (fun p : String × List (String × List String) => p.1 == s) from rfl]
  cases h : idx.byScopeTag.find? (fun p => p.1 == s) with
  | none => rfl
  | some q => rfl

theorem lookup2_sortIndex (time : String → ℤ) (idx : MemoryIndex)
    (s t : String) :
    lookup2 ((sortIndex time idx).byScopeTag) s t =
      Option.map (fun b => b.mergeSort (idxLe time))
        (lookup2 idx.byScopeTag s t) := by
  unfold lookup2
  rw [nestedLookup_sortIndex]
  cases h : nestedLookup idx.byScopeTag s with
  | none => rfl
  | some inner =>
    show bucketLookup (sortBuckets time inner) t = _
    rw [bucketLookup_sortBuckets]

theorem foldl_updStep_byScope_keys (items : List MemoryItem) :
    ∀ acc : MemoryIndex, (acc.byScope.map Prod.fst).Nodup →
    (((items.foldl updStep acc).byScope).map Prod.fst).Nodup := by
  induction items with
  | nil => intro acc h; exact h
  | cons i rest ih =>
    intro acc h
    rw [List.foldl_cons]
    exact ih _ (updStep_byScope_keys_nodup acc i h)

theorem foldl_updStep_byTag_keys (items : List MemoryItem) :
    ∀ acc : MemoryIndex, (acc.byTag.map Prod.fst).Nodup →
    (((items.foldl updStep acc).byTag).map Prod.fst).Nodup := by
  induction items with
  | nil => intro acc h; exact h
  | cons i rest ih =>
    intro acc h
    rw [List.foldl_cons]
    exact ih _ (updStep_byTag_keys_nodup acc i h)

theorem foldl_updStep_byScopeTag_keys (items : List MemoryItem) :
    ∀ acc : MemoryIndex, (acc.byScopeTag.map Prod.fst).Nodup →
    (((items.foldl updStep acc).byScopeTag).map Prod.fst).Nodup := by
  induction items with
  | nil => intro acc h; exact h
  | cons i rest ih =>
    intro acc h
    rw [List.foldl_cons]
    exact ih _ (updStep_byScopeTag_keys_nodup acc i h)

theorem foldl_updStep_byScopeTag_inner (items : List MemoryItem) :
    ∀ acc : MemoryIndex,
    (∀ p ∈ acc.byScopeTag, (p.2.map Prod.fst).Nodup) →
    ∀ p ∈ (items.foldl updStep acc).byScopeTag,
      (p.2.map Prod.fst).Nodup := by
  induction items with
  | nil => intro acc h; exact h
  | cons i rest ih =>
    intro acc h
    rw [List.foldl_cons]
    exact ih _ (updStep_byScopeTag_inner acc i h)

theorem sortBuckets_keys (time : String → ℤ)
    (m : List (String × List String)) :
    (sortBuckets time m).map Prod.fst = m.map Prod.fst := by
  unfold sortBuckets
  rw [List.map_map]
  rfl

theorem updateIndexFromItems_byScope_lookup (dateParse : String → Option ℤ)
    (idx : MemoryIndex) (items : List MemoryItem) (s : String)
    (hnd : (idx.byScope.map Prod.fst).Nodup) :
    bucketLookup (updateIndexFromItems dateParse idx items).byScope s =
      Option.map (fun b =>
          b.mergeSort (idxLe (idxTime dateParse (itemsByIdMap items))))
        (items.foldl (keyStep (fun i => i.scope == s))
          (bucketLookup idx.byScope s)) := by
  show bucketLookup (sortBuckets (idxTime dateParse (itemsByIdMap items))
    ((items.foldl updStep idx).byScope)) s = _
  rw [bucketLookup_sortBuckets, foldl_updStep_byScope s items idx hnd]

theorem updateIndexFromItems_byTag_lookup (dateParse : String → Option ℤ)
    (idx : MemoryIndex) (items : List MemoryItem) (t : String)
    (hnd : (idx.byTag.map Prod.fst).Nodup)
    (htags : ∀ i ∈ items, i.tags.Nodup) :
    bucketLookup (updateIndexFromItems dateParse idx items).byTag t =
      Option.map (fun b =>
          b.mergeSort (idxLe (idxTime dateParse (itemsByIdMap items))))
        (items.foldl (keyStep (fun i => i.tags.contains t))
          (bucketLookup idx.byTag t)) := by
  show bucketLookup (sortBuckets (idxTime dateParse (itemsByIdMap items))
    ((items.foldl updStep idx).byTag)) t = _
  rw [bucketLookup_sortBuckets, foldl_updStep_byTag t items idx hnd htags]

theorem updateIndexFromItems_byScopeTag_lookup
    (dateParse : String → Option ℤ)
    (idx : MemoryIndex) (items : List MemoryItem) (s t : String)
    (hndO : (idx.byScopeTag.map Prod.fst).Nodup)
    (hndI : ∀ p ∈ idx.byScopeTag, (p.2.map Prod.fst).Nodup)
    (htags : ∀ i ∈ items, i.tags.Nodup) :
    lookup2 (updateIndexFromItems dateParse idx items).byScopeTag s t =
      Option.map (fun b =>
          b.mergeSort (idxLe (idxTime dateParse (itemsByIdMap items))))
        (items.foldl
          (keyStep (fun i => i.scope == s && i.tags.contains t))
          (lookup2 idx.byScopeTag s t)) := by
  rw [show (updateIndexFromItems dateParse idx items).byScopeTag =
    (sortIndex (idxTime dateParse (itemsByIdMap items))
      (items.foldl updStep idx)).byScopeTag from rfl]
  rw [lookup2_sortIndex,
    foldl_updStep_byScopeTag s t items idx hndO hndI htags]

theorem updateIndexFromItems_byScope_keys (dateParse : String → Option ℤ)
    (idx : MemoryIndex) (items : List MemoryItem)
    (hnd : (idx.byScope.map Prod.fst).Nodup) :
    (((updateIndexFromItems dateParse idx items).byScope).map
      Prod.fst).Nodup := by
  show ((sortBuckets (idxTime dateParse (itemsByIdMap items))
    ((items.foldl updStep idx).byScope)).map Prod.fst).Nodup
  rw [sortBuckets_keys]
  exact foldl_updStep_byScope_keys items idx hnd

theorem updateIndexFromItems_byTag_keys (dateParse : String → Option ℤ)
    (idx : MemoryIndex) (items : List MemoryItem)
    (hnd : (idx.byTag.map Prod.fst).Nodup) :
    (((updateIndexFromItems dateParse idx items).byTag).map
      Prod.fst).Nodup := by
  show ((sortBuckets (idxTime dateParse (itemsByIdMap items))
    ((items.foldl updStep idx).byTag)).map Prod.fst).Nodup
  rw [sortBuckets_keys]
  exact foldl_updStep_byTag_keys items idx hnd

theorem updateIndexFromItems_byScopeTag_keys
    (dateParse : String → Option ℤ)
    (idx : MemoryIndex) (items : List MemoryItem)
    (hnd : (idx.byScopeTag.map Prod.fst).Nodup) :
    (((updateIndexFromItems dateParse idx items).byScopeTag).map
      Prod.fst).Nodup := by
  show ((((items.foldl updStep idx).byScopeTag).map
    (fun p => (p.1, sortBuckets (idxTime dateParse (itemsByIdMap items))
      p.2))).map Prod.fst).Nodup
  rw [List.map_map]
  rw [show (Prod.fst ∘ fun p : String × List (String × List String) =>
    (p.1, sortBuckets (idxTime dateParse (itemsByIdMap items)) p.2)) =
    Prod.fst from rfl]
  exact foldl_updStep_byScopeTag_keys items idx hnd

theorem updateIndexFromItems_byScopeTag_inner
    (dateParse : String → Option ℤ)
    (idx : MemoryIndex) (items : List MemoryItem)
    (hin : ∀ p ∈ idx.byScopeTag, (p.2.map Prod.fst).Nodup) :
    ∀ p ∈ (updateIndexFromItems dateParse idx items).byScopeTag,
      (p.2.map Prod.fst).Nodup := by
  intro p hp
  have hp2 : p ∈ ((items.foldl updStep idx).byScopeTag).map
      (fun p => (p.1, sortBuckets (idxTime dateParse (itemsByIdMap items))
        p.2)) := hp
  rcases List.mem_map.mp hp2 with ⟨q, hq, hqp⟩
  rw [← hqp]
  show (((sortBuckets (idxTime dateParse (itemsByIdMap items)) q.2)).map
    Prod.fst).Nodup
  rw [sortBuckets_keys]
  exact foldl_updStep_byScopeTag_inner items idx hin q hq

theorem bucketLookup_getD_nodup (m : List (String × List String))
    (k : String) (hb : ∀ p ∈ m, p.2.Nodup) :
    ((bucketLookup m k).getD []).Nodup := by
  cases h : bucketLookup m k with
  | none => exact List.nodup_nil
  | some b =>
    unfold bucketLookup at h
    rcases Option.map_eq_some'.mp h with ⟨q, hq, hqb⟩
    rw [← hqb]
    exact hb q (List.mem_of_find?_eq_some hq)

theorem lookup2_getD_nodup
    (m : List (String × List (String × List String))) (s t : String)
    (hb : ∀ p ∈ m, ∀ q ∈ p.2, q.2.Nodup) :
    ((lookup2 m s t).getD []).Nodup := by
  unfold lookup2
  cases h : nestedLookup m s with
  | none => exact List.nodup_nil
  | some inner =>
    unfold nestedLookup at h
    rcases Option.map_eq_some'.mp h with ⟨q, hq, hqi⟩
    apply bucketLookup_getD_nodup
    intro r hr
    apply hb q (List.mem_of_find?_eq_some hq)
    rw [hqi]
    exact hr

theorem pairwise_rel_of_forall {β : Type} {R : β → β → Prop}
    (h : ∀ a b, R a b) : ∀ l : List β, l.Pairwise R
  | [] => List.Pairwise.nil
  | x :: t => List.Pairwise.cons (fun y _ => h x y)
      (pairwise_rel_of_forall h t)

theorem sortBuckets_const (time : String → ℤ) (c : ℤ)
    (hc : ∀ id, time id = c) (m : List (String × List String)) :
    sortBuckets time m = m := by
  unfold sortBuckets
  have hsort : ∀ b : List String, b.mergeSort (idxLe time) = b := by
    intro b
    apply List.mergeSort_of_sorted
    apply pairwise_rel_of_forall
    intro a b2
    show idxLe time a b2 = true
    unfold idxLe
    rw [hc, hc]
    simp
  rw [show (fun p : String × List String =>
      (p.1, p.2.mergeSort (idxLe time))) = id from
    funext fun p => by rw [hsort p.2]; rfl]
  exact List.map_id m

theorem sortIndex_const (time : String → ℤ) (c : ℤ)
    (hc : ∀ id, time id = c) (idx : MemoryIndex) :
    sortIndex time idx = idx := by
  unfold sortIndex
  rw [sortBuckets_const time c hc, sortBuckets_const time c hc,
    show (fun p : String × List (String × List String) =>
        (p.1, sortBuckets time p.2)) = id from
      funext fun p => by rw [sortBuckets_const time c hc p.2]; rfl,
    List.map_id]

/-- C7 counterexample.  The claim says applying the incremental update
twice with the same items yields the same index.  On the second
application, removing `x` empties (and so deletes) the `a` bucket before
re-adding it, which re-creates the key `a` at the end of the key order:
the `byScope` key order changes from `a, b` to `b, a`, so the resulting
index objects differ even though every bucket is unchanged. -/
theorem updateIndexFromItems_claim_counterexample :
    updateIndexFromItems (fun _ => some 0)
        (updateIndexFromItems (fun _ => some 0) idxC [itemX, itemY])
        [itemX, itemY] ≠
      updateIndexFromItems (fun _ => some 0) idxC [itemX, itemY] := by
  have hc : ∀ id,
      idxTime (fun _ => some 0) (itemsByIdMap [itemX, itemY]) id = 0 := by
    intro id
    unfold idxTime
    split <;> rfl
  have h1 : updateIndexFromItems (fun _ => some 0) idxC [itemX, itemY] =
      { byScope := [("a", ["x"]), ("b", ["z", "y"])],
        byTag := [], byScopeTag := [] } := by
    unfold updateIndexFromItems
    rw [sortIndex_const _ 0 hc]
    rfl
  have h2 : updateIndexFromItems (fun _ => some 0)
      { byScope := [("a", ["x"]), ("b", ["z", "y"])],
        byTag := ([] : List (String × List String)),
        byScopeTag :=
          ([] : List (String × List (String × List String))) }
      [itemX, itemY] =
      { byScope := [("b", ["z", "y"]), ("a", ["x"])],
        byTag := [], byScopeTag := [] } := by
    unfold updateIndexFromItems
    rw [sortIndex_const _ 0 hc]
    rfl
  rw [h1, h2]
  intro h
  exact absurd (congrArg MemoryIndex.byScope h) (by decide)

/-- **C7** (amended).  The incremental index update is idempotent up to
bucket contents, not as a literal object: for a well-formed prior index
(distinct keys at every level, duplicate-free buckets), affected items
with distinct ids, duplicate-free tag lists and parsable `updatedAt`,
applying the update twice with the same items gives an index whose
`byScope`, `byTag` and `byScopeTag` buckets all read back equal to those
after one application (the key creation order may differ, as the
counterexample shows). -/
theorem updateIndexFromItems_idempotent_pointwise
    (dateParse : String → Option ℤ) (idx : MemoryIndex)
    (items : List MemoryItem) (hwf : IndexWF idx)
    (hids : (items.map (fun i => i.id)).Nodup)
    (htags : ∀ item ∈ items, item.tags.Nodup)
    (hparse : ∀ item ∈ items, (dateParse item.updatedAt).isSome = true) :
    (∀ s : String,
      bucketLookup (updateIndexFromItems dateParse
        (updateIndexFromItems dateParse idx items) items).byScope s =
      bucketLookup
        (updateIndexFromItems dateParse idx items).byScope s) ∧
    (∀ t : String,
      bucketLookup (updateIndexFromItems dateParse
        (updateIndexFromItems dateParse idx items) items).byTag t =
      bucketLookup (updateIndexFromItems dateParse idx items).byTag t) ∧
    (∀ s t : String,
      lookup2 (updateIndexFromItems dateParse
        (updateIndexFromItems dateParse idx items) items).byScopeTag s t =
      lookup2
        (updateIndexFromItems dateParse idx items).byScopeTag s t) := by
  obtain ⟨⟨hndS, hbS⟩, ⟨hndT, hbT⟩, hndO, hIN⟩ := hwf
  refine ⟨?_, ?_, ?_⟩
  · intro s
    rw [updateIndexFromItems_byScope_lookup dateParse _ items s
      (updateIndexFromItems_byScope_keys dateParse idx items hndS)]
    rw [updateIndexFromItems_byScope_lookup dateParse idx items s hndS]
    exact keyStep_sort_idem _ _ items hids _
      (bucketLookup_getD_nodup idx.byScope s hbS)
  · intro t
    rw [updateIndexFromItems_byTag_lookup dateParse _ items t
      (updateIndexFromItems_byTag_keys dateParse idx items hndT) htags]
    rw [updateIndexFromItems_byTag_lookup dateParse idx items t hndT htags]
    exact keyStep_sort_idem _ _ items hids _
      (bucketLookup_getD_nodup idx.byTag t hbT)
  · intro s t
    rw [updateIndexFromItems_byScopeTag_lookup dateParse _ items s t
      (updateIndexFromItems_byScopeTag_keys dateParse idx items hndO)
      (updateIndexFromItems_byScopeTag_inner dateParse idx items
        (fun p hp => (hIN p hp).1)) htags]
    rw [updateIndexFromItems_byScopeTag_lookup dateParse idx items s t
      hndO (fun p hp => (hIN p hp).1) htags]
    exact keyStep_sort_idem _ _ items hids _
      (lookup2_getD_nodup idx.byScopeTag s t
        (fun p hp q hq => (hIN p hp).2 q hq))

/-- C7 witness: the amended theorem applied at the counterexample's inputs
(which are well formed), read back at the scope key `a`. -/
theorem updateIndexFromItems_idem_witness :
    bucketLookup (updateIndexFromItems (fun _ => some 0)
        (updateIndexFromItems (fun _ => some 0) idxC [itemX, itemY])
        [itemX, itemY]).byScope "a" =
      bucketLookup (updateIndexFromItems (fun _ => some 0) idxC
        [itemX, itemY]).byScope "a" :=
  (updateIndexFromItems_idempotent_pointwise (fun _ => some 0) idxC
    [itemX, itemY]
    (by unfold IndexWF BucketsWF; refine ⟨⟨?_, ?_⟩, ⟨?_, ?_⟩, ?_, ?_⟩ <;>
      decide)
    (by decide) (by decide) (by decide)).1 "a"

/-- C6 witness: the amended theorem applied to a concrete pair of
same-content items with duplicate-free tag lists. -/
theorem pruneMemory_dedup_spec_witness :
    (pruneMemory (fun _ => some 0) [baseItem, mergeTagItemB]
        dupPruneConfig dupSummarizationConfig 0).filter
      (fun a => a.reason == "duplicate content in scope" ||
        a.reason == "merge tags from duplicate") =
      specDedup [baseItem, mergeTagItemB] :=
  pruneMemory_dedup_spec (fun _ => some 0) [baseItem, mergeTagItemB]
    dupPruneConfig dupSummarizationConfig 0 rfl (by decide)

end CodexMem
